import Mathlib

/-!
# Succinct small progress measures (`src/sspm.cpp`)

A shallow embedding of the measure algebra of `SSPMSolver` (`trunc_tmp`,
`prog_tmp`, `compare`), of the copies between the measure pool and the scratch
buffers, and of the relaxation step `lift`, followed by theorems about them.

Conventions of the embedding.

* A C array is a `List`; a read or write outside the array has no defined
  behaviour in C++, and is the result `none` here (`rd`, `wr`).  Every
  operation therefore returns an `Option`.
* `tmp_b`/`tmp_d` (and `best_b`/`best_d`) are the two fields of a `Measure`.
  The bit arrays are bitsets, so a bit is a `Bool`; the level tags are `int`s,
  modelled by `Int` (the only arithmetic on tags is `+1`/`-1` on values between
  `-1` and `h`).
* A loop `for (i = l-1; i >= 0 ...; i--)` is a recursion on `i+1 : Nat`, and a
  loop `for (i = a; i < l; i++)` a recursion on the number `l - a` of remaining
  iterations, carrying `i`.
* The code is the release build (`NDEBUG`): trace output and the `test` buffer
  with its assertions are left out; they do not change `tmp`, `best` or the
  pool.
-/

namespace SSPM

/-! ## Arrays -/

/-- Read `xs[i]`; `none` when `i` is outside the array. -/
def rd {α : Type} (xs : List α) (i : Nat) : Option α := xs[i]?

/-- Write `xs[i] = v`; `none` when `i` is outside the array. -/
def wr {α : Type} (xs : List α) (i : Nat) (v : α) : Option (List α) :=
  if i < xs.length then some (xs.set i v) else none

/-- A scratch measure: the bit array and the level-tag array (`tmp_b`, `tmp_d`). -/
structure Measure where
  b : List Bool
  d : List Int
deriving DecidableEq, Repr

/-! ## `trunc_tmp` -/

/-- The loop of `trunc_tmp`: `for (i=l-1; i>=0 and tmp_d[i] > pindex; i--)`,
the first argument being `i+1`. -/
def truncLoop (pindex : Int) : Nat → Measure → Option Measure
  | 0, tmp => some tmp
  | i + 1, tmp => do
    let di ← rd tmp.d i
    if di > pindex then
      let b ← wr tmp.b i false
      let d ← wr tmp.d i (pindex + 1)
      truncLoop pindex i ⟨b, d⟩
    else
      some tmp

/-- The function `SSPMSolver::trunc_tmp(int pindex)` on the scratch measure `tmp` of length `l`. -/
def trunc_tmp (l : Nat) (pindex : Int) (tmp : Measure) : Option Measure := do
  let d0 ← rd tmp.d 0
  if d0 = -1 then
    some tmp
  else
    truncLoop pindex l tmp

/-! ## `prog_tmp` -/

/-- The loop of case 2 of `prog_tmp`:
`for (i=l-1; i>=0 and tmp_d[i] > pindex; i--)`; the first argument is `i+1`,
and the result carries the value of `i+1` at loop exit. -/
def progLow (pindex : Int) : Nat → Measure → Option (Nat × Measure)
  | 0, tmp => some (0, tmp)
  | i + 1, tmp => do
    let di ← rd tmp.d i
    if di > pindex then
      let b ← wr tmp.b i false
      let d ← wr tmp.d i pindex
      progLow pindex i ⟨b, d⟩
    else
      some (i + 1, tmp)

/-- The inner loops `for (int k=i; k<l; k++) tmp_d[k] = new_d;` of `prog_tmp`:
`cnt` is the number `l - k` of remaining iterations. -/
def fillTags (new_d : Int) : (cnt k : Nat) → List Int → Option (List Int)
  | 0, _, d => some d
  | cnt + 1, k, d => do
    let d1 ← wr d k new_d
    fillTags new_d cnt (k + 1) d1

/-- The loop of case 3 of `prog_tmp`: `for (int i=l-1; i>=0; i--)`, the second
argument being `i+1`. -/
def progCarry (l : Nat) (h : Int) : Nat → Measure → Option Measure
  | 0, tmp => some tmp
  | i + 1, tmp => do
    let bi ← rd tmp.b i
    if bi = false then
      let di ← rd tmp.d i
      if di = h then
        -- 3a
        let b ← wr tmp.b i true
        some ⟨b, tmp.d⟩
      else
        -- 3b
        let b ← wr tmp.b i false
        let d ← fillTags (di + 1) (l - i) i tmp.d
        some ⟨b, d⟩
    else if i = 0 then
      let d0 ← rd tmp.d 0
      if d0 = 0 then
        -- 3c
        let b ← wr tmp.b 0 false
        let d ← wr tmp.d 0 (-1)
        some ⟨b, d⟩
      else
        -- 3d
        let b ← wr tmp.b 0 true
        let d ← fillTags (d0 - 1) l 0 tmp.d
        some ⟨b, d⟩
    else do
      let dp ← rd tmp.d (i - 1)
      let di ← rd tmp.d i
      if dp ≠ di then
        -- 3e, 3f
        let b ← wr tmp.b i true
        let d ← fillTags (di - 1) (l - i) i tmp.d
        some ⟨b, d⟩
      else
        let b ← wr tmp.b i false
        progCarry l h i ⟨b, tmp.d⟩

/-- The function `SSPMSolver::prog_tmp(int pindex, int h)` on the scratch measure `tmp` of
length `l`.  The read `tmp_d[l-1]` is outside the array when `l = 0`. -/
def prog_tmp (l : Nat) (pindex h : Int) (tmp : Measure) : Option Measure := do
  let d0 ← rd tmp.d 0
  if d0 = -1 then
    some tmp
  else
    let dl ← if l = 0 then none else rd tmp.d (l - 1)
    if dl > pindex then
      let (i1, t) ← progLow pindex l tmp
      let b ← wr t.b i1 true
      some ⟨b, t.d⟩
    else
      progCarry l h l tmp

/-! ## `compare` -/

/-- The loop `for (int i=0; i<l; i++)` of `compare`; `cnt` is `l - i`. -/
def compareLoop (pindex : Int) (tmp best : Measure) : (cnt i : Nat) → Option Int
  | 0, _ => some 0
  | cnt + 1, i => do
    let td ← rd tmp.d i
    let bd ← rd best.d i
    if td > pindex ∧ bd > pindex then
      some 0
    else if td < bd then
      let tb ← rd tmp.b i
      if tb = false then some (-1) else some 1
    else if td > bd then
      let bb ← rd best.b i
      if bb = false then some 1 else some (-1)
    else do
      let tb ← rd tmp.b i
      let bb ← rd best.b i
      if tb < bb then some (-1)
      else if tb > bb then some 1
      else compareLoop pindex tmp best cnt (i + 1)

/-- The function `SSPMSolver::compare(int pindex)`: compares `tmp` with `best`
(`-1`: `tmp < best`, `0`: equal, `1`: `tmp > best`). -/
def compare (l : Nat) (pindex : Int) (tmp best : Measure) : Option Int := do
  let t0 ← rd tmp.d 0
  if t0 = -1 then
    let b0 ← rd best.d 0
    if b0 = -1 then some 0 else some 1
  else
    let b0 ← rd best.d 0
    if b0 = -1 then some (-1) else compareLoop pindex tmp best l 0

/-! ## The game, the measure pool and the scratch buffers -/

/-- The game data that `lift` reads through the `Solver` base class
(`priority`, `owner`, `disabled`, `out`, `in`); the declarations are in headers
that are not part of the sources, so the arrays are taken as given: one entry
per vertex, `owner` and the player being `0` or `1`. -/
structure Game where
  n_nodes : Nat
  priority : List Int
  owner : List Int
  disabled : List Bool
  out : List (List Nat)
  inn : List (List Nat)
deriving DecidableEq, Repr

/-- The fields of `SSPMSolver` used by `lift`: the bit budget `l`, the level
count `h`, the pool `pm_b`/`pm_d` (`l` slots per vertex) and the scratch
measures `tmp` and `best`. -/
structure Solver where
  l : Nat
  h : Int
  pm_b : List Bool
  pm_d : List Int
  tmp : Measure
  best : Measure
deriving DecidableEq, Repr

/-- The copy loops `for (int i=0; i<l; i++) dst[doff+i] = src[soff+i];` of
`to_tmp`, `from_tmp`, `to_best` and `from_best`; `cnt` is `l - i`. -/
def copyLoop {α : Type} (src : List α) (soff doff : Nat) :
    (cnt i : Nat) → List α → Option (List α)
  | 0, _, dst => some dst
  | cnt + 1, i, dst => do
    let x ← rd src (soff + i)
    let dst1 ← wr dst (doff + i) x
    copyLoop src soff doff cnt (i + 1) dst1

/-- The function `SSPMSolver::to_tmp(int idx)`. -/
def to_tmp (s : Solver) (idx : Nat) : Option Solver := do
  let base := idx * s.l
  let b ← copyLoop s.pm_b base 0 s.l 0 s.tmp.b
  let d ← copyLoop s.pm_d base 0 s.l 0 s.tmp.d
  some { s with tmp := ⟨b, d⟩ }

/-- The function `SSPMSolver::from_tmp(int idx)`. -/
def from_tmp (s : Solver) (idx : Nat) : Option Solver := do
  let base := idx * s.l
  let b ← copyLoop s.tmp.b 0 base s.l 0 s.pm_b
  let d ← copyLoop s.tmp.d 0 base s.l 0 s.pm_d
  some { s with pm_b := b, pm_d := d }

/-- The function `SSPMSolver::to_best(int idx)`. -/
def to_best (s : Solver) (idx : Nat) : Option Solver := do
  let base := idx * s.l
  let b ← copyLoop s.pm_b base 0 s.l 0 s.best.b
  let d ← copyLoop s.pm_d base 0 s.l 0 s.best.d
  some { s with best := ⟨b, d⟩ }

/-- The function `SSPMSolver::from_best(int idx)`. -/
def from_best (s : Solver) (idx : Nat) : Option Solver := do
  let base := idx * s.l
  let b ← copyLoop s.best.b 0 base s.l 0 s.pm_b
  let d ← copyLoop s.best.d 0 base s.l 0 s.pm_d
  some { s with pm_b := b, pm_d := d }

/-- The function `SSPMSolver::tmp_to_best()`: the bitset assignment `best_b = tmp_b` and
`memcpy(best_d, tmp_d, sizeof(int[l]))`, which copies the first `l` tags. -/
def tmp_to_best (s : Solver) : Option Solver :=
  if s.l ≤ s.tmp.d.length ∧ s.l ≤ s.best.d.length then
    some { s with best := ⟨s.tmp.b, s.tmp.d.take s.l ++ s.best.d.drop s.l⟩ }
  else
    none

/-! ## `lift` -/

/-- The level index of `lift`:
`pindex = pl == 0 ? h-(pr+1)/2-1 : h-pr/2-1`, with the truncating division of C. -/
def pindexOf (h pr pl : Int) : Int :=
  if pl = 0 then h - (pr + 1).tdiv 2 - 1 else h - pr.tdiv 2 - 1

/-- The statement `if (pl == (pr&1)) prog_tmp(pindex, h); else trunc_tmp(pindex);`
of `lift`. -/
def applyOp (s : Solver) (pr pl pindex : Int) : Option Solver := do
  let t ← if pl = pr % 2 then prog_tmp s.l pindex s.h s.tmp else trunc_tmp s.l pindex s.tmp
  some { s with tmp := t }

/-- The loop `for (int to : out[v])` of `lift`, on the remaining out-edges (the
successor `to` is `w` here); the state is `first`, `str` and the solver. -/
def scanOut (g : Game) (v : Nat) (pr pl pindex : Int) :
    List Nat → Bool × Int × Solver → Option (Bool × Int × Solver)
  | [], st => some st
  | w :: rest, (first, str, s) => do
    let dis ← rd g.disabled w
    if dis then
      scanOut g v pr pl pindex rest (first, str, s)
    else
      let s1 ← to_tmp s w
      let s2 ← applyOp s1 pr pl pindex
      if first then
        let s3 ← tmp_to_best s2
        scanOut g v pr pl pindex rest (false, (w : Int), s3)
      else
        let ow ← rd g.owner v
        if ow = pl then
          -- we want the max
          let c ← compare s2.l pindex s2.tmp s2.best
          if c > 0 then
            let s3 ← tmp_to_best s2
            scanOut g v pr pl pindex rest (false, (w : Int), s3)
          else
            scanOut g v pr pl pindex rest (false, str, s2)
        else
          -- we want the min
          let c ← compare s2.l pindex s2.tmp s2.best
          if c < 0 then
            let s3 ← tmp_to_best s2
            scanOut g v pr pl pindex rest (false, (w : Int), s3)
          else
            scanOut g v pr pl pindex rest (false, str, s2)

/-- The function `SSPMSolver::lift(int v, int target, int &str, int pl)`: the result is the
returned flag, the value of `str` after the call and the solver state after the
call.  `target` is a vertex or `-1`. -/
def lift (g : Game) (s : Solver) (v : Nat) (target : Int) (str : Int) (pl : Int) :
    Option (Bool × Int × Solver) := do
  let d0 ← rd s.pm_d (s.l * v)
  if d0 = -1 then
    some (false, str, s)
  else
    let pr ← rd g.priority v
    let pindex := pindexOf s.h pr pl
    let ow ← rd g.owner v
    if ow = pl ∧ target ≠ -1 then
      if target < 0 then
        none
      else
        let s1 ← to_tmp s target.toNat
        let s2 ← applyOp s1 pr pl pindex
        let s3 ← to_best s2 v
        let c ← compare s3.l pindex s3.tmp s3.best
        if c > 0 then
          let s4 ← from_tmp s3 v
          some (true, str, s4)
        else
          some (false, str, s3)
    else
      let outv ← rd g.out v
      let (_, str1, s1) ← scanOut g v pr pl pindex outv (true, str, s)
      let s2 ← to_tmp s1 v
      let c ← compare s2.l pindex s2.tmp s2.best
      if c < 0 then
        let s3 ← from_best s2 v
        some (true, str1, s3)
      else
        some (false, str1, s2)

/-! ## Vocabulary of the statements -/

/-- One slot of a measure: its bit and its level tag. -/
abbrev Slot := Bool × Int

/-- The measure whose slots are `xs`. -/
def ofSlots (xs : List Slot) : Measure := ⟨xs.map Prod.fst, xs.map Prod.snd⟩

/-- The slots of a measure. -/
def Measure.slots (m : Measure) : List Slot := m.b.zip m.d

/-- Both arrays of the measure have `l` entries. -/
def Measure.Sized (l : Nat) (m : Measure) : Prop := m.b.length = l ∧ m.d.length = l

/-- The measure is Top: the level tag of slot 0 is the sentinel `-1`. -/
def Measure.IsTop (m : Measure) : Prop := rd m.d 0 = some (-1)

/-- A finite measure of length `l`: both arrays have `l` entries, and the level
tags are non-negative and non-decreasing in slot index. -/
def Measure.Finite (l : Nat) (m : Measure) : Prop :=
  m.Sized l ∧ (∀ t ∈ m.d, 0 ≤ t) ∧ m.d.Pairwise (fun x y => x ≤ y)

instance (l : Nat) (m : Measure) : Decidable (m.Sized l) := by
  unfold Measure.Sized; infer_instance

instance (m : Measure) : Decidable m.IsTop := by
  unfold Measure.IsTop; infer_instance

instance (l : Nat) (m : Measure) : Decidable (m.Finite l) := by
  unfold Measure.Finite; infer_instance

/-- The body of the loop of `compare` as a function of the two slot lists:
the value `compare` returns when it scans the slots `xs` of `tmp` against the
slots `ys` of `best`. -/
def cmpS (p : Int) : List Slot → List Slot → Int
  | a :: xs, b :: ys =>
    if a.2 > p ∧ b.2 > p then 0
    else if a.2 < b.2 then (if a.1 = false then -1 else 1)
    else if a.2 > b.2 then (if b.1 = false then 1 else -1)
    else if a.1 < b.1 then -1
    else if a.1 > b.1 then 1
    else cmpS p xs ys
  | _, _ => 0

/-- The value of `compare` on two measures given by their slots: the cases
involving Top first, the scan of the slots otherwise. -/
def cmpM (p : Int) (xs ys : List Slot) : Int :=
  if (xs.head?.map Prod.snd) = some (-1) then
    (if (ys.head?.map Prod.snd) = some (-1) then 0 else 1)
  else if (ys.head?.map Prod.snd) = some (-1) then -1
  else cmpS p xs ys

/-- The rank of a slot in the order `compare` uses at level bound `p`: slots
tagged above `p` have rank `0`, a `0` bit at level `d ≤ p` has the negative rank
`d - p - 1`, a `1` bit at level `d ≤ p` the positive rank `p + 1 - d`. -/
def key (p : Int) (s : Slot) : Int :=
  if s.2 > p then 0 else if s.1 then p + 1 - s.2 else s.2 - p - 1

/-- The measure stored in the pool for vertex `v`. -/
def Solver.pm (s : Solver) (v : Nat) : Measure :=
  ⟨(s.pm_b.drop (v * s.l)).take s.l, (s.pm_d.drop (v * s.l)).take s.l⟩

/-- A solver state with a bit budget of at least one slot whose arrays have the
sizes `run` gives them for the game `g`: a pool of `l` slots per vertex, scratch
measures of `l` slots, one entry per vertex in the game arrays, and edges that
lead to vertices. -/
def Solver.Ok (g : Game) (s : Solver) : Prop :=
  0 < s.l ∧ s.pm_b.length = s.l * g.n_nodes ∧ s.pm_d.length = s.l * g.n_nodes ∧
  s.tmp.Sized s.l ∧ s.best.Sized s.l ∧
  g.priority.length = g.n_nodes ∧ g.owner.length = g.n_nodes ∧
  g.disabled.length = g.n_nodes ∧ g.out.length = g.n_nodes ∧
  (∀ es ∈ g.out, ∀ w ∈ es, w < g.n_nodes)

instance (g : Game) (s : Solver) : Decidable (s.Ok g) := by
  unfold Solver.Ok; infer_instance

/-- The solver `s` has the bit budget, the level count and the pool of `s0`. -/
def Solver.Same (s0 s : Solver) : Prop :=
  s.l = s0.l ∧ s.h = s0.h ∧ s.pm_b = s0.pm_b ∧ s.pm_d = s0.pm_d

/-! ## Sample measures and states -/

/-- The measure `{ 1, 0 }` of two slots. -/
def exA : Measure := ofSlots [(true, 0), (false, 1)]

/-- The measure `{ 1, 1 }` of two slots. -/
def exB : Measure := ofSlots [(true, 0), (true, 1)]

/-- The measure `{ 11, ε }` of two slots. -/
def exC : Measure := ofSlots [(true, 0), (true, 0)]

/-- A Top measure of two slots. -/
def exTop : Measure := ⟨[false, false], [-1, 0]⟩

/-- The minimum measure of one slot. -/
def exMin1 : Measure := ofSlots [(false, 0)]

/-- A game of three vertices, all of priority 0 and owned by player 0: vertex 0
has the single edge `0 → 2`, vertex 1 the self-loop `1 → 1`, and vertex 2 is
disabled, so vertex 0 has no enabled successor. -/
def exGame : Game :=
  { n_nodes := 3
    priority := [0, 0, 0]
    owner := [0, 0, 0]
    disabled := [false, false, true]
    out := [[2], [1], []]
    inn := [[], [1], [0]] }

/-- The state in which `run(2, 1, 0)` starts on `exGame` (`l = ceil_log2(3) = 2`,
`h = 0/2 + 1 = 1`): the pool holds the minimum measure for every vertex; the
scratch arrays, which `run` allocates without initialising them, hold zeros. -/
def exInit : Solver :=
  { l := 2
    h := 1
    pm_b := [false, false, false, false, false, false]
    pm_d := [0, 0, 0, 0, 0, 0]
    tmp := ⟨[false, false], [0, 0]⟩
    best := ⟨[false, false], [0, 0]⟩ }

/-- The state of the sweep of `run(2, 1, 0)` on `exGame` when it reaches vertex
0: vertex 1 has been lifted twice, and `best` still holds the measure that
`to_best(1)` loaded during the second of these calls. -/
def exDead : Solver :=
  { l := 2
    h := 1
    pm_b := [false, false, false, true, false, false]
    pm_d := [0, 0, 0, 0, 0, 0]
    tmp := ⟨[false, true], [0, 0]⟩
    best := ⟨[false, false], [0, 1]⟩ }

/-! ## `ceil_log2` -/

/-- The table `t` of `ceil_log2`. -/
def ceil_log2_t : List Nat :=
  [0xFFFFFFFF00000000, 0x00000000FFFF0000, 0x000000000000FF00, 0x00000000000000F0,
   0x000000000000000C, 0x0000000000000002]

/-- The loop `for (i = 0; i < 6; i++)` of `ceil_log2` over the remaining entries
of the table, with the current values of `y`, `x` and `j`. -/
def ceilLoop : List Nat → (y x j : Nat) → Nat
  | [], y, _, _ => y
  | t :: ts, y, x, j =>
    let k := if x &&& t = 0 then 0 else j
    ceilLoop ts (y + k) (x >>> k) (j >>> 1)

/-- The function `ceil_log2(unsigned long long x)`: `x` is a 64-bit unsigned
value, so `x - 1` wraps modulo `2^64`; `y`, `j` and `k` stay below `65`. -/
def ceil_log2 (x : Nat) : Nat :=
  let y := if x &&& ((x + 2 ^ 64 - 1) % 2 ^ 64) = 0 then 0 else 1
  ceilLoop ceil_log2_t y x 32

/-! ## The driver `run` -/

/-- Modelled from the spec: `todo_push(int)` is declared in a header that is not
part of the sources.  The work queue is a de-duplicated FIFO: a vertex already
queued is not enqueued again, a new vertex goes to the back. -/
def todo_push (q : List Nat) (v : Nat) : List Nat :=
  if v ∈ q then q else q ++ [v]

/-- Modelled from the spec: `todo_pop()` is declared in a header that is not part
of the sources.  It dequeues the vertex at the front of the work queue. -/
def todo_pop : List Nat → Option (Nat × List Nat)
  | [] => none
  | n :: q => some (n, q)

/-- The loop `for (int from : in[n])` of `run` on the remaining predecessors
(`from` is `v` here): each enabled predecessor is lifted with `n` as target and
pushed on the work queue when the lift succeeds.  The variable `int s` that
receives the strategy is local and never read. -/
def liftPreds (g : Game) (pl : Int) (n : Nat) :
    List Nat → Solver × List Nat → Option (Solver × List Nat)
  | [], st => some st
  | v :: rest, (s, q) => do
    let dis ← rd g.disabled v
    if dis then
      liftPreds g pl n rest (s, q)
    else
      let (r, _, s1) ← lift g s v (n : Int) 0 pl
      if r then
        liftPreds g pl n rest (s1, todo_push q v)
      else
        liftPreds g pl n rest (s1, q)

/-- The sweep `for (int n=n_nodes-1; n>=0; n--)` of `run`; the first argument is
`n + 1`. -/
def sweep (g : Game) (pl : Int) : Nat → Solver × List Nat → Option (Solver × List Nat)
  | 0, st => some st
  | n + 1, (s, q) => do
    let dis ← rd g.disabled n
    if dis then
      sweep g pl n (s, q)
    else
      let (r, _, s1) ← lift g s n (-1) 0 pl
      if r then
        let preds ← rd g.inn n
        let st ← liftPreds g pl n preds (s1, q)
        sweep g pl n st
      else
        sweep g pl n (s1, q)

/-- One iteration of the loop `while (!Q.empty())` of `run`: pop a vertex and
lift its enabled predecessors; nothing happens when the queue is empty. -/
def drainStep (g : Game) (pl : Int) : Solver × List Nat → Option (Solver × List Nat)
  | (s, q) =>
    match todo_pop q with
    | none => some (s, q)
    | some (n, q1) => do
      let preds ← rd g.inn n
      liftPreds g pl n preds (s, q1)

/-- The loop `while (!Q.empty())` of `run`, cut off after `fuel` iterations: the
result is the state when the queue is empty, or the state reached after `fuel`
iterations.  The loop has finished exactly when the queue of the result is
empty. -/
def drain (g : Game) (pl : Int) : Nat → Solver × List Nat → Option (Solver × List Nat)
  | 0, st => some st
  | fuel + 1, (s, q) =>
    if q = [] then some (s, q)
    else (drainStep g pl (s, q)).bind (drain g pl fuel)

/-- The loop of `run` that derives the strategies, for the vertices `v`,
`v + 1`, ... (`cnt` of them).  The state is the solver, the array
`game->strategy` and the vertices for which `lift` returned true, which the code
logs as `error: v is not progressive!`. -/
def extractLoop (g : Game) (pl : Int) :
    (cnt v : Nat) → Solver × List Int × List Nat → Option (Solver × List Int × List Nat)
  | 0, _, st => some st
  | cnt + 1, v, (s, strat, errs) => do
    let dis ← rd g.disabled v
    if dis then
      extractLoop g pl cnt (v + 1) (s, strat, errs)
    else
      let d0 ← rd s.pm_d (s.l * v)
      if d0 ≠ -1 then
        let ow ← rd g.owner v
        if ow ≠ pl then
          let sv ← rd strat v
          let (r, str1, s1) ← lift g s v (-1) sv pl
          let strat1 ← wr strat v str1
          extractLoop g pl cnt (v + 1) (s1, strat1, if r then errs ++ [v] else errs)
        else
          extractLoop g pl cnt (v + 1) (s, strat, errs)
      else
        extractLoop g pl cnt (v + 1) (s, strat, errs)

/-- The loop of `run` that marks the solved vertices, for the vertices `v`,
`v + 1`, ... (`cnt` of them): the calls `oink->solve(v, 1-player, strategy[v])`
are collected as triples, in order. -/
def markLoop (g : Game) (pl : Int) (s : Solver) (strat : List Int) :
    (cnt v : Nat) → List (Nat × Int × Int) → Option (List (Nat × Int × Int))
  | 0, _, acc => some acc
  | cnt + 1, v, acc => do
    let dis ← rd g.disabled v
    if dis then
      markLoop g pl s strat cnt (v + 1) acc
    else
      let d0 ← rd s.pm_d (s.l * v)
      if d0 ≠ -1 then
        let sv ← rd strat v
        markLoop g pl s strat cnt (v + 1) (acc ++ [(v, 1 - pl, sv)])
      else
        markLoop g pl s strat cnt (v + 1) acc

/-- The size a `resize` gives to an array: the first `n` entries of `xs`, with
`d` in the places `xs` does not have. -/
def resized {α : Type} (d : α) (xs : List α) (n : Nat) : List α :=
  (xs ++ List.replicate n d).take n

/-- The state at the start of the sweep of `run(n_bits, depth, player)`: `l` and
`h` are set, the three bitsets are resized (`pre` holds them as the code before
left them; `pm_b.reset()` is commented out in the code), `pm_d` is zeroed by
`memset`, and the fresh arrays `tmp_d`, `best_d` from `new int[l]` are not
initialised: their contents are those of `pre` (made `l` entries long). -/
def initRun (g : Game) (l : Nat) (h : Int) (pre : Solver) : Solver :=
  { l := l
    h := h
    pm_b := resized false pre.pm_b (l * g.n_nodes)
    pm_d := List.replicate (l * g.n_nodes) 0
    tmp := ⟨resized false pre.tmp.b l, resized 0 pre.tmp.d l⟩
    best := ⟨resized false pre.best.b l, resized 0 pre.best.d l⟩ }

/-- What a call of `run(n_bits, depth, player)` leaves: the solver, the array
`game->strategy`, the vertices logged as not progressive and the calls of
`oink->solve`. -/
structure RunResult where
  s : Solver
  strategy : List Int
  errors : List Nat
  solved : List (Nat × Int × Int)
deriving DecidableEq, Repr

/-- The sweep and the drain loop of `run(n_bits, depth, player)` from the state
`initRun` sets up, with the work queue empty at the start; the drain loop is cut
off after `fuel` iterations. -/
def runFix (g : Game) (l : Nat) (h : Int) (pl : Int) (pre : Solver) (fuel : Nat) :
    Option (Solver × List Nat) :=
  (sweep g pl g.n_nodes (initRun g l h pre, [])).bind (drain g pl fuel)

/-- The function `SSPMSolver::run(int n_bits, int depth, int player)`: sweep,
drain loop, strategies, solved vertices.  There is no result when an array is
read or written out of bounds, or when the drain loop has not emptied the queue
within `fuel` iterations.  The counters `lift_count` and `lift_attempt` are only
logged and are left out. -/
def run (g : Game) (l : Nat) (h : Int) (pl : Int) (pre : Solver) (strat : List Int)
    (fuel : Nat) : Option RunResult := do
  let (s1, q) ← runFix g l h pl pre fuel
  if q ≠ [] then
    none
  else
    let (s2, strat2, errs) ← extractLoop g pl g.n_nodes 0 (s1, strat, [])
    let solved ← markLoop g pl s2 strat2 g.n_nodes 0 []
    some ⟨s2, strat2, errs, solved⟩

/-- The function `SSPMSolver::run()`.  The sink is not part of the sources:
`unsolved` is the answer of `game->countUnsolved()` after the calls of
`oink->solve` collected so far.  `pre0` holds the bitsets as they are before the
even pass and the contents of the fresh tag arrays of the even pass, `junk` the
contents of the fresh tag arrays of the odd pass, whose bitsets are those the
even pass leaves.  The result lists the outcome of the even pass and, when it
runs, of the odd pass. -/
def runAll (g : Game) (pre0 : Solver) (junk : List Int × List Int) (strat : List Int)
    (unsolved : List (Nat × Int × Int) → Nat) (fuel : Nat) :
    Option (RunResult × Option RunResult) :=
  if g.n_nodes = 0 then
    none
  else do
    let max_prio ← rd g.priority (g.n_nodes - 1)
    let ml := ceil_log2 g.n_nodes
    let h0 := max_prio.tdiv 2 + 1
    let h1 := (max_prio + 1).tdiv 2
    let r0 ← run g ml h0 0 pre0 strat fuel
    if unsolved r0.solved ≠ 0 then
      let pre1 : Solver :=
        { r0.s with tmp := ⟨r0.s.tmp.b, junk.1⟩, best := ⟨r0.s.best.b, junk.2⟩ }
      let r1 ← run g ml h1 1 pre1 r0.strategy fuel
      some (r0, some r1)
    else
      some (r0, none)

/-- The game of one vertex: vertex 0 has priority 0, is owned by player 0 and has
the self-loop `0 → 0` as its only edge. -/
def oneGame : Game :=
  { n_nodes := 1
    priority := [0]
    owner := [0]
    disabled := [false]
    out := [[0]]
    inn := [[0]] }

/-- The game `exGame` with vertex 0 owned by player 1: three vertices of priority
0; vertex 0 has the single edge `0 → 2`, vertex 1 (owner 0) the self-loop
`1 → 1`, and vertex 2 is disabled, so vertex 0 has no enabled successor. -/
def exGame1 : Game :=
  { n_nodes := 3
    priority := [0, 0, 0]
    owner := [1, 0, 0]
    disabled := [false, false, true]
    out := [[2], [1], []]
    inn := [[], [1], [0]] }

/-- A solver object before `run`: empty bitsets, and fresh tag arrays that hold
zeros. -/
def exPre : Solver :=
  { l := 0
    h := 0
    pm_b := []
    pm_d := []
    tmp := ⟨[], []⟩
    best := ⟨[], []⟩ }

/-- The state `run(2, 1, 0)` reaches on `exGame1` from `exPre` when the drain
loop has emptied the queue: vertex 0 holds `{ 0, 0 }`, vertex 1 is Top, and
`best` holds the last finite measure of vertex 1. -/
def exFix : Solver :=
  { l := 2
    h := 1
    pm_b := [false, false, false, false, false, false]
    pm_d := [0, 1, -1, 0, 0, 0]
    tmp := ⟨[false, false], [-1, 0]⟩
    best := ⟨[true, true], [0, 0]⟩ }

/-! ## Vocabulary of the statements about the driver -/

/-- The statement `if (pl == (pr&1)) prog_tmp(pindex, h); else trunc_tmp(pindex);`
of `lift` as a function of the measure held in `tmp`. -/
def opM (l : Nat) (h pr pl p : Int) (M : Measure) : Option Measure :=
  if pl = pr % 2 then prog_tmp l p h M else trunc_tmp l p M

/-- A measure of length `l` that is Top, or finite with every level tag at most
`h`. -/
def Measure.Adm (l : Nat) (h : Int) (m : Measure) : Prop :=
  m.Sized l ∧ (m.IsTop ∨ (m.Finite l ∧ ∀ t ∈ m.d, t ≤ h))

instance (l : Nat) (h : Int) (m : Measure) : Decidable (m.Adm l h) := by
  unfold Measure.Adm; infer_instance

/-- Every measure of the pool is Top or finite with level tags at most `h`. -/
def Solver.PoolAdm (g : Game) (s : Solver) : Prop :=
  ∀ v < g.n_nodes, (s.pm v).Adm s.l s.h

instance (g : Game) (s : Solver) : Decidable (s.PoolAdm g) := by
  unfold Solver.PoolAdm; infer_instance

/-- The array `in` has one entry per vertex and lists vertices. -/
def Game.InOk (g : Game) : Prop :=
  g.inn.length = g.n_nodes ∧ ∀ es ∈ g.inn, ∀ w ∈ es, w < g.n_nodes

instance (g : Game) : Decidable g.InOk := by
  unfold Game.InOk; infer_instance

/-- Every enabled vertex has an enabled successor. -/
def Game.Total (g : Game) : Prop :=
  ∀ v < g.n_nodes, rd g.disabled v = some false →
    ∃ w ∈ g.out.getD v [], rd g.disabled w = some false

instance (g : Game) : Decidable g.Total := by
  unfold Game.Total; infer_instance

/-- The level index that `lift` computes is in `[-1, h - 1]` for every vertex. -/
def Game.Levels (g : Game) (h pl : Int) : Prop :=
  ∀ pr ∈ g.priority, -1 ≤ pindexOf h pr pl ∧ pindexOf h pr pl < h

instance (g : Game) (h pl : Int) : Decidable (g.Levels h pl) := by
  unfold Game.Levels; infer_instance

/-- The digit of a slot in the rank of a measure: the rank `key h` of the slot at
the deepest level bound, shifted to be non-negative. -/
def digit (h : Int) (s : Slot) : Nat := (key h s + (h + 1)).toNat

/-- The rank of a list of slots: its digits read in base `2 * h + 3`. -/
def rankS (h : Int) : List Slot → Nat
  | [] => 0
  | s :: xs => digit h s * (2 * h + 3).toNat ^ xs.length + rankS h xs

/-- The rank of a measure of length `l`: Top has the largest rank. -/
def rank (l : Nat) (h : Int) (m : Measure) : Nat :=
  if m.IsTop then (2 * h + 3).toNat ^ l else rankS h m.slots

/-- The distance of the pool from the state in which every vertex is Top, summed
over the first `n` vertices. -/
def potential (s : Solver) : Nat → Nat
  | 0 => 0
  | n + 1 => potential s n + ((2 * s.h + 3).toNat ^ s.l - rank s.l s.h (s.pm n))

/-- In the scan of `lift` for a vertex of owner `ow`, the candidate `X` is no
better than `Y`: not greater under `compare` when the player owns the vertex (the
scan looks for the maximum), not less otherwise (the minimum). -/
def noBetter (ow pl p : Int) (X Y : Measure) : Prop :=
  if ow = pl then cmpM p X.slots Y.slots ≤ 0 else cmpM p Y.slots X.slots ≤ 0

/-- In the scan of `lift` for a vertex of owner `ow`, the candidate `X` is worse
than `Y`: less under `compare` when the player owns the vertex, greater
otherwise. -/
def worse (ow pl p : Int) (X Y : Measure) : Prop :=
  if ow = pl then cmpM p X.slots Y.slots < 0 else cmpM p Y.slots X.slots < 0

/-- A game of three vertices of priority 0 owned by player 0 in which vertex 1
has the out-edges `1 → 2`, `1 → 0`, `1 → 1`, in this order, and vertex 2 is
disabled. -/
def exScan : Game :=
  { n_nodes := 3
    priority := [0, 0, 0]
    owner := [0, 0, 0]
    disabled := [false, false, true]
    out := [[0], [2, 0, 1], []]
    inn := [[0, 1], [1], [1]] }

/-- The arrays of the game have one entry per vertex and the edges lead to
vertices. -/
def Game.Wf (g : Game) : Prop :=
  g.priority.length = g.n_nodes ∧ g.owner.length = g.n_nodes ∧
  g.disabled.length = g.n_nodes ∧ g.out.length = g.n_nodes ∧
  (∀ es ∈ g.out, ∀ w ∈ es, w < g.n_nodes) ∧ g.InOk

instance (g : Game) : Decidable g.Wf := by
  unfold Game.Wf; infer_instance

/-- The invariant of the driver: the arrays have the sizes `run` gives them, `l`
and `h` are those of the run, every measure of the pool is Top or finite with
tags at most `h`, and `best` is such a measure unless every enabled vertex has an
enabled successor (`best` is then written before it is read). -/
def Solver.Inv (g : Game) (l : Nat) (h : Int) (s : Solver) : Prop :=
  s.Ok g ∧ s.l = l ∧ s.h = h ∧ s.PoolAdm g ∧ (s.best.Adm l h ∨ g.Total)

instance (g : Game) (l : Nat) (h : Int) (s : Solver) : Decidable (s.Inv g l h) := by
  unfold Solver.Inv; infer_instance

/-- A game of three vertices of priority 0 owned by player 0: vertex 0 has the
self-loop `0 → 0` and the edge `0 → 1`, the only edge of vertex 1 leads to the
disabled vertex 2, so vertex 1, the first vertex the sweep visits, has no enabled
successor. -/
def gJunk : Game :=
  { n_nodes := 3
    priority := [0, 0, 0]
    owner := [0, 0, 0]
    disabled := [false, false, true]
    out := [[0, 1], [2], []]
    inn := [[0], [0], [1]] }

/-- A solver object before `run` whose bitsets are empty and whose fresh array
`best_d` holds the values `5, 3`. -/
def preJunk : Solver :=
  { l := 0
    h := 0
    pm_b := []
    pm_d := []
    tmp := ⟨[], []⟩
    best := ⟨[], [5, 3]⟩ }

theorem rd_mid {α : Type} (pre suf : List α) (x : α) :
    rd (pre ++ x :: suf) pre.length = some x := by
  unfold rd
  rw [List.getElem?_append_right (le_refl _)]
  simp

theorem wr_mid {α : Type} (pre suf : List α) (x v : α) :
    wr (pre ++ x :: suf) pre.length v = some (pre ++ v :: suf) := by
  simp [wr]

theorem rd_mid_map {α β : Type} (f : α → β) (pre suf : List α) (x : α) (k : Nat)
    (hk : k = pre.length) :
    rd ((pre ++ x :: suf).map f) k = some (f x) := by
  subst hk
  have := rd_mid (pre.map f) (suf.map f) (f x)
  simpa using this

theorem wr_mid_map {α β : Type} (f : α → β) (pre suf : List α) (x : α) (v : β) (k : Nat)
    (hk : k = pre.length) :
    wr ((pre ++ x :: suf).map f) k v = some (pre.map f ++ v :: suf.map f) := by
  subst hk
  have := wr_mid (pre.map f) (suf.map f) (f x) v
  simpa using this

theorem ofSlots_b (xs : List Slot) : (ofSlots xs).b = xs.map Prod.fst := rfl

theorem ofSlots_d (xs : List Slot) : (ofSlots xs).d = xs.map Prod.snd := rfl

theorem ofSlots_sized (xs : List Slot) : (ofSlots xs).Sized xs.length := by
  simp [Measure.Sized, ofSlots]

theorem ofSlots_slots (m : Measure) (l : Nat) (h : m.Sized l) : ofSlots m.slots = m := by
  obtain ⟨hb, hd⟩ := h
  cases m with
  | mk b d =>
    simp only [Measure.slots, ofSlots]
    simp only at hb hd
    rw [List.map_fst_zip, List.map_snd_zip]
    · omega
    · omega

theorem slots_length (m : Measure) (l : Nat) (h : m.Sized l) : m.slots.length = l := by
  obtain ⟨hb, hd⟩ := h
  simp [Measure.slots, hb, hd]

theorem slots_ofSlots (xs : List Slot) : (ofSlots xs).slots = xs := by
  simp [Measure.slots, ofSlots]
  induction xs with
  | nil => rfl
  | cons x xs ih => simp [ih]

/-- Every measure with arrays of `l` entries is `ofSlots` of `l` slots. -/
theorem exists_slots (m : Measure) (l : Nat) (h : m.Sized l) :
    ∃ xs : List Slot, xs.length = l ∧ m = ofSlots xs :=
  ⟨m.slots, slots_length m l h, (ofSlots_slots m l h).symm⟩

/-! ## `compare` on slot lists -/

theorem compareLoop_eq (p : Int) (cnt : Nat) :
    ∀ (i : Nat) (xs ys : List Slot), xs.length = i + cnt → ys.length = i + cnt →
      compareLoop p (ofSlots xs) (ofSlots ys) cnt i = some (cmpS p (xs.drop i) (ys.drop i)) := by
  induction cnt with
  | zero =>
    intro i xs ys hx hy
    simp [compareLoop, List.drop_of_length_le, hx, hy, cmpS]
  | succ cnt ih =>
    intro i xs ys hx hy
    have hxi : i < xs.length := by omega
    have hyi : i < ys.length := by omega
    rw [List.drop_eq_getElem_cons hxi, List.drop_eq_getElem_cons hyi]
    have r1 : rd (ofSlots xs).d i = some (xs[i]).2 := by simp [rd, ofSlots, hxi]
    have r2 : rd (ofSlots ys).d i = some (ys[i]).2 := by simp [rd, ofSlots, hyi]
    have r3 : rd (ofSlots xs).b i = some (xs[i]).1 := by simp [rd, ofSlots, hxi]
    have r4 : rd (ofSlots ys).b i = some (ys[i]).1 := by simp [rd, ofSlots, hyi]
    have := ih (i + 1) xs ys (by omega) (by omega)
    simp only [compareLoop, r1, r2, r3, r4, Option.bind_eq_bind, Option.some_bind, cmpS, this]
    split_ifs <;> rfl

theorem compare_eq (p : Int) (xs ys : List Slot) (hx : xs ≠ []) (hl : ys.length = xs.length) :
    compare xs.length p (ofSlots xs) (ofSlots ys) = some (cmpM p xs ys) := by
  cases xs with
  | nil => exact absurd rfl hx
  | cons a xs =>
    cases ys with
    | nil => simp at hl
    | cons b ys =>
      have := compareLoop_eq p (a :: xs).length 0 (a :: xs) (b :: ys) (by simp) (by simpa using hl)
      simp only [compare, rd, ofSlots, List.map_cons, List.getElem?_cons_zero, Option.bind_eq_bind,
        Option.some_bind, cmpM, List.head?_cons, Option.map_some', Option.some.injEq]
      simp only [ofSlots, List.map_cons, List.drop_zero] at this
      rw [this]
      split_ifs <;> rfl


theorem cmpS_cons_key (p : Int) (a b : Slot) (xs ys : List Slot) :
    cmpS p (a :: xs) (b :: ys) =
      if key p a < key p b then -1
      else if key p b < key p a then 1
      else if key p a = 0 then 0
      else cmpS p xs ys := by
  obtain ⟨ab, ad⟩ := a
  obtain ⟨bb, bd⟩ := b
  simp only [cmpS, key]
  cases ab <;> cases bb <;>
    simp only [Bool.false_eq_true, if_false, if_true, lt_self_iff_false, gt_iff_lt,
      Bool.false_lt_true, Bool.true_eq_false, Bool.lt_irrefl, show ¬ (true < false) by decide] <;>
    split_ifs <;> first | rfl | omega

theorem cmpS_range (p : Int) : ∀ (xs ys : List Slot),
    cmpS p xs ys = -1 ∨ cmpS p xs ys = 0 ∨ cmpS p xs ys = 1
  | [], _ => by simp [cmpS]
  | _ :: _, [] => by simp [cmpS]
  | a :: xs, b :: ys => by
    rw [cmpS_cons_key]
    have := cmpS_range p xs ys
    split_ifs <;> simp [this]

theorem cmpS_antisymm (p : Int) : ∀ (xs ys : List Slot), cmpS p xs ys = - cmpS p ys xs
  | [], [] => by simp [cmpS]
  | [], _ :: _ => by simp [cmpS]
  | _ :: _, [] => by simp [cmpS]
  | a :: xs, b :: ys => by
    rw [cmpS_cons_key, cmpS_cons_key]
    have := cmpS_antisymm p xs ys
    split_ifs <;> omega

theorem cmpS_refl (p : Int) : ∀ (xs : List Slot), cmpS p xs xs = 0
  | [] => by simp [cmpS]
  | a :: xs => by
    rw [cmpS_cons_key]
    have := cmpS_refl p xs
    split_ifs <;> omega

/-- The three forms of transitivity of `cmpS` on lists of equal length. -/
theorem cmpS_trans (p : Int) : ∀ (xs ys zs : List Slot),
    xs.length = ys.length → ys.length = zs.length →
    (cmpS p xs ys ≤ 0 → cmpS p ys zs ≤ 0 → cmpS p xs zs ≤ 0) ∧
    (cmpS p xs ys < 0 → cmpS p ys zs ≤ 0 → cmpS p xs zs < 0) ∧
    (cmpS p xs ys ≤ 0 → cmpS p ys zs < 0 → cmpS p xs zs < 0)
  | [], [], _ => by intro _ _; simp [cmpS]
  | [], _ :: _, _ => by intro h; simp at h
  | a :: xs, [], zs => by intro h; simp at h
  | a :: xs, b :: ys, [] => by intro _ h; simp at h
  | a :: xs, b :: ys, c :: zs => by
    intro h1 h2
    have ih := cmpS_trans p xs ys zs (by simpa using h1) (by simpa using h2)
    rw [cmpS_cons_key, cmpS_cons_key, cmpS_cons_key]
    obtain ⟨i1, i2, i3⟩ := ih
    refine ⟨?_, ?_, ?_⟩ <;> split_ifs <;> omega

theorem cmpM_range (p : Int) (xs ys : List Slot) :
    cmpM p xs ys = -1 ∨ cmpM p xs ys = 0 ∨ cmpM p xs ys = 1 := by
  unfold cmpM
  have := cmpS_range p xs ys
  split_ifs <;> simp [this]

theorem cmpM_antisymm (p : Int) (xs ys : List Slot) : cmpM p xs ys = - cmpM p ys xs := by
  unfold cmpM
  have := cmpS_antisymm p xs ys
  split_ifs <;> omega

theorem cmpM_refl (p : Int) (xs : List Slot) : cmpM p xs xs = 0 := by
  unfold cmpM
  have := cmpS_refl p xs
  split_ifs <;> omega

theorem cmpM_trans (p : Int) (xs ys zs : List Slot)
    (h1 : xs.length = ys.length) (h2 : ys.length = zs.length) :
    (cmpM p xs ys ≤ 0 → cmpM p ys zs ≤ 0 → cmpM p xs zs ≤ 0) ∧
    (cmpM p xs ys < 0 → cmpM p ys zs ≤ 0 → cmpM p xs zs < 0) ∧
    (cmpM p xs ys ≤ 0 → cmpM p ys zs < 0 → cmpM p xs zs < 0) := by
  unfold cmpM
  obtain ⟨i1, i2, i3⟩ := cmpS_trans p xs ys zs h1 h2
  refine ⟨?_, ?_, ?_⟩ <;> split_ifs <;> omega

theorem compare_zero (p : Int) (A B : Measure) (hA : A.Sized 0) : compare 0 p A B = none := by
  obtain ⟨_, hd⟩ := hA
  have : A.d = [] := List.length_eq_zero.mp hd
  simp [compare, rd, this]

/-- The value of `compare` on measures of a positive length `l`. -/
theorem compare_sized (l : Nat) (p : Int) (A B : Measure) (hl : 0 < l)
    (hA : A.Sized l) (hB : B.Sized l) :
    compare l p A B = some (cmpM p A.slots B.slots) := by
  obtain ⟨xs, hx, rfl⟩ := exists_slots A l hA
  obtain ⟨ys, hy, rfl⟩ := exists_slots B l hB
  have hne : xs ≠ [] := by
    intro h; subst h; simp at hx; omega
  have := compare_eq p xs ys hne (by omega)
  rw [hx] at this
  rw [this, slots_ofSlots, slots_ofSlots]

/-! ## Lemmas on the scan of `compare` -/

theorem key_ne_zero (p : Int) (s : Slot) (h : s.2 ≤ p) : key p s ≠ 0 := by
  obtain ⟨b, d⟩ := s
  dsimp only [key] at h ⊢
  split_ifs <;> omega

theorem key_inj (p : Int) (a b : Slot) (h : key p a = key p b) (hb : key p b ≠ 0) : a = b := by
  obtain ⟨ab, ad⟩ := a
  obtain ⟨bb, bd⟩ := b
  dsimp only [key] at h hb
  have e : ab = bb ∧ ad = bd := by
    cases ab <;> cases bb <;> simp only [Bool.false_eq_true, if_false, if_true] at h hb <;>
      split_ifs at h hb <;> first | omega | (constructor <;> first | rfl | omega)
  rw [e.1, e.2]

theorem cmpS_append_left (p : Int) (x y : List Slot) :
    ∀ pre : List Slot, (∀ s ∈ pre, s.2 ≤ p) → cmpS p (pre ++ x) (pre ++ y) = cmpS p x y
  | [], _ => rfl
  | a :: pre, h => by
    have ha := key_ne_zero p a (h a (by simp))
    have ih := cmpS_append_left p x y pre (fun s hs => h s (by simp [hs]))
    simp only [List.cons_append, cmpS_cons_key, lt_self_iff_false, if_false, ha, ih]

/-- A measure `na ++ x` scanned against `pre ++ y`, all slots of `pre` being at
levels `≤ p`: either the scan is decided inside `pre`, or `na = pre`. -/
theorem cmpS_split (p : Int) :
    ∀ (pre na : List Slot), na.length = pre.length → (∀ s ∈ pre, s.2 ≤ p) →
      na = pre ∨ (cmpS p na pre ≠ 0 ∧ ∀ x y, cmpS p (na ++ x) (pre ++ y) = cmpS p na pre)
  | [], [], _, _ => Or.inl rfl
  | [], _ :: _, h, _ => by simp at h
  | _ :: _, [], h, _ => by simp at h
  | b :: pre, a :: na, hl, h => by
    have hb := key_ne_zero p b (h b (by simp))
    rcases cmpS_split p pre na (by simpa using hl) (fun s hs => h s (by simp [hs])) with ih | ih
    · by_cases hk : key p a = key p b
      · left; rw [key_inj p a b hk hb, ih]
      · right
        simp only [List.cons_append, cmpS_cons_key]
        constructor
        · split_ifs <;> omega
        · intro x y; split_ifs <;> first | rfl | omega
    · by_cases hk : key p a = key p b
      · right
        simp only [List.cons_append, cmpS_cons_key, hk, lt_self_iff_false, if_false, hb]
        exact ih
      · right
        simp only [List.cons_append, cmpS_cons_key]
        constructor
        · split_ifs <;> omega
        · intro x y; split_ifs <;> first | rfl | omega

theorem cmpS_replicate_zero_le (p t : Int) :
    ∀ (nt : List Slot) (k : Nat), (∀ s ∈ nt, t ≤ s.2) →
      cmpS p (List.replicate k (false, t)) nt ≤ 0
  | [], k, _ => by cases k <;> simp [cmpS, List.replicate]
  | _ :: _, 0, _ => by simp [cmpS]
  | (b, e) :: nt, k + 1, h => by
    have he : t ≤ e := h (b, e) (by simp)
    have ih := cmpS_replicate_zero_le p t nt k (fun s hs => h s (by simp [hs]))
    rw [List.replicate_succ, cmpS_cons_key]
    dsimp only [key]
    cases b <;> simp only [Bool.false_eq_true, if_false, if_true] <;> split_ifs <;> omega

theorem cmpS_le_replicate_one (p d : Int) (hd : d ≤ p) :
    ∀ (nt : List Slot) (k : Nat), (∀ s ∈ nt, d ≤ s.2) →
      cmpS p nt (List.replicate k (true, d)) ≤ 0
  | [], k, _ => by simp [cmpS]
  | _ :: _, 0, _ => by simp [cmpS]
  | (b, e) :: nt, k + 1, h => by
    have he : d ≤ e := h (b, e) (by simp)
    have ih := cmpS_le_replicate_one p d hd nt k (fun s hs => h s (by simp [hs]))
    rw [List.replicate_succ, cmpS_cons_key]
    dsimp only [key]
    cases b <;> simp only [Bool.false_eq_true, if_false, if_true] <;> split_ifs <;> omega

/-! ## `trunc_tmp` on slot lists -/

theorem truncLoop_shape (p : Int) (hi : List Slot) :
    ∀ (lo suf : List Slot), (∀ s ∈ hi, p < s.2) → (∀ s ∈ lo.getLast?, s.2 ≤ p) →
      truncLoop p (lo.length + hi.length) (ofSlots (lo ++ hi ++ suf))
        = some (ofSlots (lo ++ List.replicate hi.length (false, p + 1) ++ suf)) := by
  induction hi using List.reverseRecOn with
  | nil =>
    intro lo suf _ hlo
    simp only [List.length_nil, Nat.add_zero, List.append_nil, List.replicate_zero]
    induction lo using List.reverseRecOn with
    | nil => simp [truncLoop]
    | append_singleton lo x _ =>
      have hx : x.2 ≤ p := by simpa using hlo
      simp only [List.length_append, List.length_singleton, truncLoop, ofSlots_d, List.append_assoc,
        List.singleton_append]
      rw [rd_mid_map Prod.snd lo suf x _ rfl]
      simp [not_lt.mpr hx]
  | append_singleton hi x ih =>
    intro lo suf hhi hlo
    have hx : p < x.2 := hhi x (by simp)
    have e : lo.length + (hi ++ [x]).length = (lo ++ hi).length + 1 := by simp; omega
    rw [e]
    have e2 : lo ++ (hi ++ [x]) ++ suf = (lo ++ hi) ++ x :: suf := by simp
    rw [e2]
    simp only [truncLoop, ofSlots_d, ofSlots_b]
    rw [rd_mid_map Prod.snd (lo ++ hi) suf x _ rfl]
    simp only [Option.bind_eq_bind, Option.some_bind, gt_iff_lt, hx, if_true]
    rw [wr_mid_map Prod.fst (lo ++ hi) suf x _ _ rfl, wr_mid_map Prod.snd (lo ++ hi) suf x _ _ rfl]
    simp only [Option.some_bind]
    have := ih lo ((false, p + 1) :: suf) (fun s hs => hhi s (by simp [hs])) hlo
    simp only [List.length_append]
    have e3 : (⟨List.map Prod.fst (lo ++ hi) ++ false :: List.map Prod.fst suf,
        List.map Prod.snd (lo ++ hi) ++ (p + 1) :: List.map Prod.snd suf⟩ : Measure)
        = ofSlots (lo ++ hi ++ (false, p+1) :: suf) := by simp [ofSlots]
    rw [e3, this]
    congr 2
    simp [List.replicate_succ']

/-- Every slot list is a part `lo` that is empty or ends at a level `≤ p`,
followed by slots `hi` all tagged above `p`. -/
theorem exists_hi_split (p : Int) (xs : List Slot) :
    ∃ lo hi : List Slot, xs = lo ++ hi ∧ (∀ s ∈ hi, p < s.2) ∧ (∀ s ∈ lo.getLast?, s.2 ≤ p) := by
  induction xs using List.reverseRecOn with
  | nil => exact ⟨[], [], rfl, by simp, by simp⟩
  | append_singleton xs x ih =>
    obtain ⟨lo, hi, rfl, h1, h2⟩ := ih
    by_cases hx : p < x.2
    · refine ⟨lo, hi ++ [x], by simp, ?_, h2⟩
      intro s hs
      rcases List.mem_append.mp hs with h | h
      · exact h1 s h
      · simp at h; rw [h]; exact hx
    · refine ⟨lo ++ hi ++ [x], [], by simp, by simp, ?_⟩
      intro s hs
      simp at hs
      rw [← hs]; omega

/-- With non-decreasing tags the part `lo` consists of the slots at levels `≤ p`. -/
theorem sorted_split (p : Int) :
    ∀ xs : List Slot, xs.Pairwise (fun a b => a.2 ≤ b.2) →
      ∃ lo hi : List Slot, xs = lo ++ hi ∧ (∀ s ∈ lo, s.2 ≤ p) ∧ (∀ s ∈ hi, p < s.2)
  | [], _ => ⟨[], [], rfl, by simp, by simp⟩
  | a :: xs, h => by
    rw [List.pairwise_cons] at h
    by_cases ha : a.2 ≤ p
    · obtain ⟨lo, hi, rfl, h1, h2⟩ := sorted_split p xs h.2
      refine ⟨a :: lo, hi, rfl, ?_, h2⟩
      intro s hs
      rcases List.mem_cons.mp hs with e | e
      · rw [e]; exact ha
      · exact h1 s e
    · refine ⟨[], a :: xs, rfl, by simp, ?_⟩
      intro s hs
      rcases List.mem_cons.mp hs with e | e
      · rw [e]; omega
      · have := h.1 s e; omega

theorem getLast?_le_of_forall (p : Int) (lo : List Slot) (h : ∀ s ∈ lo, s.2 ≤ p) :
    ∀ s ∈ lo.getLast?, s.2 ≤ p := by
  intro s hs
  exact h s (List.mem_of_getLast?_eq_some hs)

/-- The result of `trunc_tmp` on a measure that is not Top. -/
theorem trunc_tmp_shape (p : Int) (lo hi : List Slot) (hne : lo ++ hi ≠ [])
    (htop : ((lo ++ hi).head?.map Prod.snd) ≠ some (-1))
    (hhi : ∀ s ∈ hi, p < s.2) (hlo : ∀ s ∈ lo.getLast?, s.2 ≤ p) :
    trunc_tmp (lo ++ hi).length p (ofSlots (lo ++ hi))
      = some (ofSlots (lo ++ List.replicate hi.length (false, p + 1))) := by
  have h := truncLoop_shape p hi lo [] hhi hlo
  simp only [List.append_nil] at h
  cases hxs : lo ++ hi with
  | nil => exact absurd hxs hne
  | cons a xs =>
    rw [hxs] at htop h
    have ha : a.2 ≠ -1 := by simpa using htop
    have hlen : lo.length + hi.length = (a :: xs).length := by rw [← hxs]; simp
    rw [hlen] at h
    simp only [trunc_tmp, rd, ofSlots_d, List.map_cons, List.getElem?_cons_zero,
      Option.bind_eq_bind, Option.some_bind, ha, if_false]
    exact h

/-- On a Top measure `trunc_tmp` changes nothing. -/
theorem trunc_tmp_top (l : Nat) (p : Int) (m : Measure) (h : m.IsTop) :
    trunc_tmp l p m = some m := by
  unfold Measure.IsTop at h
  simp [trunc_tmp, h]

theorem finite_ofSlots (l : Nat) (xs : List Slot) :
    (ofSlots xs).Finite l ↔
      xs.length = l ∧ (∀ s ∈ xs, 0 ≤ s.2) ∧ xs.Pairwise (fun a b => a.2 ≤ b.2) := by
  simp only [Measure.Finite, Measure.Sized, ofSlots, List.length_map, List.mem_map,
    List.pairwise_map, and_self]
  constructor
  · rintro ⟨h1, h2, h3⟩
    exact ⟨h1, fun s hs => h2 s.2 ⟨s, hs, rfl⟩, h3⟩
  · rintro ⟨h1, h2, h3⟩
    refine ⟨h1, ?_, h3⟩
    rintro t ⟨s, hs, rfl⟩
    exact h2 s hs

theorem head_ne_top (xs : List Slot) (h : ∀ s ∈ xs, 0 ≤ s.2) :
    (xs.head?.map Prod.snd) ≠ some (-1) := by
  cases xs with
  | nil => simp
  | cons a xs =>
    have := h a (by simp)
    simp only [List.head?_cons, Option.map_some', ne_eq, Option.some.injEq]
    omega

theorem cmpM_finite (p : Int) (xs ys : List Slot)
    (hx : (xs.head?.map Prod.snd) ≠ some (-1)) (hy : (ys.head?.map Prod.snd) ≠ some (-1)) :
    cmpM p xs ys = cmpS p xs ys := by
  simp [cmpM, hx, hy]

/-- Truncation in the order of `compare`, on slots. -/
theorem trunc_min_slots (p : Int) (lo hi : List Slot)
    (hlo : ∀ s ∈ lo, s.2 ≤ p) (hhi : ∀ s ∈ hi, p < s.2) :
    cmpS p (lo ++ List.replicate hi.length (false, p + 1)) (lo ++ hi) = 0 ∧
    ∀ ns : List Slot, ns.length = (lo ++ hi).length → ns.Pairwise (fun a b => a.2 ≤ b.2) →
      cmpS p ns (lo ++ hi) = 0 →
      ∃ nt, ns = lo ++ nt ∧ ∀ q, cmpS q (List.replicate hi.length (false, p + 1)) nt ≤ 0 := by
  constructor
  · rw [cmpS_append_left p _ _ lo hlo]
    cases hi with
    | nil => simp [cmpS]
    | cons h0 hi =>
      have := hhi h0 (by simp)
      rw [List.length_cons, List.replicate_succ, cmpS_cons_key]
      dsimp only [key]
      split_ifs <;> omega
  · intro ns hlen hsort hcmp
    have hns : ns = ns.take lo.length ++ ns.drop lo.length := (List.take_append_drop _ _).symm
    have hlt : (ns.take lo.length).length = lo.length := by
      rw [List.length_take]; simp at hlen; omega
    rcases cmpS_split p lo (ns.take lo.length) hlt hlo with e | ⟨h1, h2⟩
    · refine ⟨ns.drop lo.length, hns.trans (by rw [e]), ?_⟩
      intro q
      apply cmpS_replicate_zero_le
      rw [hns, e, cmpS_append_left p _ _ lo hlo] at hcmp
      have hdl : (ns.drop lo.length).length = hi.length := by
        rw [List.length_drop]; simp at hlen; omega
      rw [hns, List.pairwise_append] at hsort
      cases hnt : ns.drop lo.length with
      | nil => simp
      | cons n0 nt =>
        rw [hnt] at hcmp hdl hsort
        cases hi with
        | nil => simp at hdl
        | cons h0 hi =>
          have hh0 := hhi h0 (by simp)
          rw [cmpS_cons_key] at hcmp
          have hk : key p n0 = 0 := by
            have : key p h0 = 0 := by simp [key, hh0]
            rw [this] at hcmp
            split_ifs at hcmp <;> omega
          have hn0 : p < n0.2 := by
            by_contra hc
            exact key_ne_zero p n0 (by omega) hk
          intro s hs
          rcases List.mem_cons.mp hs with e' | e'
          · rw [e']; omega
          · have := (List.pairwise_cons.mp hsort.2.1).1 s e'
            omega
    · exfalso
      rw [hns, h2] at hcmp
      exact h1 hcmp

/-! ## The order of `compare` (C4, C5, C6) -/

theorem compare_range (l : Nat) (p : Int) (A B : Measure) (c : Int)
    (h : compare l p A B = some c) (hA : A.Sized l) (hB : B.Sized l) :
    c = -1 ∨ c = 0 ∨ c = 1 := by
  rcases Nat.eq_zero_or_pos l with h0 | hl
  · subst h0; rw [compare_zero p A B hA] at h; simp at h
  · rw [compare_sized l p A B hl hA hB] at h
    have := cmpM_range p A.slots B.slots
    simp only [Option.some.injEq] at h
    rw [← h]; exact this

/-- C4: `compare` is transitive.  For measures `A`, `B`, `C` of length `l`
(whatever their bits and tags, Top included) and every `pindex`, when
`compare(A, B)` returns `x` and `compare(B, C)` returns `y`, `compare(A, C)`
returns a value `z` with: `x ≤ 0` and `y ≤ 0` give `z ≤ 0`; less then less gives
less; equal then equal gives equal.  For `l ≥ 1` the calls do return values
(for `l = 0` they read slot 0 outside the arrays). -/
theorem compare_transitive (l : Nat) (p : Int) (A B C : Measure)
    (hA : A.Sized l) (hB : B.Sized l) (hC : C.Sized l) :
    (∀ x y : Int, compare l p A B = some x → compare l p B C = some y →
      ∃ z : Int, compare l p A C = some z ∧ (x ≤ 0 → y ≤ 0 → z ≤ 0) ∧
        (x < 0 → y < 0 → z < 0) ∧ (x = 0 → y = 0 → z = 0)) ∧
    (0 < l → ∃ x y : Int, compare l p A B = some x ∧ compare l p B C = some y) := by
  rcases Nat.eq_zero_or_pos l with h0 | hl
  · subst h0
    refine ⟨?_, fun h => absurd h (lt_irrefl 0)⟩
    intro x y hAB
    rw [compare_zero p A B hA] at hAB; simp at hAB
  · refine ⟨?_, fun _ => ⟨_, _, compare_sized l p A B hl hA hB, compare_sized l p B C hl hB hC⟩⟩
    intro x y hAB hBC
    rw [compare_sized l p A B hl hA hB] at hAB
    rw [compare_sized l p B C hl hB hC] at hBC
    rw [compare_sized l p A C hl hA hC]
    simp only [Option.some.injEq] at hAB hBC
    have lA := slots_length A l hA
    have lB := slots_length B l hB
    have lC := slots_length C l hC
    obtain ⟨t1, t2, _⟩ := cmpM_trans p A.slots B.slots C.slots (by omega) (by omega)
    obtain ⟨u1, _, _⟩ := cmpM_trans p C.slots B.slots A.slots (by omega) (by omega)
    have a1 := cmpM_antisymm p A.slots B.slots
    have a2 := cmpM_antisymm p B.slots C.slots
    have a3 := cmpM_antisymm p A.slots C.slots
    refine ⟨_, rfl, ?_, ?_, ?_⟩
    · intro hx hy; exact t1 (by omega) (by omega)
    · intro hx hy; exact t2 (by omega) (by omega)
    · intro hx hy
      have := t1 (by omega) (by omega)
      have := u1 (by omega) (by omega)
      omega

theorem compare_transitive_witness :
    (∃ z : Int, compare 2 1 exA exC = some z ∧ ((-1 : Int) ≤ 0 → (-1 : Int) ≤ 0 → z ≤ 0) ∧
      ((-1 : Int) < 0 → (-1 : Int) < 0 → z < 0) ∧ ((-1 : Int) = 0 → (-1 : Int) = 0 → z = 0)) ∧
    (∃ x y : Int, compare 2 1 exA exB = some x ∧ compare 2 1 exB exC = some y) :=
  ⟨(compare_transitive 2 1 exA exB exC (by decide) (by decide) (by decide)).1 (-1) (-1)
      (by decide) (by decide),
   (compare_transitive 2 1 exA exB exC (by decide) (by decide) (by decide)).2 (by decide)⟩

/-- C5: `compare` is antisymmetric.  For measures `A`, `B` of length `l`
(whatever their bits and tags, Top included) and every `pindex`,
`compare(A, B) = -compare(B, A)`; for `l ≥ 1` both calls return a value, which
is `-1`, `0` or `1` (for `l = 0` both read slot 0 outside the arrays). -/
theorem compare_antisymmetric (l : Nat) (p : Int) (A B : Measure)
    (hA : A.Sized l) (hB : B.Sized l) :
    compare l p A B = (compare l p B A).map (fun c => -c) ∧
    (0 < l → ∃ c : Int, compare l p B A = some c ∧ compare l p A B = some (-c) ∧
      (c = -1 ∨ c = 0 ∨ c = 1)) := by
  rcases Nat.eq_zero_or_pos l with h0 | hl
  · subst h0
    rw [compare_zero p A B hA, compare_zero p B A hB]
    exact ⟨rfl, fun h => absurd h (lt_irrefl 0)⟩
  · rw [compare_sized l p A B hl hA hB, compare_sized l p B A hl hB hA,
      cmpM_antisymm p A.slots B.slots]
    exact ⟨rfl, fun _ => ⟨_, rfl, rfl, cmpM_range p B.slots A.slots⟩⟩

theorem compare_antisymmetric_witness :
    compare 2 1 exA exB = (compare 2 1 exB exA).map (fun c => -c) ∧
    (0 < 2 → ∃ c : Int, compare 2 1 exB exA = some c ∧ compare 2 1 exA exB = some (-c) ∧
      (c = -1 ∨ c = 0 ∨ c = 1)) :=
  compare_antisymmetric 2 1 exA exB (by decide) (by decide)

theorem compare_top_top (l : Nat) (p : Int) (tmp best : Measure) (h1 : tmp.IsTop)
    (h2 : best.IsTop) : compare l p tmp best = some 0 := by
  unfold Measure.IsTop at h1 h2
  simp [compare, h1, h2]

theorem compare_top_finite (l : Nat) (p : Int) (tmp best : Measure) (h1 : tmp.IsTop)
    (h2 : ∃ t : Int, rd best.d 0 = some t ∧ t ≠ -1) : compare l p tmp best = some 1 := by
  unfold Measure.IsTop at h1
  obtain ⟨t, h2, h3⟩ := h2
  simp [compare, h1, h2, h3]

theorem compare_finite_top (l : Nat) (p : Int) (tmp best : Measure)
    (h1 : ∃ t : Int, rd tmp.d 0 = some t ∧ t ≠ -1) (h2 : best.IsTop) :
    compare l p tmp best = some (-1) := by
  unfold Measure.IsTop at h2
  obtain ⟨t, h1, h3⟩ := h1
  simp [compare, h1, h2, h3]

/-- C6: Top absorption.  For every `pindex`: `compare` with `tmp` and `best`
both Top returns `0`; with `tmp` Top and `best` not Top (slot 0 of `best` holds
a tag other than `-1`) it returns `1`; with `tmp` not Top and `best` Top it
returns `-1`. -/
theorem compare_top (l : Nat) (p : Int) (tmp best : Measure) :
    (tmp.IsTop → best.IsTop → compare l p tmp best = some 0) ∧
    (tmp.IsTop → (∃ t : Int, rd best.d 0 = some t ∧ t ≠ -1) → compare l p tmp best = some 1) ∧
    ((∃ t : Int, rd tmp.d 0 = some t ∧ t ≠ -1) → best.IsTop →
      compare l p tmp best = some (-1)) :=
  ⟨compare_top_top l p tmp best, compare_top_finite l p tmp best,
    compare_finite_top l p tmp best⟩

theorem compare_top_witness :
    compare 2 0 exTop exTop = some 0 ∧ compare 2 0 exTop exA = some 1 ∧
    compare 2 0 exA exTop = some (-1) :=
  ⟨(compare_top 2 0 exTop exTop).1 (by decide) (by decide),
   (compare_top 2 0 exTop exA).2.1 (by decide) ⟨0, by decide, by decide⟩,
   (compare_top 2 0 exA exTop).2.2 ⟨0, by decide, by decide⟩ (by decide)⟩

/-! ## Truncation (C7, C8) -/

theorem trunc_tmp_zero (p : Int) (M : Measure) (hM : M.Sized 0) : trunc_tmp 0 p M = none := by
  obtain ⟨_, hd⟩ := hM
  have : M.d = [] := List.length_eq_zero.mp hd
  simp [trunc_tmp, rd, this]

theorem isTop_ofSlots (xs : List Slot) :
    (ofSlots xs).IsTop ↔ (xs.head?.map Prod.snd) = some (-1) := by
  cases xs <;> simp [Measure.IsTop, rd, ofSlots]

/-- On a measure of length `l ≥ 1`, whatever its bits and tags, `trunc_tmp`
returns a measure of length `l` on which it changes nothing. -/
theorem trunc_tmp_twice (l : Nat) (p : Int) (M : Measure) (hl : 0 < l) (hM : M.Sized l) :
    ∃ T : Measure, trunc_tmp l p M = some T ∧ T.Sized l ∧ trunc_tmp l p T = some T := by
  by_cases htop : M.IsTop
  · exact ⟨M, trunc_tmp_top l p M htop, hM, trunc_tmp_top l p M htop⟩
  · obtain ⟨xs, hx, rfl⟩ := exists_slots M l hM
    obtain ⟨lo, hi, rfl, hhi, hlo⟩ := exists_hi_split p xs
    rw [isTop_ofSlots] at htop
    have hne : lo ++ hi ≠ [] := by
      intro h; rw [h] at hx; simp at hx; omega
    have h1 := trunc_tmp_shape p lo hi hne htop hhi hlo
    rw [hx] at h1
    have hlen : (lo ++ List.replicate hi.length ((false, p + 1) : Slot)).length = l := by
      rw [← hx]; simp
    refine ⟨_, h1, ?_, ?_⟩
    · rw [← hlen]; exact ofSlots_sized _
    · by_cases htop2 : (ofSlots (lo ++ List.replicate hi.length (false, p + 1))).IsTop
      · exact trunc_tmp_top l p _ htop2
      · rw [isTop_ofSlots] at htop2
        have hne2 : lo ++ List.replicate hi.length ((false, p + 1) : Slot) ≠ [] := by
          intro h; rw [h] at hlen; simp at hlen; omega
        have h2 := trunc_tmp_shape p lo (List.replicate hi.length (false, p + 1)) hne2 htop2
          (by intro s hs; rw [(List.mem_replicate.mp hs).2]; simp) hlo
        rw [hlen, List.length_replicate] at h2
        exact h2

/-- C7: `trunc_tmp` is idempotent bit for bit.  For every measure `M` of length
`l` (Top or not, whatever its bits and tags) and every `pindex`, applying
`trunc_tmp` to the result of `trunc_tmp` gives that same result; for `l ≥ 1`
the call returns a measure `T` of length `l`, and `trunc_tmp` returns `T` on
`T` (for `l = 0` it reads slot 0 outside the array). -/
theorem trunc_tmp_idempotent (l : Nat) (p : Int) (M : Measure) (hM : M.Sized l) :
    (trunc_tmp l p M).bind (trunc_tmp l p) = trunc_tmp l p M ∧
    (0 < l → ∃ T : Measure, trunc_tmp l p M = some T ∧ T.Sized l ∧
      trunc_tmp l p T = some T) := by
  rcases Nat.eq_zero_or_pos l with h0 | hl
  · subst h0
    rw [trunc_tmp_zero p M hM]
    exact ⟨rfl, fun h => absurd h (lt_irrefl 0)⟩
  · obtain ⟨T, h1, h2, h3⟩ := trunc_tmp_twice l p M hl hM
    refine ⟨?_, fun _ => ⟨T, h1, h2, h3⟩⟩
    rw [h1]; exact h3

theorem trunc_tmp_idempotent_witness :
    (trunc_tmp 2 0 exB).bind (trunc_tmp 2 0) = trunc_tmp 2 0 exB ∧
    (0 < 2 → ∃ T : Measure, trunc_tmp 2 0 exB = some T ∧ T.Sized 2 ∧
      trunc_tmp 2 0 T = some T) :=
  trunc_tmp_idempotent 2 0 exB (by decide)

theorem rd_lo {α : Type} (lo x y : List α) (i : Nat) (h : i < lo.length) :
    rd (lo ++ x) i = rd (lo ++ y) i := by
  unfold rd
  rw [List.getElem?_append_left h, List.getElem?_append_left h]

theorem rd_hi_mem {α : Type} (lo hi : List α) (i : Nat) (a : α) (h : lo.length ≤ i)
    (hr : rd (lo ++ hi) i = some a) : a ∈ hi := by
  unfold rd at hr
  rw [List.getElem?_append_right h] at hr
  exact List.getElem?_mem hr

/-- C8: `trunc_tmp` yields the minimum of the `p`-equivalence class of `M`, for
every `pindex` that `lift` computes (`pindex ≥ -1`), and more generally for every
`pindex` other than `-2`.  For a finite measure `M` of length `l ≥ 1`
(non-negative, non-decreasing tags) and `pindex ≠ -2`, `trunc_tmp`
returns a measure `T` that has every slot of `M` tagged `≤ pindex` unchanged,
that `compare` finds equal to `M` at `pindex`, and that `compare` finds less
than or equal to every finite `N` equal to `M` at `pindex`, whenever the
comparison is made at a level bound `q` at least as large as every tag of `T`
and `N`. -/
theorem trunc_tmp_minimum (l : Nat) (p : Int) (M : Measure) (hl : 0 < l)
    (hM : M.Finite l) (hp : p ≠ -2) :
    ∃ T : Measure, trunc_tmp l p M = some T ∧ T.Sized l ∧
      (∀ (i : Nat) (t : Int), rd M.d i = some t → t ≤ p →
        rd T.d i = some t ∧ rd T.b i = rd M.b i) ∧
      compare l p T M = some 0 ∧
      ∀ N : Measure, N.Finite l → compare l p N M = some 0 →
        ∀ q : Int, (∀ t ∈ T.d, t ≤ q) → (∀ t ∈ N.d, t ≤ q) →
          ∃ c : Int, compare l q T N = some c ∧ c ≤ 0 := by
  obtain ⟨xs, hx, rfl⟩ := exists_slots M l hM.1
  obtain ⟨-, hnn, hsort⟩ := (finite_ofSlots l xs).mp hM
  obtain ⟨lo, hi, rfl, hlo, hhi⟩ := sorted_split p xs hsort
  have hne : lo ++ hi ≠ [] := by
    intro h; rw [h] at hx; simp at hx; omega
  have htop := head_ne_top (lo ++ hi) hnn
  have h1 := trunc_tmp_shape p lo hi hne htop hhi (getLast?_le_of_forall p lo hlo)
  rw [hx] at h1
  have hlen : (lo ++ List.replicate hi.length ((false, p + 1) : Slot)).length = l := by
    rw [← hx]; simp
  have hT : (ofSlots (lo ++ List.replicate hi.length (false, p + 1))).Sized l := by
    rw [← hlen]; exact ofSlots_sized _
  have htopT : ((lo ++ List.replicate hi.length ((false, p + 1) : Slot)).head?.map Prod.snd)
      ≠ some (-1) := by
    cases lo with
    | nil =>
      cases hi with
      | nil => simp
      | cons h0 hi =>
        simp only [List.nil_append, List.length_cons, List.replicate_succ, List.head?_cons,
          Option.map_some', ne_eq, Option.some.injEq]
        omega
    | cons a lo =>
      have := hnn a (by simp)
      simp only [List.cons_append, List.head?_cons, Option.map_some', ne_eq, Option.some.injEq]
      omega
  obtain ⟨c1, c2⟩ := trunc_min_slots p lo hi hlo hhi
  refine ⟨_, h1, hT, ?_, ?_, ?_⟩
  · intro i t hr ht
    have hi' : i < lo.length := by
      by_contra hc
      rw [ofSlots_d, List.map_append] at hr
      have hmem := rd_hi_mem _ _ i t (by simpa using hc) hr
      obtain ⟨s, hs, rfl⟩ := List.mem_map.mp hmem
      have := hhi s hs
      omega
    constructor
    · rw [← hr]
      simp only [ofSlots_d, List.map_append]
      exact rd_lo _ _ _ i (by simpa using hi')
    · simp only [ofSlots_b, List.map_append]
      exact rd_lo _ _ _ i (by simpa using hi')
  · rw [compare_sized l p _ _ hl hT hM.1, slots_ofSlots, slots_ofSlots,
      cmpM_finite p _ _ htopT htop, c1]
  · intro N hN hcmp q hqT hqN
    obtain ⟨ns, hns, rfl⟩ := exists_slots N l hN.1
    obtain ⟨-, hnnN, hsortN⟩ := (finite_ofSlots l ns).mp hN
    have htopN := head_ne_top ns hnnN
    rw [compare_sized l p _ _ hl hN.1 hM.1, slots_ofSlots, slots_ofSlots,
      cmpM_finite p _ _ htopN htop] at hcmp
    simp only [Option.some.injEq] at hcmp
    obtain ⟨nt, rfl, hle⟩ := c2 ns (by rw [hns, hx]) hsortN hcmp
    refine ⟨_, compare_sized l q _ _ hl hT hN.1, ?_⟩
    rw [slots_ofSlots, slots_ofSlots, cmpM_finite q _ _ htopT htopN,
      cmpS_append_left q _ _ lo ?_]
    · exact hle q
    · intro s hs
      apply hqT
      rw [ofSlots_d]
      exact List.mem_map.mpr ⟨s, List.mem_append_left _ hs, rfl⟩

theorem trunc_tmp_minimum_witness :
    ∃ T : Measure, trunc_tmp 2 0 exB = some T ∧ T.Sized 2 ∧
      (∀ (i : Nat) (t : Int), rd exB.d i = some t → t ≤ 0 →
        rd T.d i = some t ∧ rd T.b i = rd exB.b i) ∧
      compare 2 0 T exB = some 0 ∧
      ∀ N : Measure, N.Finite 2 → compare 2 0 N exB = some 0 →
        ∀ q : Int, (∀ t ∈ T.d, t ≤ q) → (∀ t ∈ N.d, t ≤ q) →
          ∃ c : Int, compare 2 q T N = some c ∧ c ≤ 0 :=
  trunc_tmp_minimum 2 0 exB (by decide) (by decide) (by decide)

/-- The value `pindex = -2`, which `lift` never computes, is special: there
`trunc_tmp` retags every slot of the finite one-slot measure `{ 0 }` with the
sentinel `-1`, so the result is Top and `compare` returns `1` against the
measure it came from. -/
theorem trunc_tmp_sentinel_pindex :
    exMin1.Finite 1 ∧ trunc_tmp 1 (-2) exMin1 = some ⟨[false], [-1]⟩ ∧
    compare 1 (-2) ⟨[false], [-1]⟩ exMin1 = some 1 := by
  decide

/-! ## `prog_tmp` on slot lists -/

theorem fillTags_shape (nd : Int) :
    ∀ (B A : List Int), fillTags nd B.length A.length (A ++ B)
      = some (A ++ List.replicate B.length nd)
  | [], A => by simp [fillTags]
  | b :: B, A => by
    have ih := fillTags_shape nd B (A ++ [nd])
    simp only [List.length_cons, fillTags, wr_mid, Option.bind_eq_bind, Option.some_bind]
    simp only [List.length_append, List.length_singleton, List.append_assoc,
      List.singleton_append] at ih
    rw [ih, List.replicate_succ]

/-- Retagging of slots: the bits stay, the tags become `nd`. -/
theorem ofSlots_fill (pre R : List Slot) (v : Bool) (nd : Int) :
    (⟨pre.map Prod.fst ++ v :: R.map Prod.fst,
      pre.map Prod.snd ++ List.replicate (R.length + 1) nd⟩ : Measure)
      = ofSlots (pre ++ (v, nd) :: R.map (fun s => (s.1, nd))) := by
  simp only [ofSlots, List.map_append, List.map_cons, List.map_map, List.replicate_succ,
    Measure.mk.injEq, List.append_cancel_left_eq, List.cons.injEq, true_and]
  constructor
  · rfl
  · induction R with
    | nil => rfl
    | cons r R ih => simp [List.replicate_succ, ih]

theorem progLow_shape (p : Int) (hi : List Slot) :
    ∀ (lo suf : List Slot), (∀ s ∈ hi, p < s.2) → (∀ s ∈ lo.getLast?, s.2 ≤ p) →
      progLow p (lo.length + hi.length) (ofSlots (lo ++ hi ++ suf))
        = some (lo.length, ofSlots (lo ++ List.replicate hi.length (false, p) ++ suf)) := by
  induction hi using List.reverseRecOn with
  | nil =>
    intro lo suf _ hlo
    simp only [List.length_nil, Nat.add_zero, List.append_nil, List.replicate_zero]
    induction lo using List.reverseRecOn with
    | nil => simp [progLow]
    | append_singleton lo x _ =>
      have hx : x.2 ≤ p := by simpa using hlo
      simp only [List.length_append, List.length_singleton, progLow, ofSlots_d, List.append_assoc,
        List.singleton_append]
      rw [rd_mid_map Prod.snd lo suf x _ rfl]
      simp [not_lt.mpr hx]
  | append_singleton hi x ih =>
    intro lo suf hhi hlo
    have hx : p < x.2 := hhi x (by simp)
    have e : lo.length + (hi ++ [x]).length = (lo ++ hi).length + 1 := by simp; omega
    rw [e]
    have e2 : lo ++ (hi ++ [x]) ++ suf = (lo ++ hi) ++ x :: suf := by simp
    rw [e2]
    simp only [progLow, ofSlots_d, ofSlots_b]
    rw [rd_mid_map Prod.snd (lo ++ hi) suf x _ rfl]
    simp only [Option.bind_eq_bind, Option.some_bind, gt_iff_lt, hx, if_true]
    rw [wr_mid_map Prod.fst (lo ++ hi) suf x _ _ rfl, wr_mid_map Prod.snd (lo ++ hi) suf x _ _ rfl]
    simp only [Option.some_bind]
    have := ih lo ((false, p) :: suf) (fun s hs => hhi s (by simp [hs])) hlo
    simp only [List.length_append]
    have e3 : (⟨List.map Prod.fst (lo ++ hi) ++ false :: List.map Prod.fst suf,
        List.map Prod.snd (lo ++ hi) ++ p :: List.map Prod.snd suf⟩ : Measure)
        = ofSlots (lo ++ hi ++ (false, p) :: suf) := by simp [ofSlots]
    rw [e3, this]
    congr 3
    simp [List.replicate_succ']

/-- One step of the loop of case 3 over a `1` bit whose neighbour below is at
the same level. -/
theorem progCarry_step (l : Nat) (h d : Int) (P R : List Slot) (b0 : Bool) :
    progCarry l h ((P ++ [(b0, d)]).length + 1) (ofSlots ((P ++ [(b0, d)]) ++ (true, d) :: R))
      = progCarry l h (P ++ [(b0, d)]).length (ofSlots ((P ++ [(b0, d)]) ++ (false, d) :: R)) := by
  have hne : (P ++ [(b0, d)]).length ≠ 0 := by simp
  have hpred : (P ++ [(b0, d)]).length - 1 = P.length := by simp
  have r0 : rd (List.map Prod.snd ((P ++ [(b0, d)]) ++ (true, d) :: R)) P.length = some d := by
    have := rd_mid_map Prod.snd P ([] ++ (true, d) :: R) (b0, d) _ rfl
    simpa using this
  conv_lhs => unfold progCarry
  simp only [ofSlots_b, ofSlots_d]
  rw [rd_mid_map Prod.fst _ R (true, d) _ rfl]
  simp only [Option.bind_eq_bind, Option.some_bind, Bool.true_eq_false, if_false, hne, hpred]
  rw [r0, rd_mid_map Prod.snd _ R (true, d) _ rfl]
  simp only [Option.some_bind, ne_eq, not_true_eq_false, if_false]
  rw [wr_mid_map Prod.fst _ R (true, d) _ _ rfl]
  simp only [Option.some_bind]
  congr 1
  simp [ofSlots]

theorem progCarry_ones (l : Nat) (h d : Int) :
    ∀ (n : Nat) (P Z : List Slot) (b0 : Bool),
      progCarry l h ((P ++ [(b0, d)]).length + n)
          (ofSlots ((P ++ [(b0, d)]) ++ List.replicate n (true, d) ++ Z))
        = progCarry l h (P ++ [(b0, d)]).length
          (ofSlots ((P ++ [(b0, d)]) ++ List.replicate n (false, d) ++ Z))
  | 0, P, Z, b0 => by simp
  | n + 1, P, Z, b0 => by
    have ih := progCarry_ones l h d n (P ++ [(b0, d)]) Z true
    have st := progCarry_step l h d P (List.replicate n (false, d) ++ Z) b0
    have e1 : (P ++ [(b0, d)]).length + (n + 1) = (P ++ [(b0, d)] ++ [(true, d)]).length + n := by
      simp; omega
    have e2 : (P ++ [(b0, d)]) ++ List.replicate (n + 1) (true, d) ++ Z
        = (P ++ [(b0, d)] ++ [(true, d)]) ++ List.replicate n (true, d) ++ Z := by
      simp [List.replicate_succ]
    rw [e1, e2, ih]
    have e3 : (P ++ [(b0, d)] ++ [(true, d)]).length = (P ++ [(b0, d)]).length + 1 := by simp
    have e4 : (P ++ [(b0, d)] ++ [(true, d)]) ++ List.replicate n (false, d) ++ Z
        = (P ++ [(b0, d)]) ++ (true, d) :: (List.replicate n (false, d) ++ Z) := by simp
    rw [e3, e4, st]
    congr 2
    simp [List.replicate_succ]

theorem fill_from (nd : Int) (pre R : List Slot) (x : Slot) (l : Nat)
    (hl : l = pre.length + 1 + R.length) :
    fillTags nd (l - pre.length) pre.length (List.map Prod.snd (pre ++ x :: R))
      = some (pre.map Prod.snd ++ List.replicate (R.length + 1) nd) := by
  have h := fillTags_shape nd (List.map Prod.snd (x :: R)) (pre.map Prod.snd)
  have e : l - pre.length = (List.map Prod.snd (x :: R)).length := by simp; omega
  rw [e, List.map_append]
  simpa using h

/-- Case 3b: a `0` bit at a level other than `h`. -/
theorem progCarry_3b (l : Nat) (h d : Int) (pre R : List Slot)
    (hl : l = pre.length + 1 + R.length) (hd : d ≠ h) :
    progCarry l h (pre.length + 1) (ofSlots (pre ++ (false, d) :: R))
      = some (ofSlots (pre ++ (false, d + 1) :: R.map (fun s => (s.1, d + 1)))) := by
  unfold progCarry
  simp only [ofSlots_b, ofSlots_d]
  rw [rd_mid_map Prod.fst _ R (false, d) _ rfl]
  simp only [Option.bind_eq_bind, Option.some_bind, if_true]
  rw [rd_mid_map Prod.snd _ R (false, d) _ rfl]
  simp only [Option.some_bind, hd, if_false]
  rw [wr_mid_map Prod.fst _ R (false, d) _ _ rfl, fill_from (d + 1) pre R (false, d) l hl]
  simp only [Option.some_bind]
  rw [ofSlots_fill]

/-- Case 3a: a `0` bit at level `h`. -/
theorem progCarry_3a (l : Nat) (h : Int) (pre R : List Slot) :
    progCarry l h (pre.length + 1) (ofSlots (pre ++ (false, h) :: R))
      = some (ofSlots (pre ++ (true, h) :: R)) := by
  unfold progCarry
  simp only [ofSlots_b, ofSlots_d]
  rw [rd_mid_map Prod.fst _ R (false, h) _ rfl]
  simp only [Option.bind_eq_bind, Option.some_bind, if_true]
  rw [rd_mid_map Prod.snd _ R (false, h) _ rfl]
  simp only [Option.some_bind, if_true]
  rw [wr_mid_map Prod.fst _ R (false, h) _ _ rfl]
  simp [ofSlots]

/-- Case 3c: only `1` bits, all at level `0`. -/
theorem progCarry_3c (l : Nat) (h : Int) (R : List Slot) :
    progCarry l h 1 (ofSlots ((true, 0) :: R)) = some (ofSlots ((false, -1) :: R)) := by
  unfold progCarry
  simp [ofSlots, rd, wr]

/-- Case 3d: only `1` bits, all at one level other than `0`. -/
theorem progCarry_3d (l : Nat) (h d : Int) (R : List Slot)
    (hl : l = 1 + R.length) (hd : d ≠ 0) :
    progCarry l h 1 (ofSlots ((true, d) :: R))
      = some (ofSlots ((true, d - 1) :: R.map (fun s => (s.1, d - 1)))) := by
  have hf := fill_from (d - 1) [] R (true, d) l (by simpa using hl)
  have hfill := ofSlots_fill [] R true (d - 1)
  simp only [List.length_nil, Nat.sub_zero, List.nil_append, List.map_cons, List.map_nil]
    at hf hfill
  unfold progCarry
  simp only [ofSlots_b, ofSlots_d, List.map_cons, rd, wr, List.getElem?_cons_zero,
    Option.bind_eq_bind, Option.some_bind, Bool.true_eq_false, if_false, if_true, hd,
    List.length_cons, Nat.zero_lt_succ, List.set_cons_zero, hf]
  rw [hfill]

/-- Cases 3e and 3f: a `1` bit whose neighbour below is at another level. -/
theorem progCarry_3e (l : Nat) (h d : Int) (pre R : List Slot) (y : Slot)
    (hl : l = (pre ++ [y]).length + 1 + R.length) (hy : y.2 ≠ d) :
    progCarry l h ((pre ++ [y]).length + 1) (ofSlots ((pre ++ [y]) ++ (true, d) :: R))
      = some (ofSlots ((pre ++ [y]) ++ (true, d - 1) :: R.map (fun s => (s.1, d - 1)))) := by
  have hne : (pre ++ [y]).length ≠ 0 := by simp
  have hpred : (pre ++ [y]).length - 1 = pre.length := by simp
  have r0 : rd (List.map Prod.snd ((pre ++ [y]) ++ (true, d) :: R)) pre.length = some y.2 := by
    have := rd_mid_map Prod.snd pre ([] ++ (true, d) :: R) y _ rfl
    simpa using this
  unfold progCarry
  simp only [ofSlots_b, ofSlots_d]
  rw [rd_mid_map Prod.fst _ R (true, d) _ rfl]
  simp only [Option.bind_eq_bind, Option.some_bind, Bool.true_eq_false, if_false, hne, hpred]
  rw [r0, rd_mid_map Prod.snd _ R (true, d) _ rfl]
  simp only [Option.some_bind, ne_eq, hy, not_false_eq_true, if_true]
  rw [wr_mid_map Prod.fst _ R (true, d) _ _ rfl, fill_from (d - 1) (pre ++ [y]) R (true, d) l hl]
  simp only [Option.some_bind]
  rw [ofSlots_fill]

/-! ## The successor in the order of `compare` -/

theorem cmpS_zero_le_replicate (p t : Int) (nt : List Slot) (k : Nat)
    (h : ∀ s ∈ nt, t ≤ s.2) : 0 ≤ cmpS p nt (List.replicate k (false, t)) := by
  have := cmpS_replicate_zero_le p t nt k h
  rw [cmpS_antisymm] at this
  omega

/-- Measures above `pre ++ mt` are above `pre ++ st` as soon as this holds for
the tails `mt` and `st`. -/
theorem above_of_tail (p : Int) (pre mt st : List Slot) (hpre : ∀ s ∈ pre, s.2 ≤ p)
    (H : ∀ nt : List Slot, nt.length = mt.length → nt.Pairwise (fun a b => a.2 ≤ b.2) →
      cmpS p nt mt = 1 → 0 ≤ cmpS p nt st) :
    ∀ ns : List Slot, ns.length = (pre ++ mt).length → ns.Pairwise (fun a b => a.2 ≤ b.2) →
      cmpS p ns (pre ++ mt) = 1 → 0 ≤ cmpS p ns (pre ++ st) := by
  intro ns hlen hsort hcmp
  have hns : ns = ns.take pre.length ++ ns.drop pre.length := (List.take_append_drop _ _).symm
  have hlt : (ns.take pre.length).length = pre.length := by
    rw [List.length_take]; simp at hlen; omega
  rcases cmpS_split p pre (ns.take pre.length) hlt hpre with e | ⟨_, h2⟩
  · rw [hns, e, cmpS_append_left p _ _ pre hpre] at hcmp
    rw [hns, e, cmpS_append_left p _ _ pre hpre]
    apply H _ _ _ hcmp
    · rw [List.length_drop]; simp at hlen; omega
    · rw [hns, List.pairwise_append] at hsort
      exact hsort.2.1
  · rw [hns, h2] at hcmp
    rw [hns, h2, hcmp]
    decide

theorem tail_case2 (p : Int) (h0 : Slot) (hi : List Slot) (hh : p < h0.2) :
    cmpS p ((true, p) :: List.replicate hi.length (false, p)) (h0 :: hi) = 1 ∧
    ∀ nt : List Slot, nt.length = (h0 :: hi).length → nt.Pairwise (fun a b => a.2 ≤ b.2) →
      cmpS p nt (h0 :: hi) = 1 →
      0 ≤ cmpS p nt ((true, p) :: List.replicate hi.length (false, p)) := by
  have k0 : key p h0 = 0 := by simp [key, hh]
  have k1 : key p (true, p) = 1 := by simp [key]
  constructor
  · rw [cmpS_cons_key, k0, k1]; simp
  · intro nt hlen hsort hcmp
    cases nt with
    | nil => simp at hlen
    | cons n0 nt =>
      rw [cmpS_cons_key, k0] at hcmp
      rw [cmpS_cons_key, k1]
      have hpos : 0 < key p n0 := by split_ifs at hcmp <;> omega
      by_cases h1 : key p n0 = 1
      · have e := key_inj p n0 (true, p) (by rw [h1, k1]) (by rw [k1]; decide)
        have := cmpS_zero_le_replicate p p nt hi.length (by
          intro s hs
          have := (List.pairwise_cons.mp hsort).1 s hs
          rw [e] at this
          exact this)
        rw [h1]
        simpa using this
      · split_ifs <;> omega

theorem tail_3b (p d : Int) (n : Nat) (hd : d ≤ p) :
    cmpS p (List.replicate (n + 1) (false, d + 1)) ((false, d) :: List.replicate n (true, d)) = 1 ∧
    ∀ nt : List Slot, nt.length = n + 1 → nt.Pairwise (fun a b => a.2 ≤ b.2) →
      cmpS p nt ((false, d) :: List.replicate n (true, d)) = 1 →
      0 ≤ cmpS p nt (List.replicate (n + 1) (false, d + 1)) := by
  have k0 : key p (false, d) = d - p - 1 := by
    dsimp only [key]; split_ifs <;> first | omega | (exfalso; simp_all)
  have k1 : key p (false, d + 1) = if d + 1 > p then 0 else d - p := by
    dsimp only [key]; split_ifs <;> first | omega | (exfalso; simp_all)
  constructor
  · rw [List.replicate_succ, cmpS_cons_key, k0, k1]
    split_ifs <;> omega
  · intro nt hlen hsort hcmp
    cases nt with
    | nil => simp at hlen
    | cons n0 nt =>
      rw [cmpS_cons_key, k0] at hcmp
      rw [List.replicate_succ, cmpS_cons_key, k1]
      have hgt : d - p - 1 < key p n0 := by
        by_contra hc
        have heq : key p n0 = d - p - 1 := by split_ifs at hcmp <;> omega
        have e := key_inj p n0 (false, d) (by rw [heq, k0]) (by rw [k0]; omega)
        have := cmpS_le_replicate_one p d hd nt n (by
          intro s hs
          have := (List.pairwise_cons.mp hsort).1 s hs
          rw [e] at this
          exact this)
        rw [heq] at hcmp
        simp only [lt_self_iff_false, if_false] at hcmp
        split_ifs at hcmp <;> omega
      by_cases h1 : key p n0 = (if d + 1 > p then 0 else d - p)
      · by_cases h2 : d + 1 > p
        · simp only [h2, if_true] at h1 ⊢
          rw [h1]; simp
        · simp only [h2, if_false] at h1 ⊢
          have e := key_inj p n0 (false, d + 1) (by rw [h1, k1]; simp [h2])
            (by rw [k1]; simp only [h2, if_false]; omega)
          have := cmpS_zero_le_replicate p (d + 1) nt n (by
            intro s hs
            have := (List.pairwise_cons.mp hsort).1 s hs
            rw [e] at this
            exact this)
          rw [h1]
          simp only [lt_self_iff_false, if_false]
          split_ifs <;> omega
      · split_ifs at h1 ⊢ <;> omega

theorem tail_3e (p d : Int) (n : Nat) (hd : d ≤ p) :
    cmpS p ((true, d - 1) :: List.replicate n (false, d - 1))
      ((true, d) :: List.replicate n (true, d)) = 1 ∧
    ∀ nt : List Slot, nt.length = n + 1 → nt.Pairwise (fun a b => a.2 ≤ b.2) →
      cmpS p nt ((true, d) :: List.replicate n (true, d)) = 1 →
      0 ≤ cmpS p nt ((true, d - 1) :: List.replicate n (false, d - 1)) := by
  have k0 : key p (true, d) = p + 1 - d := by
    dsimp only [key]; split_ifs <;> first | omega | (exfalso; simp_all)
  have k1 : key p (true, d - 1) = p + 2 - d := by
    dsimp only [key]; split_ifs <;> first | omega | (exfalso; simp_all)
  constructor
  · rw [cmpS_cons_key, k0, k1]
    split_ifs <;> omega
  · intro nt hlen hsort hcmp
    cases nt with
    | nil => simp at hlen
    | cons n0 nt =>
      rw [cmpS_cons_key, k0] at hcmp
      rw [cmpS_cons_key, k1]
      have hgt : p + 1 - d < key p n0 := by
        by_contra hc
        have heq : key p n0 = p + 1 - d := by split_ifs at hcmp <;> omega
        have e := key_inj p n0 (true, d) (by rw [heq, k0]) (by rw [k0]; omega)
        have := cmpS_le_replicate_one p d hd nt n (by
          intro s hs
          have := (List.pairwise_cons.mp hsort).1 s hs
          rw [e] at this
          exact this)
        rw [heq] at hcmp
        simp only [lt_self_iff_false, if_false] at hcmp
        split_ifs at hcmp <;> omega
      by_cases h1 : key p n0 = p + 2 - d
      · have e := key_inj p n0 (true, d - 1) (by rw [h1, k1]) (by rw [k1]; omega)
        have := cmpS_zero_le_replicate p (d - 1) nt n (by
          intro s hs
          have := (List.pairwise_cons.mp hsort).1 s hs
          rw [e] at this
          exact this)
        rw [h1]
        simp only [lt_self_iff_false, if_false]
        split_ifs <;> omega
      · split_ifs <;> omega

theorem rd_last_map {α β : Type} (f : α → β) (xs : List α) (z : α) :
    rd ((xs ++ [z]).map f) ((xs ++ [z]).length - 1) = some (f z) := by
  have := rd_mid_map f xs [] z ((xs ++ [z]).length - 1) (by simp)
  simpa using this

/-- The last slot of a block `(b0, d), (1, d), ..., (1, d)` is at level `d`. -/
theorem rd_last_block (pre : List Slot) (b0 : Bool) (d : Int) (n : Nat) :
    rd ((pre ++ (b0, d) :: List.replicate n (true, d)).map Prod.snd)
      ((pre ++ (b0, d) :: List.replicate n (true, d)).length - 1) = some d := by
  cases n with
  | zero =>
    have := rd_last_map Prod.snd pre (b0, d)
    simpa using this
  | succ m =>
    have e : pre ++ (b0, d) :: List.replicate (m + 1) (true, d)
        = (pre ++ (b0, d) :: List.replicate m (true, d)) ++ [(true, d)] := by
      simp [List.replicate_succ']
    rw [e]
    exact rd_last_map Prod.snd _ (true, d)

/-- Every non-empty slot list ends in a block `(b0, d), (1, d), ..., (1, d)` at
whose first slot the loop of case 3 stops: the bit `b0` is `0`, or the slot is
slot 0, or the slot below is at another level. -/
theorem carry_split : ∀ xs : List Slot, xs ≠ [] →
    ∃ (pre : List Slot) (b0 : Bool) (d : Int) (n : Nat),
      xs = pre ++ (b0, d) :: List.replicate n (true, d) ∧
      (b0 = false ∨ pre = [] ∨ ∃ (pre1 : List Slot) (y : Slot), pre = pre1 ++ [y] ∧ y.2 ≠ d)
  | [], h => absurd rfl h
  | [a], _ => ⟨[], a.1, a.2, 0, by simp, Or.inr (Or.inl rfl)⟩
  | a :: b :: xs, _ => by
    obtain ⟨pre, b0, d, n, e, hc⟩ := carry_split (b :: xs) (by simp)
    rw [e]
    by_cases hb : b0 = false
    · exact ⟨a :: pre, b0, d, n, by simp, Or.inl hb⟩
    · have hb1 : b0 = true := by simpa using hb
      rcases hc with h1 | h1 | ⟨pre1, y, h1, h2⟩
      · exact absurd h1 hb
      · subst h1
        by_cases ha : a.2 = d
        · refine ⟨[], a.1, d, n + 1, ?_, Or.inr (Or.inl rfl)⟩
          obtain ⟨ab, ad⟩ := a
          simp only at ha
          subst ha; subst hb1
          simp [List.replicate_succ]
        · exact ⟨[a], b0, d, n, by simp, Or.inr (Or.inr ⟨[], a, by simp, ha⟩)⟩
      · exact ⟨a :: pre, b0, d, n, by simp, Or.inr (Or.inr ⟨a :: pre1, y, by simp [h1], h2⟩)⟩

theorem rd_head (xs : List Slot) (hne : xs ≠ [])
    (htop : (xs.head?.map Prod.snd) ≠ some (-1)) :
    ∃ t0 : Int, rd (xs.map Prod.snd) 0 = some t0 ∧ t0 ≠ -1 := by
  cases xs with
  | nil => exact absurd rfl hne
  | cons a xs => exact ⟨a.2, by simp [rd], by simpa using htop⟩

/-- Case 2 of `prog_tmp`: some slots are tagged above `pindex`. -/
theorem prog_tmp_case2 (l : Nat) (p h : Int) (lo hi : List Slot) (h0 : Slot)
    (hl : l = (lo ++ h0 :: hi).length)
    (htop : ((lo ++ h0 :: hi).head?.map Prod.snd) ≠ some (-1))
    (hhi : ∀ s ∈ h0 :: hi, p < s.2) (hlo : ∀ s ∈ lo.getLast?, s.2 ≤ p) :
    prog_tmp l p h (ofSlots (lo ++ h0 :: hi))
      = some (ofSlots (lo ++ (true, p) :: List.replicate hi.length (false, p))) := by
  have hlow := progLow_shape p (h0 :: hi) lo [] hhi hlo
  simp only [List.append_nil] at hlow
  have hlen : lo.length + (h0 :: hi).length = l := by rw [hl]; simp
  rw [hlen] at hlow
  have hl0 : l ≠ 0 := by rw [hl]; simp
  -- the tag of the last slot
  have hlast : ∃ t : Int, rd ((lo ++ h0 :: hi).map Prod.snd) (l - 1) = some t ∧ p < t := by
    rcases List.eq_nil_or_concat (h0 :: hi) with e | ⟨L, z, e⟩
    · simp at e
    · have hz : p < z.2 := hhi z (by rw [e]; simp)
      refine ⟨z.2, ?_, hz⟩
      rw [hl, e, List.concat_eq_append, ← List.append_assoc]
      exact rd_last_map Prod.snd (lo ++ L) z
  obtain ⟨t, ht, hpt⟩ := hlast
  obtain ⟨t0, ht0, hne0⟩ := rd_head (lo ++ h0 :: hi) (by simp) htop
  unfold prog_tmp
  rw [ofSlots_d, ht0]
  simp only [Option.bind_eq_bind, Option.some_bind, hne0, if_false, hl0, ht, gt_iff_lt, hpt,
    if_true, hlow]
  rw [ofSlots_b, List.length_cons, List.replicate_succ]
  rw [wr_mid_map Prod.fst lo _ (false, p) _ _ rfl]
  simp [ofSlots]

/-- Case 3 of `prog_tmp`: no slot is tagged above `pindex`; the loop runs down to
the first slot of the last block. -/
theorem prog_tmp_case3 (l : Nat) (p h : Int) (pre : List Slot) (b0 : Bool) (d : Int) (n : Nat)
    (hl : l = (pre ++ (b0, d) :: List.replicate n (true, d)).length)
    (htop : ((pre ++ (b0, d) :: List.replicate n (true, d)).head?.map Prod.snd) ≠ some (-1))
    (hd : d ≤ p) :
    prog_tmp l p h (ofSlots (pre ++ (b0, d) :: List.replicate n (true, d)))
      = progCarry l h (pre.length + 1) (ofSlots (pre ++ (b0, d) :: List.replicate n (false, d))) := by
  have hl0 : l ≠ 0 := by rw [hl]; simp
  have ht := rd_last_block pre b0 d n
  rw [← hl] at ht
  obtain ⟨t0, ht0, hne0⟩ := rd_head (pre ++ (b0, d) :: List.replicate n (true, d)) (by simp) htop
  have hones := progCarry_ones l h d n pre [] b0
  simp only [List.append_nil, List.append_assoc, List.singleton_append, List.length_append,
    List.length_singleton] at hones
  have hcnt : pre.length + 1 + n = l := by rw [hl]; simp; omega
  rw [hcnt] at hones
  unfold prog_tmp
  rw [ofSlots_d, ht0]
  simp only [Option.bind_eq_bind, Option.some_bind, hne0, if_false, hl0, ht, gt_iff_lt,
    not_lt.mpr hd]
  exact hones

theorem sorted_tail_const (pre tail : List Slot) (t : Int)
    (hpre : pre.Pairwise (fun a b => a.2 ≤ b.2)) (hle : ∀ s ∈ pre, s.2 ≤ t)
    (htail : ∀ s ∈ tail, s.2 = t) : (pre ++ tail).Pairwise (fun a b => a.2 ≤ b.2) := by
  rw [List.pairwise_append]
  refine ⟨hpre, ?_, ?_⟩
  · apply List.pairwise_of_forall_mem_list
    intro a ha b hb
    rw [htail a ha, htail b hb]
  · intro a ha b hb
    rw [htail b hb]; exact hle a ha

theorem tags_cons_replicate (v w : Bool) (t : Int) (n : Nat) :
    ∀ s ∈ (v, t) :: List.replicate n ((w, t) : Slot), s.2 = t := by
  intro s hs
  rcases List.mem_cons.mp hs with e | e
  · rw [e]
  · rw [(List.mem_replicate.mp e).2]

/-- The result of `prog_tmp` on a finite measure, on slots, for `0 ≤ p < h`:
either it is Top and no finite measure is above the argument, or it is a finite
measure above the argument and below every measure above the argument. -/
theorem prog_slots (l : Nat) (p h : Int) (xs : List Slot) (hl : l = xs.length) (hne : xs ≠ [])
    (hnn : ∀ s ∈ xs, 0 ≤ s.2) (hsort : xs.Pairwise (fun a b => a.2 ≤ b.2))
    (hp0 : 0 ≤ p) (hph : p < h) :
    ∃ ys : List Slot, prog_tmp l p h (ofSlots xs) = some (ofSlots ys) ∧ ys.length = xs.length ∧
      (((ys.head?.map Prod.snd) = some (-1) ∧
          ∀ ns : List Slot, ns.length = xs.length → (∀ s ∈ ns, 0 ≤ s.2) → cmpS p ns xs ≤ 0) ∨
       ((∀ s ∈ ys, 0 ≤ s.2) ∧ ys.Pairwise (fun a b => a.2 ≤ b.2) ∧ cmpS p ys xs = 1 ∧
          ∀ ns : List Slot, ns.length = xs.length → ns.Pairwise (fun a b => a.2 ≤ b.2) →
            cmpS p ns xs = 1 → 0 ≤ cmpS p ns ys)) := by
  have htop := head_ne_top xs hnn
  obtain ⟨lo, hi, rfl, hlo, hhi⟩ := sorted_split p xs hsort
  cases hi with
  | cons h0 hi =>
    -- case 2
    refine ⟨_, prog_tmp_case2 l p h lo hi h0 hl htop hhi (getLast?_le_of_forall p lo hlo),
      by simp, Or.inr ⟨?_, ?_, ?_, ?_⟩⟩
    · intro s hs
      rcases List.mem_append.mp hs with e | e
      · exact hnn s (List.mem_append_left _ e)
      · rw [tags_cons_replicate true false p _ s e]; exact hp0
    · exact sorted_tail_const lo _ p (List.pairwise_append.mp hsort).1 hlo
        (tags_cons_replicate true false p _)
    · rw [cmpS_append_left p _ _ lo hlo]
      exact (tail_case2 p h0 hi (hhi h0 (by simp))).1
    · exact above_of_tail p lo (h0 :: hi) _ hlo (tail_case2 p h0 hi (hhi h0 (by simp))).2
  | nil =>
    -- case 3
    rw [List.append_nil] at hl hne hnn hsort htop ⊢
    obtain ⟨pre, b0, d, n, rfl, hc⟩ := carry_split lo hne
    have hd : d ≤ p := hlo (b0, d) (by simp)
    have hd0 : 0 ≤ d := hnn (b0, d) (by simp)
    have hpd : ∀ s ∈ pre, s.2 ≤ d := fun s hs =>
      (List.pairwise_append.mp hsort).2.2 s hs (b0, d) (by simp)
    have hpp : ∀ s ∈ pre, s.2 ≤ p := fun s hs => le_trans (hpd s hs) hd
    have hpsort := (List.pairwise_append.mp hsort).1
    have hpnn : ∀ s ∈ pre, 0 ≤ s.2 := fun s hs => hnn s (List.mem_append_left _ hs)
    have hlen : l = pre.length + 1 + (List.replicate n ((false, d) : Slot)).length := by
      rw [hl]; simp; omega
    have h3 := prog_tmp_case3 l p h pre b0 d n hl htop hd
    cases b0 with
    | false =>
      -- 3b
      have hb := progCarry_3b l h d pre (List.replicate n (false, d)) hlen (by omega)
      rw [List.map_replicate] at hb
      refine ⟨_, h3.trans hb, by simp, Or.inr ⟨?_, ?_, ?_, ?_⟩⟩
      · intro s hs
        rcases List.mem_append.mp hs with e | e
        · exact hpnn s e
        · rw [tags_cons_replicate false false (d + 1) _ s e]; omega
      · exact sorted_tail_const pre _ (d + 1) hpsort (fun s hs => by have := hpd s hs; omega)
          (tags_cons_replicate false false (d + 1) _)
      · rw [cmpS_append_left p _ _ pre hpp, ← List.replicate_succ]
        exact (tail_3b p d n hd).1
      · have := above_of_tail p pre ((false, d) :: List.replicate n (true, d))
          (List.replicate (n + 1) (false, d + 1)) hpp
          (fun nt h1 => (tail_3b p d n hd).2 nt (by simpa using h1))
        rw [List.replicate_succ] at this
        exact this
    | true =>
      rcases hc with hc | hc | ⟨pre1, y, hc, hy⟩
      · exact absurd hc (by decide)
      · subst hc
        by_cases hz : d = 0
        · -- 3c
          subst hz
          have hb := progCarry_3c l h (List.replicate n (false, 0))
          refine ⟨_, h3.trans hb, by simp, Or.inl ⟨by simp, ?_⟩⟩
          intro ns _ hns
          rw [List.nil_append, ← List.replicate_succ]
          exact cmpS_le_replicate_one p 0 hp0 ns (n + 1) hns
        · -- 3d
          have hb := progCarry_3d l h d (List.replicate n (false, d)) (by simpa using hlen) hz
          rw [List.map_replicate] at hb
          refine ⟨_, h3.trans hb, by simp, Or.inr ⟨?_, ?_, ?_, ?_⟩⟩
          · intro s hs
            rw [tags_cons_replicate true false (d - 1) _ s hs]; omega
          · exact sorted_tail_const [] _ (d - 1) List.Pairwise.nil (by simp)
              (tags_cons_replicate true false (d - 1) _)
          · exact (tail_3e p d n hd).1
          · intro ns h1 h2 h4
            exact (tail_3e p d n hd).2 ns (by simpa using h1) h2 h4
      · -- 3e
        subst hc
        have hb := progCarry_3e l h d pre1 (List.replicate n (false, d)) y hlen hy
        rw [List.map_replicate] at hb
        have hyd : y.2 ≤ d - 1 := by
          have := hpd y (by simp)
          omega
        have hpd1 : ∀ s ∈ pre1 ++ [y], s.2 ≤ d - 1 := by
          intro s hs
          rcases List.mem_append.mp hs with e | e
          · have := (List.pairwise_append.mp hpsort).2.2 s e y (by simp)
            omega
          · simp at e; rw [e]; exact hyd
        refine ⟨_, h3.trans hb, by simp, Or.inr ⟨?_, ?_, ?_, ?_⟩⟩
        · intro s hs
          rcases List.mem_append.mp hs with e | e
          · exact hpnn s e
          · rw [tags_cons_replicate true false (d - 1) _ s e]
            have := hpnn y (by simp)
            omega
        · exact sorted_tail_const (pre1 ++ [y]) _ (d - 1) hpsort hpd1
            (tags_cons_replicate true false (d - 1) _)
        · rw [cmpS_append_left p _ _ (pre1 ++ [y]) hpp]
          exact (tail_3e p d n hd).1
        · exact above_of_tail p (pre1 ++ [y]) ((true, d) :: List.replicate n (true, d)) _ hpp
            (fun nt h1 => (tail_3e p d n hd).2 nt (by simpa using h1))

/-! ## The successor `prog_tmp` (C1, C2, C3) -/

/-- The result of `prog_tmp` on a finite measure of length `l ≥ 1`, for
`0 ≤ pindex < h`, on measures. -/
theorem prog_tmp_finite (l : Nat) (p h : Int) (M : Measure) (hl : 1 ≤ l) (hp0 : 0 ≤ p)
    (hph : p < h) (hM : M.Finite l) :
    ∃ S : Measure, prog_tmp l p h M = some S ∧ S.Sized l ∧
      ((S.IsTop ∧ ∀ N : Measure, N.Finite l → ∃ c : Int, compare l p N M = some c ∧ c ≤ 0) ∨
       (S.Finite l ∧ ¬ S.IsTop ∧ compare l p S M = some 1 ∧
          ∀ N : Measure, N.Finite l → compare l p N M = some 1 →
            ∃ c : Int, compare l p N S = some c ∧ 0 ≤ c)) := by
  obtain ⟨xs, hx, rfl⟩ := exists_slots M l hM.1
  obtain ⟨-, hnn, hsort⟩ := (finite_ofSlots l xs).mp hM
  have hne : xs ≠ [] := by
    intro h; rw [h] at hx; simp at hx; omega
  have htop := head_ne_top xs hnn
  obtain ⟨ys, hprog, hlen, hcase⟩ := prog_slots l p h xs hx.symm hne hnn hsort hp0 hph
  have hS : (ofSlots ys).Sized l := by
    have := ofSlots_sized ys
    rw [hlen, hx] at this
    exact this
  refine ⟨ofSlots ys, hprog, hS, ?_⟩
  rcases hcase with ⟨h1, h2⟩ | ⟨h1, h2, h3, h4⟩
  · left
    refine ⟨(isTop_ofSlots ys).mpr h1, ?_⟩
    intro N hN
    obtain ⟨ns, hns, rfl⟩ := exists_slots N l hN.1
    obtain ⟨-, hnnN, -⟩ := (finite_ofSlots l ns).mp hN
    refine ⟨_, compare_sized l p _ _ hl hN.1 hM.1, ?_⟩
    rw [slots_ofSlots, slots_ofSlots, cmpM_finite p _ _ (head_ne_top ns hnnN) htop]
    exact h2 ns (by omega) hnnN
  · right
    have htopS := head_ne_top ys h1
    refine ⟨(finite_ofSlots l ys).mpr ⟨by omega, h1, h2⟩, ?_, ?_, ?_⟩
    · rw [isTop_ofSlots]; exact htopS
    · rw [compare_sized l p _ _ hl hS hM.1, slots_ofSlots, slots_ofSlots,
        cmpM_finite p _ _ htopS htop, h3]
    · intro N hN hcmp
      obtain ⟨ns, hns, rfl⟩ := exists_slots N l hN.1
      obtain ⟨-, hnnN, hsortN⟩ := (finite_ofSlots l ns).mp hN
      have htopN := head_ne_top ns hnnN
      rw [compare_sized l p _ _ hl hN.1 hM.1, slots_ofSlots, slots_ofSlots,
        cmpM_finite p _ _ htopN htop] at hcmp
      simp only [Option.some.injEq] at hcmp
      refine ⟨_, compare_sized l p _ _ hl hN.1 hS, ?_⟩
      rw [slots_ofSlots, slots_ofSlots, cmpM_finite p _ _ htopN htopS]
      exact h4 ns (by omega) hsortN hcmp

theorem finite_not_top (l : Nat) (M : Measure) (hl : 1 ≤ l) (hM : M.Finite l) :
    ∃ t : Int, rd M.d 0 = some t ∧ t ≠ -1 := by
  obtain ⟨xs, hx, rfl⟩ := exists_slots M l hM.1
  obtain ⟨-, hnn, -⟩ := (finite_ofSlots l xs).mp hM
  have hne : xs ≠ [] := by
    intro h; rw [h] at hx; simp at hx; omega
  exact rd_head xs hne (head_ne_top xs hnn)

/-- C1: the successor is strictly increasing.  For `l ≥ 1`, `0 ≤ p < h` and a
finite measure `M` of length `l` (non-negative, non-decreasing tags),
`prog_tmp(p, h)` returns a measure `S` of length `l` that is Top or finite, and
`compare(S, M, p)` returns `1`. -/
theorem prog_tmp_increasing (l : Nat) (p h : Int) (M : Measure) (hl : 1 ≤ l) (hp0 : 0 ≤ p)
    (hph : p < h) (hM : M.Finite l) :
    ∃ S : Measure, prog_tmp l p h M = some S ∧ (S.IsTop ∨ S.Finite l) ∧
      compare l p S M = some 1 := by
  obtain ⟨S, h1, h2, h3⟩ := prog_tmp_finite l p h M hl hp0 hph hM
  refine ⟨S, h1, ?_⟩
  rcases h3 with ⟨ht, _⟩ | ⟨hf, _, hc, _⟩
  · exact ⟨Or.inl ht, compare_top_finite l p S M ht (finite_not_top l M hl hM)⟩
  · exact ⟨Or.inr hf, hc⟩

theorem prog_tmp_increasing_witness :
    ∃ S : Measure, prog_tmp 2 1 2 exB = some S ∧ (S.IsTop ∨ S.Finite 2) ∧
      compare 2 1 S exB = some 1 :=
  prog_tmp_increasing 2 1 2 exB (by decide) (by decide) (by decide) (by decide)

/-- C2: the successor is the least strictly greater measure.  For `l ≥ 1`,
`0 ≤ p < h` and a finite measure `M` of length `l`, `prog_tmp(p, h)` returns a
measure `S` such that for every measure `N` of length `l`, Top or finite, with
`compare(N, M, p) = 1`, `compare(N, S, p)` returns `0` or `1`. -/
theorem prog_tmp_least (l : Nat) (p h : Int) (M : Measure) (hl : 1 ≤ l) (hp0 : 0 ≤ p)
    (hph : p < h) (hM : M.Finite l) :
    ∃ S : Measure, prog_tmp l p h M = some S ∧
      ∀ N : Measure, (N.IsTop ∧ N.Sized l) ∨ N.Finite l → compare l p N M = some 1 →
        ∃ c : Int, compare l p N S = some c ∧ (c = 0 ∨ c = 1) := by
  obtain ⟨S, h1, h2, h3⟩ := prog_tmp_finite l p h M hl hp0 hph hM
  refine ⟨S, h1, ?_⟩
  intro N hN hcmp
  have hNs : N.Sized l := by
    rcases hN with h | h
    · exact h.2
    · exact h.1
  have key : ∃ c : Int, compare l p N S = some c ∧ 0 ≤ c := by
    rcases hN with ⟨hNt, _⟩ | hNf
    · by_cases hSt : S.IsTop
      · exact ⟨0, compare_top_top l p N S hNt hSt, le_refl 0⟩
      · rcases h3 with ⟨ht, _⟩ | ⟨hf, _, _, _⟩
        · exact absurd ht hSt
        · exact ⟨1, compare_top_finite l p N S hNt (finite_not_top l S hl hf), by decide⟩
    · rcases h3 with ⟨_, hno⟩ | ⟨_, _, _, hmin⟩
      · obtain ⟨c, hc, hle⟩ := hno N hNf
        rw [hc] at hcmp
        simp only [Option.some.injEq] at hcmp
        omega
      · exact hmin N hNf hcmp
  obtain ⟨c, hc, hpos⟩ := key
  refine ⟨c, hc, ?_⟩
  rcases compare_range l p N S c hc hNs h2 with h | h | h
  · omega
  · exact Or.inl h
  · exact Or.inr h

theorem prog_tmp_least_witness :
    ∃ S : Measure, prog_tmp 2 1 2 exB = some S ∧
      ∀ N : Measure, (N.IsTop ∧ N.Sized 2) ∨ N.Finite 2 → compare 2 1 N exB = some 1 →
        ∃ c : Int, compare 2 1 N S = some c ∧ (c = 0 ∨ c = 1) :=
  prog_tmp_least 2 1 2 exB (by decide) (by decide) (by decide) (by decide)

/-- The measure with all bits `1` at level `0` is above every finite measure that
has a finite measure above it. -/
theorem max_above (l : Nat) (p : Int) (M S : Measure) (hl : 1 ≤ l) (hp0 : 0 ≤ p)
    (hM : M.Finite l) (hS : S.Finite l) (hc : compare l p S M = some 1) :
    (ofSlots (List.replicate l (true, 0))).Finite l ∧
    (∀ t ∈ (ofSlots (List.replicate l (true, 0))).d, t = 0) ∧
    compare l p (ofSlots (List.replicate l (true, 0))) M = some 1 := by
  have hN : (ofSlots (List.replicate l ((true, 0) : Slot))).Finite l := by
    rw [finite_ofSlots]
    refine ⟨by simp, ?_, ?_⟩
    · intro s hs; rw [(List.mem_replicate.mp hs).2]
    · apply List.pairwise_of_forall_mem_list
      intro a ha b hb
      rw [(List.mem_replicate.mp ha).2, (List.mem_replicate.mp hb).2]
  refine ⟨hN, ?_, ?_⟩
  · intro t ht
    rw [ofSlots_d] at ht
    obtain ⟨s, hs, rfl⟩ := List.mem_map.mp ht
    rw [(List.mem_replicate.mp hs).2]
  · obtain ⟨xs, hx, rfl⟩ := exists_slots M l hM.1
    obtain ⟨ys, hy, rfl⟩ := exists_slots S l hS.1
    obtain ⟨-, hnn, -⟩ := (finite_ofSlots l xs).mp hM
    obtain ⟨-, hnnS, -⟩ := (finite_ofSlots l ys).mp hS
    obtain ⟨-, hnnN, -⟩ := (finite_ofSlots l _).mp hN
    have htop := head_ne_top xs hnn
    have htopS := head_ne_top ys hnnS
    have htopN := head_ne_top _ hnnN
    rw [compare_sized l p _ _ hl hS.1 hM.1, slots_ofSlots, slots_ofSlots,
      cmpM_finite p _ _ htopS htop] at hc
    simp only [Option.some.injEq] at hc
    rw [compare_sized l p _ _ hl hN.1 hM.1, slots_ofSlots, slots_ofSlots,
      cmpM_finite p _ _ htopN htop]
    have h1 := cmpS_le_replicate_one p 0 hp0 ys l hnnS
    have h2 := (cmpS_trans p xs ys (List.replicate l (true, 0)) (by omega) (by simp [hy])).2.1
    have a1 := cmpS_antisymm p xs ys
    have a2 := cmpS_antisymm p xs (List.replicate l (true, 0))
    have r := cmpS_range p (List.replicate l (true, 0)) xs
    have := h2 (by omega) h1
    have e : cmpS p (List.replicate l (true, 0)) xs = 1 := by omega
    rw [e]

/-- C3: the successor overflows to Top exactly when nothing finite is larger.
For `l ≥ 1` and `0 ≤ p < h`: on a finite measure `M` of length `l`,
`prog_tmp(p, h)` returns a measure that is Top if and only if no finite measure
`N` of length `l` has `compare(N, M, p) = 1`; when the result is not Top, such
an `N` exists with every tag equal to `0` (so within any range of levels); and
on a Top measure `prog_tmp` returns the measure unchanged. -/
theorem prog_tmp_top_iff (l : Nat) (p h : Int) (hl : 1 ≤ l) (hp0 : 0 ≤ p) (hph : p < h) :
    (∀ M : Measure, M.Finite l →
      ∃ S : Measure, prog_tmp l p h M = some S ∧
        (S.IsTop ↔ ¬ ∃ N : Measure, N.Finite l ∧ compare l p N M = some 1) ∧
        (¬ S.IsTop →
          ∃ N : Measure, N.Finite l ∧ (∀ t ∈ N.d, t = 0) ∧ compare l p N M = some 1)) ∧
    (∀ M : Measure, M.IsTop → prog_tmp l p h M = some M) := by
  constructor
  · intro M hM
    obtain ⟨S, h1, h2, h3⟩ := prog_tmp_finite l p h M hl hp0 hph hM
    refine ⟨S, h1, ?_⟩
    rcases h3 with ⟨ht, hno⟩ | ⟨hf, hnt, hc, _⟩
    · refine ⟨⟨fun _ => ?_, fun _ => ht⟩, fun h => absurd ht h⟩
      rintro ⟨N, hN, hcmp⟩
      obtain ⟨c, hc, hle⟩ := hno N hN
      rw [hc] at hcmp
      simp only [Option.some.injEq] at hcmp
      omega
    · refine ⟨⟨fun ht => absurd ht hnt, fun hno => ?_⟩, fun _ => ?_⟩
      · exact absurd ⟨S, hf, hc⟩ hno
      · exact ⟨_, max_above l p M S hl hp0 hM hf hc⟩
  · intro M hM
    unfold Measure.IsTop at hM
    simp [prog_tmp, hM]

theorem prog_tmp_top_iff_witness :
    (∃ S : Measure, prog_tmp 2 1 2 exC = some S ∧
        (S.IsTop ↔ ¬ ∃ N : Measure, N.Finite 2 ∧ compare 2 1 N exC = some 1) ∧
        (¬ S.IsTop →
          ∃ N : Measure, N.Finite 2 ∧ (∀ t ∈ N.d, t = 0) ∧ compare 2 1 N exC = some 1)) ∧
    prog_tmp 2 1 2 exTop = some exTop :=
  ⟨(prog_tmp_top_iff 2 1 2 (by decide) (by decide) (by decide)).1 exC (by decide),
   (prog_tmp_top_iff 2 1 2 (by decide) (by decide) (by decide)).2 exTop (by decide)⟩

/-! ## Copies between the pool and the scratch measures -/

theorem copyLoop_shape {α : Type} (soff doff : Nat) :
    ∀ (S2 B S1 S3 A C : List α) (i : Nat), S2.length = B.length →
      S1.length = soff + i → A.length = doff + i →
      copyLoop (S1 ++ S2 ++ S3) soff doff B.length i (A ++ B ++ C) = some (A ++ S2 ++ C)
  | [], [], S1, S3, A, C, i, _, _, _ => by simp [copyLoop]
  | [], _ :: _, _, _, _, _, _, h, _, _ => by simp at h
  | _ :: _, [], _, _, _, _, _, h, _, _ => by simp at h
  | x :: S2, b :: B, S1, S3, A, C, i, h, h1, h2 => by
    have ih := copyLoop_shape soff doff S2 B (S1 ++ [x]) S3 (A ++ [x]) C (i + 1)
      (by simpa using h) (by simp; omega) (by simp; omega)
    have r : rd (S1 ++ (x :: S2) ++ S3) (soff + i) = some x := by
      have := rd_mid S1 (S2 ++ S3) x
      rw [h1] at this
      simpa using this
    have w : wr (A ++ (b :: B) ++ C) (doff + i) x = some (A ++ x :: (B ++ C)) := by
      have := wr_mid A (B ++ C) b x
      rw [h2] at this
      simpa using this
    simp only [List.length_cons, copyLoop, r, w, Option.bind_eq_bind, Option.some_bind]
    simp only [List.append_assoc, List.singleton_append] at ih
    simp only [List.append_assoc, List.cons_append]
    exact ih

/-- A slice of `l` entries at offset `k * l` of an array of `l * n` entries. -/
theorem slice_split {α : Type} (xs : List α) (l n k : Nat) (hlen : xs.length = l * n)
    (hk : k < n) :
    ∃ P1 P2 : List α, xs = P1 ++ (xs.drop (k * l)).take l ++ P2 ∧ P1.length = k * l ∧
      ((xs.drop (k * l)).take l).length = l := by
  have hbound : k * l + l ≤ xs.length := by
    rw [hlen]
    calc k * l + l = (k + 1) * l := by ring
      _ ≤ n * l := Nat.mul_le_mul_right l hk
      _ = l * n := Nat.mul_comm n l
  refine ⟨xs.take (k * l), (xs.drop (k * l)).drop l, ?_, ?_, ?_⟩
  · rw [List.append_assoc, List.take_append_drop, List.take_append_drop]
  · rw [List.length_take]; omega
  · rw [List.length_take, List.length_drop]; omega

/-- Copy of a slice of the pool into a scratch array of `l` entries. -/
theorem copy_from_pool {α : Type} (pool dst : List α) (l n k : Nat)
    (hlen : pool.length = l * n) (hk : k < n) (hd : dst.length = l) :
    copyLoop pool (k * l) 0 l 0 dst = some ((pool.drop (k * l)).take l) := by
  obtain ⟨P1, P2, e, h1, h2⟩ := slice_split pool l n k hlen hk
  have := copyLoop_shape (k * l) 0 ((pool.drop (k * l)).take l) dst P1 P2 [] [] 0
    (by rw [h2, hd]) (by simpa using h1) rfl
  rw [← e, hd] at this
  simpa using this

/-- Copy of a scratch array of `l` entries into a slice of the pool. -/
theorem copy_to_pool {α : Type} (pool src : List α) (l n k : Nat)
    (hlen : pool.length = l * n) (hk : k < n) (hs : src.length = l) :
    ∃ pool1 : List α, copyLoop src 0 (k * l) l 0 pool = some pool1 ∧
      pool1.length = l * n ∧ (pool1.drop (k * l)).take l = src := by
  obtain ⟨P1, P2, e, h1, h2⟩ := slice_split pool l n k hlen hk
  have := copyLoop_shape 0 (k * l) src ((pool.drop (k * l)).take l) [] [] P1 P2 0
    (by rw [h2, hs]) rfl (by simpa using h1)
  rw [← e, h2] at this
  simp only [List.nil_append, List.append_nil] at this
  refine ⟨_, this, ?_, ?_⟩
  · have hl := congrArg List.length e
    simp only [List.length_append, h2] at hl
    simp only [List.length_append, hs]
    omega
  · rw [List.append_assoc, List.drop_left' h1, List.take_left' hs]

/-! ## The steps of `lift` -/

theorem rd_some {α : Type} (xs : List α) (i : Nat) (h : i < xs.length) :
    ∃ x : α, rd xs i = some x := ⟨xs[i], by simp [rd, h]⟩

theorem pm_sized (g : Game) (s : Solver) (v : Nat) (hok : s.Ok g) (hv : v < g.n_nodes) :
    (s.pm v).Sized s.l := by
  obtain ⟨_, hb, hd, _⟩ := hok
  obtain ⟨_, _, _, _, h1⟩ := slice_split s.pm_b s.l g.n_nodes v hb hv
  obtain ⟨_, _, _, _, h2⟩ := slice_split s.pm_d s.l g.n_nodes v hd hv
  exact ⟨h1, h2⟩

theorem ok_set_tmp (g : Game) (s : Solver) (t : Measure) (hok : s.Ok g) (ht : t.Sized s.l) :
    Solver.Ok g { s with tmp := t } := by
  obtain ⟨h1, h2, h3, _, h5, h6⟩ := hok
  exact ⟨h1, h2, h3, ht, h5, h6⟩

theorem ok_set_best (g : Game) (s : Solver) (t : Measure) (hok : s.Ok g) (ht : t.Sized s.l) :
    Solver.Ok g { s with best := t } := by
  obtain ⟨h1, h2, h3, h4, _, h6⟩ := hok
  exact ⟨h1, h2, h3, h4, ht, h6⟩

theorem to_tmp_spec (g : Game) (s : Solver) (v : Nat) (hok : s.Ok g) (hv : v < g.n_nodes) :
    to_tmp s v = some { s with tmp := s.pm v } := by
  obtain ⟨_, hb, hd, ⟨tb, td⟩, _⟩ := hok
  simp only [to_tmp, copy_from_pool s.pm_b s.tmp.b s.l g.n_nodes v hb hv tb,
    copy_from_pool s.pm_d s.tmp.d s.l g.n_nodes v hd hv td, Option.bind_eq_bind,
    Option.some_bind, Solver.pm]

theorem to_best_spec (g : Game) (s : Solver) (v : Nat) (hok : s.Ok g) (hv : v < g.n_nodes) :
    to_best s v = some { s with best := s.pm v } := by
  obtain ⟨_, hb, hd, _, ⟨bb, bd⟩, _⟩ := hok
  simp only [to_best, copy_from_pool s.pm_b s.best.b s.l g.n_nodes v hb hv bb,
    copy_from_pool s.pm_d s.best.d s.l g.n_nodes v hd hv bd, Option.bind_eq_bind,
    Option.some_bind, Solver.pm]

theorem tmp_to_best_spec (g : Game) (s : Solver) (hok : s.Ok g) :
    tmp_to_best s = some { s with best := s.tmp } := by
  obtain ⟨_, _, _, ⟨_, td⟩, ⟨_, bd⟩, _⟩ := hok
  have e1 : s.tmp.d.take s.l = s.tmp.d := List.take_of_length_le (by omega)
  have e2 : s.best.d.drop s.l = [] := List.drop_of_length_le (by omega)
  simp only [tmp_to_best, td, bd, le_refl, and_self, if_true, e1, e2, List.append_nil]

theorem from_tmp_spec (g : Game) (s : Solver) (v : Nat) (hok : s.Ok g) (hv : v < g.n_nodes) :
    ∃ s1 : Solver, from_tmp s v = some s1 ∧ s1.Ok g ∧ s1.pm v = s.tmp ∧ s1.l = s.l ∧
      s1.h = s.h := by
  obtain ⟨h1, hb, hd, ⟨tb, td⟩, h5, h6⟩ := hok
  obtain ⟨pb, e1, l1, c1⟩ := copy_to_pool s.pm_b s.tmp.b s.l g.n_nodes v hb hv tb
  obtain ⟨pd, e2, l2, c2⟩ := copy_to_pool s.pm_d s.tmp.d s.l g.n_nodes v hd hv td
  refine ⟨{ s with pm_b := pb, pm_d := pd }, ?_, ⟨h1, l1, l2, ⟨tb, td⟩, h5, h6⟩, ?_, rfl, rfl⟩
  · simp only [from_tmp, e1, e2, Option.bind_eq_bind, Option.some_bind]
  · simp only [Solver.pm, c1, c2]

theorem from_best_spec (g : Game) (s : Solver) (v : Nat) (hok : s.Ok g) (hv : v < g.n_nodes) :
    ∃ s1 : Solver, from_best s v = some s1 ∧ s1.Ok g ∧ s1.pm v = s.best ∧ s1.l = s.l ∧
      s1.h = s.h := by
  obtain ⟨h1, hb, hd, h4, ⟨bb, bd⟩, h6⟩ := hok
  obtain ⟨pb, e1, l1, c1⟩ := copy_to_pool s.pm_b s.best.b s.l g.n_nodes v hb hv bb
  obtain ⟨pd, e2, l2, c2⟩ := copy_to_pool s.pm_d s.best.d s.l g.n_nodes v hd hv bd
  refine ⟨{ s with pm_b := pb, pm_d := pd }, ?_, ⟨h1, l1, l2, h4, ⟨bb, bd⟩, h6⟩, ?_, rfl, rfl⟩
  · simp only [from_best, e1, e2, Option.bind_eq_bind, Option.some_bind]
  · simp only [Solver.pm, c1, c2]

theorem getLast?_block (pre : List Slot) (b0 : Bool) (d : Int) (n : Nat) :
    ∃ s : Slot, s ∈ (pre ++ (b0, d) :: List.replicate n (true, d)).getLast? ∧ s.2 = d := by
  cases n with
  | zero => exact ⟨(b0, d), by simp, rfl⟩
  | succ m =>
    refine ⟨(true, d), ?_, rfl⟩
    have e : pre ++ (b0, d) :: List.replicate (m + 1) (true, d)
        = (pre ++ (b0, d) :: List.replicate m (true, d)) ++ [(true, d)] := by
      simp [List.replicate_succ']
    rw [e, List.getLast?_append]
    simp

/-- Totality: `trunc_tmp` returns a measure of length `l` on every measure of length `l ≥ 1`. -/
theorem trunc_tmp_total (l : Nat) (p : Int) (M : Measure) (hl : 0 < l) (hM : M.Sized l) :
    ∃ T : Measure, trunc_tmp l p M = some T ∧ T.Sized l := by
  obtain ⟨T, h1, h2, _⟩ := trunc_tmp_twice l p M hl hM
  exact ⟨T, h1, h2⟩

/-- Totality: `prog_tmp` returns a measure of length `l` on every measure of length `l ≥ 1`,
whatever its bits and tags. -/
theorem prog_tmp_total (l : Nat) (p h : Int) (M : Measure) (hl : 0 < l) (hM : M.Sized l) :
    ∃ S : Measure, prog_tmp l p h M = some S ∧ S.Sized l := by
  by_cases htop : M.IsTop
  · refine ⟨M, ?_, hM⟩
    unfold Measure.IsTop at htop
    simp [prog_tmp, htop]
  · obtain ⟨xs, hx, rfl⟩ := exists_slots M l hM
    rw [isTop_ofSlots] at htop
    have hne : xs ≠ [] := by
      intro h; rw [h] at hx; simp at hx; omega
    have sized : ∀ ys : List Slot, ys.length = l → (ofSlots ys).Sized l := by
      intro ys hy
      have := ofSlots_sized ys
      rw [hy] at this
      exact this
    obtain ⟨lo, hi, rfl, hhi, hlo⟩ := exists_hi_split p xs
    cases hi with
    | cons h0 hi =>
      exact ⟨_, prog_tmp_case2 l p h lo hi h0 hx.symm htop hhi hlo,
        sized _ (by rw [← hx]; simp)⟩
    | nil =>
      rw [List.append_nil] at hx htop hne ⊢
      obtain ⟨pre, b0, d, n, rfl, hc⟩ := carry_split lo hne
      obtain ⟨z, hz, hzd⟩ := getLast?_block pre b0 d n
      have hd : d ≤ p := by
        have := hlo z hz
        omega
      have h3 := prog_tmp_case3 l p h pre b0 d n hx.symm htop hd
      have hlen : l = pre.length + 1 + (List.replicate n ((false, d) : Slot)).length := by
        rw [← hx]; simp; omega
      cases b0 with
      | false =>
        by_cases hdh : d = h
        · subst hdh
          exact ⟨_, h3.trans (progCarry_3a l d pre _), sized _ (by rw [← hx]; simp)⟩
        · exact ⟨_, h3.trans (progCarry_3b l h d pre _ hlen hdh), sized _ (by rw [← hx]; simp)⟩
      | true =>
        rcases hc with hc | hc | ⟨pre1, y, hc, hy⟩
        · exact absurd hc (by decide)
        · subst hc
          by_cases hz0 : d = 0
          · subst hz0
            exact ⟨_, h3.trans (progCarry_3c l h _), sized _ (by rw [← hx]; simp)⟩
          · exact ⟨_, h3.trans (progCarry_3d l h d _ (by simpa using hlen) hz0),
              sized _ (by rw [← hx]; simp)⟩
        · subst hc
          exact ⟨_, h3.trans (progCarry_3e l h d pre1 _ y hlen hy),
            sized _ (by rw [← hx]; simp)⟩

theorem applyOp_spec (g : Game) (s : Solver) (pr pl p : Int) (hok : s.Ok g) :
    ∃ t : Measure, applyOp s pr pl p = some { s with tmp := t } ∧ t.Sized s.l := by
  have hl := hok.1
  have ht := hok.2.2.2.1
  unfold applyOp
  by_cases hpar : pl = pr % 2
  · obtain ⟨S, h1, h2⟩ := prog_tmp_total s.l p s.h s.tmp hl ht
    exact ⟨S, by simp [hpar, h1], h2⟩
  · obtain ⟨T, h1, h2⟩ := trunc_tmp_total s.l p s.tmp hl ht
    exact ⟨T, by simp [hpar, h1], h2⟩

theorem compare_total (l : Nat) (p : Int) (A B : Measure) (hl : 0 < l)
    (hA : A.Sized l) (hB : B.Sized l) :
    ∃ c : Int, compare l p A B = some c ∧ (c = -1 ∨ c = 0 ∨ c = 1) :=
  ⟨_, compare_sized l p A B hl hA hB, cmpM_range p A.slots B.slots⟩

theorem compare_self (l : Nat) (p : Int) (A : Measure) (hl : 0 < l) (hA : A.Sized l) :
    compare l p A A = some 0 := by
  rw [compare_sized l p A A hl hA hA, cmpM_refl]

theorem compare_swap (l : Nat) (p : Int) (A B : Measure) (c : Int) (hl : 0 < l)
    (hA : A.Sized l) (hB : B.Sized l) (h : compare l p A B = some c) :
    compare l p B A = some (-c) := by
  rw [compare_sized l p A B hl hA hB] at h
  simp only [Option.some.injEq] at h
  rw [compare_sized l p B A hl hB hA, cmpM_antisymm, h]

theorem same_refl (s : Solver) : Solver.Same s s := ⟨rfl, rfl, rfl, rfl⟩

theorem same_trans (s0 s1 s2 : Solver) (h1 : Solver.Same s0 s1) (h2 : Solver.Same s1 s2) :
    Solver.Same s0 s2 := by
  obtain ⟨a1, a2, a3, a4⟩ := h1
  obtain ⟨b1, b2, b3, b4⟩ := h2
  exact ⟨b1.trans a1, b2.trans a2, b3.trans a3, b4.trans a4⟩

/-- The first two statements of the body of the scan: `to_tmp(to)` and the
operation on `tmp`. -/
theorem load_op_spec (g : Game) (s : Solver) (w : Nat) (pr pl p : Int) (hok : s.Ok g)
    (hw : w < g.n_nodes) :
    ∃ t : Measure, (to_tmp s w).bind (fun s1 => applyOp s1 pr pl p) = some { s with tmp := t } ∧
      t.Sized s.l := by
  have ok1 := ok_set_tmp g s (s.pm w) hok (pm_sized g s w hok hw)
  obtain ⟨t, h1, h2⟩ := applyOp_spec g { s with tmp := s.pm w } pr pl p ok1
  exact ⟨t, by rw [to_tmp_spec g s w hok hw, Option.some_bind, h1], h2⟩

theorem scanOut_spec (g : Game) (v : Nat) (pr pl p : Int) (hv : v < g.n_nodes) :
    ∀ (es : List Nat), (∀ w ∈ es, w < g.n_nodes) →
      ∀ (first : Bool) (str : Int) (s : Solver), s.Ok g →
        ∃ (f1 : Bool) (str1 : Int) (s1 : Solver),
          scanOut g v pr pl p es (first, str, s) = some (f1, str1, s1) ∧ s1.Ok g ∧
            Solver.Same s s1
  | [], _, first, str, s, hok => ⟨first, str, s, rfl, hok, same_refl s⟩
  | w :: rest, hes, first, str, s, hok => by
    have hw : w < g.n_nodes := hes w (by simp)
    have hrest : ∀ u ∈ rest, u < g.n_nodes := fun u hu => hes u (by simp [hu])
    have ih := scanOut_spec g v pr pl p hv rest hrest
    obtain ⟨dis, hdis⟩ := rd_some g.disabled w (by rw [hok.2.2.2.2.2.2.2.1]; exact hw)
    obtain ⟨ow, how⟩ := rd_some g.owner v (by rw [hok.2.2.2.2.2.2.1]; exact hv)
    obtain ⟨t, hload, ht⟩ := load_op_spec g s w pr pl p hok hw
    have ok2 := ok_set_tmp g s t hok ht
    have same2 : Solver.Same s { s with tmp := t } := ⟨rfl, rfl, rfl, rfl⟩
    have hbest := tmp_to_best_spec g { s with tmp := t } ok2
    have ok3 := ok_set_best g { s with tmp := t } t ok2 ht
    have same3 : Solver.Same s { s with tmp := t, best := t } := ⟨rfl, rfl, rfl, rfl⟩
    obtain ⟨c, hc, _⟩ := compare_total s.l p t s.best hok.1 ht hok.2.2.2.2.1
    have hbind : ∀ (f : Solver → Option (Bool × Int × Solver)),
        ((to_tmp s w).bind fun s1 => (applyOp s1 pr pl p).bind f) = f { s with tmp := t } := by
      intro f
      rw [← Option.bind_assoc, hload, Option.some_bind]
    unfold scanOut
    simp only [hdis, Option.bind_eq_bind, Option.some_bind]
    cases dis with
    | true => simpa using ih first str s hok
    | false =>
      simp only [Bool.false_eq_true, if_false, hbind]
      cases first with
      | true =>
        simp only [if_true, hbest, Option.some_bind]
        obtain ⟨f1, str1, s1, e, o, sm⟩ := ih false (w : Int) _ ok3
        exact ⟨f1, str1, s1, e, o, same_trans _ _ _ same3 sm⟩
      | false =>
        simp only [Bool.false_eq_true, if_false, how, Option.some_bind, hc, hbest]
        by_cases hown : ow = pl
        · by_cases hgt : c > 0
          · simp only [hown, if_true, hgt]
            obtain ⟨f1, str1, s1, e, o, sm⟩ := ih false (w : Int) _ ok3
            exact ⟨f1, str1, s1, e, o, same_trans _ _ _ same3 sm⟩
          · simp only [hown, if_true, hgt, if_false]
            obtain ⟨f1, str1, s1, e, o, sm⟩ := ih false str _ ok2
            exact ⟨f1, str1, s1, e, o, same_trans _ _ _ same2 sm⟩
        · by_cases hlt : c < 0
          · simp only [hown, if_false, hlt, if_true]
            obtain ⟨f1, str1, s1, e, o, sm⟩ := ih false (w : Int) _ ok3
            exact ⟨f1, str1, s1, e, o, same_trans _ _ _ same3 sm⟩
          · simp only [hown, if_false, hlt]
            obtain ⟨f1, str1, s1, e, o, sm⟩ := ih false str _ ok2
            exact ⟨f1, str1, s1, e, o, same_trans _ _ _ same2 sm⟩

theorem pm_head (g : Game) (s : Solver) (v : Nat) (hok : s.Ok g) (hv : v < g.n_nodes) :
    rd s.pm_d (s.l * v) = rd (s.pm v).d 0 := by
  obtain ⟨hl, _, hd, _⟩ := hok
  obtain ⟨P1, P2, e, h1, h2⟩ := slice_split s.pm_d s.l g.n_nodes v hd hv
  have e2 : (s.pm v).d = (s.pm_d.drop (v * s.l)).take s.l := rfl
  rw [e2]
  cases hsl : (s.pm_d.drop (v * s.l)).take s.l with
  | nil => rw [hsl] at h2; simp at h2; omega
  | cons a rest =>
    rw [hsl] at e
    have := rd_mid P1 (rest ++ P2) a
    rw [h1, Nat.mul_comm] at this
    rw [e]
    simpa [rd] using this

theorem same_pm (s0 s : Solver) (v : Nat) (h : Solver.Same s0 s) : s.pm v = s0.pm v := by
  obtain ⟨h1, _, h3, h4⟩ := h
  simp only [Solver.pm, h1, h3, h4]

/-! ## `lift` (C9, C10) -/

/-- The behaviour of `lift` in a solver state with `l ≥ 1` and arrays of the
sizes `run` gives them: the call returns, the flag tells whether `compare`
finds the stored measure of `v` strictly greater than before, a call that
returns false leaves the pool alone, a Top vertex is left alone altogether, and
the sizes, `l` and `h` are kept. -/
theorem lift_spec (g : Game) (s : Solver) (v : Nat) (target str pl : Int)
    (hok : s.Ok g) (hv : v < g.n_nodes)
    (ht : target = -1 ∨ (0 ≤ target ∧ target < g.n_nodes)) :
    ∃ (r : Bool) (str1 : Int) (s1 : Solver) (pr : Int),
      lift g s v target str pl = some (r, str1, s1) ∧ rd g.priority v = some pr ∧
      (r = true ↔ compare s.l (pindexOf s.h pr pl) (s1.pm v) (s.pm v) = some 1) ∧
      (r = false → s1.pm_b = s.pm_b ∧ s1.pm_d = s.pm_d) ∧
      ((s.pm v).IsTop → r = false ∧ s1 = s) ∧
      s1.Ok g ∧ s1.l = s.l ∧ s1.h = s.h := by
  have hl := hok.1
  obtain ⟨pr, hpr⟩ := rd_some g.priority v (by rw [hok.2.2.2.2.2.1]; exact hv)
  obtain ⟨ow, how⟩ := rd_some g.owner v (by rw [hok.2.2.2.2.2.2.1]; exact hv)
  obtain ⟨outv, hout⟩ := rd_some g.out v (by rw [hok.2.2.2.2.2.2.2.2.1]; exact hv)
  have houtv : ∀ w ∈ outv, w < g.n_nodes := by
    apply hok.2.2.2.2.2.2.2.2.2 outv
    unfold rd at hout
    exact List.getElem?_mem hout
  have hsz := pm_sized g s v hok hv
  obtain ⟨d0, hd0⟩ := rd_some s.pm_d (s.l * v) (by
    rw [hok.2.2.1]
    exact Nat.mul_lt_mul_of_pos_left hv hl)
  have hhead := pm_head g s v hok hv
  rw [hd0] at hhead
  have hself := compare_self s.l (pindexOf s.h pr pl) (s.pm v) hl hsz
  by_cases htop : d0 = -1
  · -- already Top
    refine ⟨false, str, s, pr, ?_, hpr, ?_, fun _ => ⟨rfl, rfl⟩, fun _ => ⟨rfl, rfl⟩, hok, rfl,
      rfl⟩
    · simp [lift, hd0, htop]
    · rw [hself]; simp
  · have hnt : ¬ (s.pm v).IsTop := by
      unfold Measure.IsTop
      rw [← hhead]
      simpa using htop
    by_cases hfast : ow = pl ∧ target ≠ -1
    · -- the given target only
      have htv : 0 ≤ target ∧ target < g.n_nodes := by
        rcases ht with h | h
        · exact absurd h hfast.2
        · exact h
      have hw : target.toNat < g.n_nodes := by omega
      obtain ⟨t, hload, htz⟩ := load_op_spec g s target.toNat pr pl (pindexOf s.h pr pl) hok hw
      have ok2 := ok_set_tmp g s t hok htz
      have hbest := to_best_spec g { s with tmp := t } v ok2 hv
      have ok3 := ok_set_best g { s with tmp := t } (s.pm v) ok2 hsz
      obtain ⟨c, hc, hrange⟩ := compare_total s.l (pindexOf s.h pr pl) t (s.pm v) hl htz hsz
      have hbind : ∀ (f : Solver → Option (Bool × Int × Solver)),
          ((to_tmp s target.toNat).bind fun s1 =>
            (applyOp s1 pr pl (pindexOf s.h pr pl)).bind f) = f { s with tmp := t } := by
        intro f
        rw [← Option.bind_assoc, hload, Option.some_bind]
      have hpm : Solver.pm { s with tmp := t } v = s.pm v := rfl
      by_cases hgt : c > 0
      · obtain ⟨s4, h4, ok4, hpm4, hl4, hh4⟩ :=
          from_tmp_spec g { s with tmp := t, best := s.pm v } v ok3 hv
        refine ⟨true, str, s4, pr, ?_, hpr, ?_, fun h => absurd h (by decide),
          fun h => absurd h hnt, ok4, hl4, hh4⟩
        · simp only [lift, hd0, Option.bind_eq_bind, Option.some_bind, htop, if_false, hpr, how,
            hfast, and_self, ne_eq, not_false_eq_true, if_true, not_lt.mpr htv.1, hbind, hbest,
            hpm, hc, hgt, h4]
        · rw [hpm4]
          have : c = 1 := by omega
          rw [← this]
          exact ⟨fun _ => hc, fun _ => rfl⟩
      · refine ⟨false, str, { s with tmp := t, best := s.pm v }, pr, ?_, hpr, ?_,
          fun _ => ⟨rfl, rfl⟩, fun h => absurd h hnt, ok3, rfl, rfl⟩
        · simp only [lift, hd0, Option.bind_eq_bind, Option.some_bind, htop, if_false, hpr, how,
            hfast, and_self, ne_eq, not_false_eq_true, if_true, not_lt.mpr htv.1, hbind, hbest,
            hpm, hc, hgt]
        · have : Solver.pm { s with tmp := t, best := s.pm v } v = s.pm v := rfl
          rw [this, hself]; simp
    · -- the scan of all out-edges
      obtain ⟨f1, str1, s1, hscan, ok1, same1⟩ :=
        scanOut_spec g v pr pl (pindexOf s.h pr pl) hv outv houtv true str s hok
      have hpm1 := same_pm s s1 v same1
      have htmp := to_tmp_spec g s1 v ok1 hv
      have hsz1 : (s1.pm v).Sized s1.l := pm_sized g s1 v ok1 hv
      have ok2 := ok_set_tmp g s1 (s1.pm v) ok1 hsz1
      obtain ⟨c, hc, hrange⟩ := compare_total s1.l (pindexOf s.h pr pl) (s1.pm v) s1.best ok1.1
        hsz1 ok1.2.2.2.2.1
      by_cases hlt : c < 0
      · obtain ⟨s3, h3, ok3, hpm3, hl3, hh3⟩ :=
          from_best_spec g { s1 with tmp := s1.pm v } v ok2 hv
        refine ⟨true, str1, s3, pr, ?_, hpr, ?_, fun h => absurd h (by decide),
          fun h => absurd h hnt, ok3, hl3.trans same1.1, hh3.trans same1.2.1⟩
        · simp only [lift, hd0, Option.bind_eq_bind, Option.some_bind, htop, if_false, hpr, how,
            hfast, hout, hscan, htmp, hc, hlt, if_true, h3]
        · rw [hpm3]
          have hsw := compare_swap s1.l (pindexOf s.h pr pl) (s1.pm v) s1.best c ok1.1 hsz1
            ok1.2.2.2.2.1 hc
          have : -c = 1 := by omega
          rw [this, hpm1, same1.1] at hsw
          exact ⟨fun _ => hsw, fun _ => rfl⟩
      · refine ⟨false, str1, { s1 with tmp := s1.pm v }, pr, ?_, hpr, ?_,
          fun _ => ⟨same1.2.2.1, same1.2.2.2⟩, fun h => absurd h hnt, ok2, same1.1, same1.2.1⟩
        · simp only [lift, hd0, Option.bind_eq_bind, Option.some_bind, htop, if_false, hpr, how,
            hfast, hout, hscan, htmp, hc, hlt]
        · have : Solver.pm { s1 with tmp := s1.pm v } v = s1.pm v := rfl
          rw [this, hpm1, hself]; simp

/-- C9: `lift` reports exactly a strict increase.  In a solver state set up for
the game (bit budget `l ≥ 1`, pool of `l` slots per vertex, scratch measures of
`l` slots), for a vertex `v`, a `target` that is a vertex or `-1` and a player
`pl`, `lift` returns a flag `r`; `r` is true if and only if `compare`, at the
level index of `v`, finds the measure stored for `v` after the call strictly
greater than the one stored before; when `r` is false the pool `pm_b`/`pm_d` is
unchanged; and when the measure of `v` is Top, `r` is false and nothing at all
has changed. -/
theorem lift_strict_increase (g : Game) (s : Solver) (v : Nat) (target str pl : Int)
    (hok : s.Ok g) (hv : v < g.n_nodes)
    (ht : target = -1 ∨ (0 ≤ target ∧ target < g.n_nodes)) :
    ∃ (r : Bool) (str1 : Int) (s1 : Solver) (pr : Int),
      lift g s v target str pl = some (r, str1, s1) ∧ rd g.priority v = some pr ∧
      (r = true ↔ compare s.l (pindexOf s.h pr pl) (s1.pm v) (s.pm v) = some 1) ∧
      (r = false → s1.pm_b = s.pm_b ∧ s1.pm_d = s.pm_d) ∧
      ((s.pm v).IsTop → r = false ∧ s1 = s) := by
  obtain ⟨r, str1, s1, pr, h1, h2, h3, h4, h5, _⟩ := lift_spec g s v target str pl hok hv ht
  exact ⟨r, str1, s1, pr, h1, h2, h3, h4, h5⟩

theorem lift_strict_increase_witness :
    ∃ (r : Bool) (str1 : Int) (s1 : Solver) (pr : Int),
      lift exGame exInit 1 (-1) 0 0 = some (r, str1, s1) ∧ rd exGame.priority 1 = some pr ∧
      (r = true ↔ compare exInit.l (pindexOf exInit.h pr 0) (s1.pm 1) (exInit.pm 1) = some 1) ∧
      (r = false → s1.pm_b = exInit.pm_b ∧ s1.pm_d = exInit.pm_d) ∧
      ((exInit.pm 1).IsTop → r = false ∧ s1 = exInit) :=
  lift_strict_increase exGame exInit 1 (-1) 0 0 (by decide) (by decide) (Or.inl rfl)

/-- C10 fails on the code: in the sweep of `run(2, 1, 0)` on `exGame`, after
`lift(1, -1)` and `lift(1, 1)` have lifted vertex 1, the solver is in the state
`exDead`; there vertex 0 is not Top and its only out-edge leads to the disabled
vertex 2, yet `lift(0, -1)` returns true and replaces the measure `{ 00 }` of
vertex 0 by the measure `{ 0, 0 }` left in `best` by the earlier call. -/
theorem lift_dead_end_lifted :
    ((lift exGame exInit 1 (-1) 0 0).bind fun r1 =>
      (lift exGame r1.2.2 1 1 0 0).map fun r2 => r2.2.2) = some exDead ∧
    exDead.Ok exGame ∧ ¬ (exDead.pm 0).IsTop ∧
    (∀ es ∈ rd exGame.out 0, ∀ w ∈ es, rd exGame.disabled w = some true) ∧
    exDead.pm 0 = ⟨[false, false], [0, 0]⟩ ∧
    (lift exGame exDead 0 (-1) 0 0).map (fun r => (r.1, r.2.2.pm 0))
      = some (true, ⟨[false, false], [0, 1]⟩) := by
  decide

/-! ## The level index of `lift` (C20) -/

/-- C20: the level index `lift` computes is in range.  For `max_prio ≥ 0` and a
priority `0 ≤ pr ≤ max_prio`, with the truncating division of C: in the even
pass (`pl = 0`, `h = max_prio/2 + 1`) and in the odd pass (`pl = 1`,
`h = (max_prio+1)/2`), `-1 ≤ pindex ≤ h - 1`; and when the parity of `pr` is
`pl`, the case in which `prog_tmp` is called, `0 ≤ pindex`. -/
theorem pindex_in_range (max_prio pr : Int) (h0 : 0 ≤ pr) (h1 : pr ≤ max_prio) :
    (-1 ≤ pindexOf (max_prio.tdiv 2 + 1) pr 0 ∧
      pindexOf (max_prio.tdiv 2 + 1) pr 0 ≤ (max_prio.tdiv 2 + 1) - 1 ∧
      ((0 : Int) = pr % 2 → 0 ≤ pindexOf (max_prio.tdiv 2 + 1) pr 0)) ∧
    (-1 ≤ pindexOf ((max_prio + 1).tdiv 2) pr 1 ∧
      pindexOf ((max_prio + 1).tdiv 2) pr 1 ≤ (max_prio + 1).tdiv 2 - 1 ∧
      ((1 : Int) = pr % 2 → 0 ≤ pindexOf ((max_prio + 1).tdiv 2) pr 1)) := by
  have e1 : max_prio.tdiv 2 = max_prio / 2 := Int.tdiv_eq_ediv (by omega) (by decide)
  have e2 : (pr + 1).tdiv 2 = (pr + 1) / 2 := Int.tdiv_eq_ediv (by omega) (by decide)
  have e3 : (max_prio + 1).tdiv 2 = (max_prio + 1) / 2 := Int.tdiv_eq_ediv (by omega) (by decide)
  have e4 : pr.tdiv 2 = pr / 2 := Int.tdiv_eq_ediv (by omega) (by decide)
  unfold pindexOf
  simp only [if_true, one_ne_zero, if_false, e1, e2, e3, e4]
  refine ⟨⟨?_, ?_, ?_⟩, ?_, ?_, ?_⟩ <;> omega

theorem pindex_in_range_witness :
    (-1 ≤ pindexOf ((3 : Int).tdiv 2 + 1) 3 0 ∧
      pindexOf ((3 : Int).tdiv 2 + 1) 3 0 ≤ ((3 : Int).tdiv 2 + 1) - 1 ∧
      ((0 : Int) = 3 % 2 → 0 ≤ pindexOf ((3 : Int).tdiv 2 + 1) 3 0)) ∧
    (-1 ≤ pindexOf (((3 : Int) + 1).tdiv 2) 3 1 ∧
      pindexOf (((3 : Int) + 1).tdiv 2) 3 1 ≤ ((3 : Int) + 1).tdiv 2 - 1 ∧
      ((1 : Int) = 3 % 2 → 0 ≤ pindexOf (((3 : Int) + 1).tdiv 2) 3 1)) :=
  pindex_in_range 3 3 (by decide) (by decide)

/-! ## `ceil_log2` (C14) -/

/-- The test of one entry of the table: for `x < 2^(2j)`, no bit of `x` is set
among the bits `j .. 2j-1` exactly when `x < 2^j`. -/
theorem land_mask (j x : Nat) (hx : x < 2 ^ (2 * j)) :
    x &&& (2 ^ j * (2 ^ j - 1)) = 0 ↔ x < 2 ^ j := by
  constructor
  · intro h
    apply Nat.lt_pow_two_of_testBit
    intro i hi
    by_cases h2 : i < 2 * j
    · have hb := congrArg (fun z => Nat.testBit z i) h
      simp only [Nat.testBit_and, Nat.zero_testBit, Nat.testBit_mul_pow_two,
        Nat.testBit_two_pow_sub_one] at hb
      have e1 : decide (i ≥ j) = true := by simpa using hi
      have e2 : decide (i - j < j) = true := by
        simp only [decide_eq_true_eq]; omega
      rw [e1, e2] at hb
      simpa using hb
    · apply Nat.testBit_lt_two_pow
      exact lt_of_lt_of_le hx (Nat.pow_le_pow_right (by decide) (by omega))
  · intro h
    apply Nat.eq_of_testBit_eq
    intro i
    simp only [Nat.testBit_and, Nat.zero_testBit, Nat.testBit_mul_pow_two,
      Nat.testBit_two_pow_sub_one]
    by_cases hi : i ≥ j
    · have : x.testBit i = false := by
        apply Nat.testBit_lt_two_pow
        exact lt_of_lt_of_le h (Nat.pow_le_pow_right (by decide) hi)
      simp [this]
    · simp [hi]

/-- The entries of the table for the steps `j = 2^(m-1), ..., 2, 1`. -/
theorem ceilLoop_floor : ∀ (m : Nat) (ts : List Nat) (y x j : Nat),
    ts = (List.range m).reverse.map (fun i => 2 ^ (2 ^ i) * (2 ^ (2 ^ i) - 1)) →
    (m = 0 ∨ j = 2 ^ (m - 1)) → 1 ≤ x → x < 2 ^ (2 ^ m) →
    ∃ k : Nat, ceilLoop ts y x j = y + k ∧ 2 ^ k ≤ x ∧ x < 2 ^ (k + 1)
  | 0, ts, y, x, j, hts, _, h1, h2 => by
    simp only [List.range_zero, List.reverse_nil, List.map_nil] at hts
    subst hts
    refine ⟨0, rfl, by simpa using h1, by simpa using h2⟩
  | m + 1, ts, y, x, j, hts, hj, h1, h2 => by
    have hj' : j = 2 ^ m := by
      rcases hj with h | h
      · omega
      · simpa using h
    subst hj'
    rw [List.range_succ, List.reverse_append, List.reverse_singleton, List.singleton_append,
      List.map_cons] at hts
    subst hts
    have hx2 : x < 2 ^ (2 * 2 ^ m) := by
      have : 2 ^ (m + 1) = 2 * 2 ^ m := by ring
      rwa [this] at h2
    have hmask := land_mask (2 ^ m) x hx2
    have hnext : m = 0 ∨ 2 ^ m >>> 1 = 2 ^ (m - 1) := by
      rcases Nat.eq_zero_or_pos m with h | h
      · exact Or.inl h
      · right
        rw [Nat.shiftRight_eq_div_pow]
        obtain ⟨n, rfl⟩ : ∃ n, m = n + 1 := ⟨m - 1, by omega⟩
        simp [Nat.pow_succ]
    unfold ceilLoop
    by_cases hlt : x < 2 ^ (2 ^ m)
    · have hz : x &&& (2 ^ (2 ^ m) * (2 ^ (2 ^ m) - 1)) = 0 := hmask.mpr hlt
      simp only [hz, if_true, Nat.add_zero, Nat.shiftRight_zero]
      exact ceilLoop_floor m _ y x _ rfl hnext h1 hlt
    · have hz : ¬ (x &&& (2 ^ (2 ^ m) * (2 ^ (2 ^ m) - 1)) = 0) := fun h => hlt (hmask.mp h)
      simp only [hz, if_false]
      have hpos : 0 < 2 ^ (2 ^ m) := Nat.two_pow_pos _
      have hge : 2 ^ (2 ^ m) ≤ x := Nat.le_of_not_lt hlt
      have hx1 : 1 ≤ x >>> (2 ^ m) := by
        rw [Nat.shiftRight_eq_div_pow, Nat.le_div_iff_mul_le hpos]
        simpa using hge
      have hx3 : x >>> (2 ^ m) < 2 ^ (2 ^ m) := by
        rw [Nat.shiftRight_eq_div_pow, Nat.div_lt_iff_lt_mul hpos, ← Nat.pow_add]
        have : 2 ^ m + 2 ^ m = 2 * 2 ^ m := by ring
        rwa [this]
      obtain ⟨k, hk, hk1, hk2⟩ := ceilLoop_floor m _ (y + 2 ^ m) (x >>> (2 ^ m)) _ rfl hnext hx1 hx3
      refine ⟨2 ^ m + k, by rw [hk]; ring, ?_, ?_⟩
      · rw [Nat.shiftRight_eq_div_pow, Nat.le_div_iff_mul_le hpos, ← Nat.pow_add] at hk1
        rwa [Nat.add_comm]
      · rw [Nat.shiftRight_eq_div_pow, Nat.div_lt_iff_lt_mul hpos, ← Nat.pow_add] at hk2
        have : 2 ^ m + k + 1 = k + 1 + 2 ^ m := by ring
        rwa [this]

/-- For `2^k ≤ x < 2^(k+1)`, `x & (x-1)` is zero exactly when `x = 2^k`. -/
theorem land_pred (x k : Nat) (h1 : 2 ^ k ≤ x) (h2 : x < 2 ^ (k + 1)) :
    x &&& (x - 1) = 0 ↔ x = 2 ^ k := by
  constructor
  · intro h
    by_contra hne
    have hb := congrArg (fun z => Nat.testBit z k) h
    simp only [Nat.testBit_and, Nat.zero_testBit] at hb
    rw [Nat.testBit_to_div_mod, Nat.testBit_to_div_mod] at hb
    have hpos : 0 < 2 ^ k := Nat.two_pow_pos _
    have hp : 2 ^ (k + 1) = 2 * 2 ^ k := by ring
    have d1 : x / 2 ^ k = 1 := by
      apply le_antisymm
      · have : x / 2 ^ k < 2 := by
          rw [Nat.div_lt_iff_lt_mul hpos]; omega
        omega
      · rw [Nat.le_div_iff_mul_le hpos]; omega
    have d2 : (x - 1) / 2 ^ k = 1 := by
      apply le_antisymm
      · have : (x - 1) / 2 ^ k < 2 := by
          rw [Nat.div_lt_iff_lt_mul hpos]; omega
        omega
      · rw [Nat.le_div_iff_mul_le hpos]; omega
    rw [d1, d2] at hb
    simp at hb
  · intro h
    subst h
    rw [Nat.and_pow_two_sub_one_eq_mod]
    exact Nat.mod_self _

theorem ceil_log2_t_eq :
    ceil_log2_t = (List.range 6).reverse.map (fun i => 2 ^ (2 ^ i) * (2 ^ (2 ^ i) - 1)) := by
  decide

/-- The value of `ceil_log2` in terms of the position `k` of the highest set bit. -/
theorem ceil_log2_floor (x : Nat) (h1 : 1 ≤ x) (h2 : x < 2 ^ 64) :
    ∃ k : Nat, 2 ^ k ≤ x ∧ x < 2 ^ (k + 1) ∧
      ceil_log2 x = (if x = 2 ^ k then 0 else 1) + k := by
  obtain ⟨k, hk, hk1, hk2⟩ := ceilLoop_floor 6 ceil_log2_t
    (if x &&& ((x + 2 ^ 64 - 1) % 2 ^ 64) = 0 then 0 else 1) x 32 ceil_log2_t_eq
    (Or.inr (by decide)) h1 (by simpa using h2)
  refine ⟨k, hk1, hk2, ?_⟩
  have e : (x + 2 ^ 64 - 1) % 2 ^ 64 = x - 1 := by omega
  have hp := land_pred x k hk1 hk2
  unfold ceil_log2
  simp only []
  rw [hk, e]
  by_cases hx : x = 2 ^ k
  · rw [if_pos (hp.mpr hx), if_pos hx]
  · rw [if_neg (fun h => hx (hp.mp h)), if_neg hx]

/-- C14: the bit budget is the ceiling of the binary logarithm.  For every
64-bit unsigned `x ≥ 1`, `ceil_log2(x)` is the least `y` with `2^y ≥ x`; it is
`64` for `x > 2^63`; and `ceil_log2(1) = 0`, `ceil_log2(2) = 1`,
`ceil_log2(3) = 2`. -/
theorem ceil_log2_least (x : Nat) (h1 : 1 ≤ x) (h2 : x < 2 ^ 64) :
    x ≤ 2 ^ ceil_log2 x ∧ (∀ y : Nat, x ≤ 2 ^ y → ceil_log2 x ≤ y) ∧
    (2 ^ 63 < x → ceil_log2 x = 64) ∧
    ceil_log2 1 = 0 ∧ ceil_log2 2 = 1 ∧ ceil_log2 3 = 2 := by
  obtain ⟨k, hk1, hk2, hk⟩ := ceil_log2_floor x h1 h2
  have least : x ≤ 2 ^ ceil_log2 x ∧ (∀ y : Nat, x ≤ 2 ^ y → ceil_log2 x ≤ y) := by
    by_cases hx : x = 2 ^ k
    · rw [if_pos hx] at hk
      have hk' : ceil_log2 x = k := by omega
      rw [hk']
      refine ⟨le_of_eq hx, fun y hy => ?_⟩
      rw [hx] at hy
      exact (Nat.pow_le_pow_iff_right (by decide)).mp hy
    · rw [if_neg hx] at hk
      have hk' : ceil_log2 x = k + 1 := by omega
      rw [hk']
      refine ⟨le_of_lt hk2, fun y hy => ?_⟩
      have hlt : 2 ^ k < 2 ^ y := lt_of_lt_of_le (lt_of_le_of_ne hk1 (Ne.symm hx)) hy
      exact (Nat.pow_lt_pow_iff_right (by decide)).mp hlt
  refine ⟨least.1, least.2, ?_, by decide, by decide, by decide⟩
  intro h63
  apply le_antisymm
  · exact least.2 64 (le_of_lt h2)
  · by_contra hc
    have hle : ceil_log2 x ≤ 63 := by omega
    have := least.1
    have h3 : 2 ^ ceil_log2 x ≤ 2 ^ 63 := Nat.pow_le_pow_right (by decide) hle
    omega

theorem ceil_log2_least_witness :
    5 ≤ 2 ^ ceil_log2 5 ∧ (∀ y : Nat, 5 ≤ 2 ^ y → ceil_log2 5 ≤ y) ∧
    (2 ^ 63 < 5 → ceil_log2 5 = 64) ∧
    ceil_log2 1 = 0 ∧ ceil_log2 2 = 1 ∧ ceil_log2 3 = 2 :=
  ceil_log2_least 5 (by decide) (by decide)

/-! ## Arguments of `prog_tmp` that are equal up to `pindex` (C19) -/

/-- A measure with non-decreasing tags that `compare` finds equal to `lo ++ hi`
at `p` is `lo` followed by slots tagged above `p`. -/
theorem equal_split (p : Int) (lo hi : List Slot)
    (hlo : ∀ s ∈ lo, s.2 ≤ p) (hhi : ∀ s ∈ hi, p < s.2) :
    ∀ ns : List Slot, ns.length = (lo ++ hi).length → ns.Pairwise (fun a b => a.2 ≤ b.2) →
      cmpS p ns (lo ++ hi) = 0 →
      ∃ nt, ns = lo ++ nt ∧ nt.length = hi.length ∧ ∀ s ∈ nt, p < s.2 := by
  intro ns hlen hsort hcmp
  have hns : ns = ns.take lo.length ++ ns.drop lo.length := (List.take_append_drop _ _).symm
  have hlt : (ns.take lo.length).length = lo.length := by
    rw [List.length_take]; simp at hlen; omega
  have hdl : (ns.drop lo.length).length = hi.length := by
    rw [List.length_drop]; simp at hlen; omega
  rcases cmpS_split p lo (ns.take lo.length) hlt hlo with e | ⟨h1, h2⟩
  · refine ⟨ns.drop lo.length, hns.trans (by rw [e]), hdl, ?_⟩
    rw [hns, e, cmpS_append_left p _ _ lo hlo] at hcmp
    rw [hns, List.pairwise_append] at hsort
    cases hnt : ns.drop lo.length with
    | nil => simp
    | cons n0 nt =>
      rw [hnt] at hcmp hdl hsort
      cases hi with
      | nil => simp at hdl
      | cons h0 hi =>
        have hh0 := hhi h0 (by simp)
        rw [cmpS_cons_key] at hcmp
        have hk : key p n0 = 0 := by
          have : key p h0 = 0 := by simp [key, hh0]
          rw [this] at hcmp
          split_ifs at hcmp <;> omega
        have hn0 : p < n0.2 := by
          by_contra hc
          exact key_ne_zero p n0 (by omega) hk
        intro s hs
        rcases List.mem_cons.mp hs with e' | e'
        · rw [e']; exact hn0
        · have := (List.pairwise_cons.mp hsort.2.1).1 s e'
          omega
  · exfalso
    rw [hns, h2] at hcmp
    exact h1 hcmp

/-- C19: the successor ignores everything below `pindex`.  For `l ≥ 1`, any
`p` and `h` (in particular `0 ≤ p < h`) and finite measures `A`, `B` of length `l` (non-negative,
non-decreasing tags) with `compare(A, B, p) = 0`, `prog_tmp(p, h)` returns the
same measure on both: the results agree bit for bit and tag for tag in every
slot (in particular in those tagged `≤ p`), and `compare` finds them equal. -/
theorem prog_tmp_equal_inputs (l : Nat) (p h : Int) (A B : Measure) (hl : 1 ≤ l)
    (hA : A.Finite l) (hB : B.Finite l)
    (hcmp : compare l p A B = some 0) :
    ∃ SA SB : Measure, prog_tmp l p h A = some SA ∧ prog_tmp l p h B = some SB ∧
      (∀ (i : Nat) (t : Int), rd SA.d i = some t → t ≤ p →
        rd SB.d i = some t ∧ rd SB.b i = rd SA.b i) ∧
      SA = SB ∧ compare l p SA SB = some 0 := by
  obtain ⟨S, hS, hSz⟩ := prog_tmp_total l p h B hl hB.1
  have key : prog_tmp l p h A = some S := by
    obtain ⟨ns, hns, rfl⟩ := exists_slots A l hA.1
    obtain ⟨xs, hx, rfl⟩ := exists_slots B l hB.1
    obtain ⟨-, hnnA, hsortA⟩ := (finite_ofSlots l ns).mp hA
    obtain ⟨-, hnnB, hsortB⟩ := (finite_ofSlots l xs).mp hB
    have htopA := head_ne_top ns hnnA
    have htopB := head_ne_top xs hnnB
    rw [compare_sized l p _ _ hl hA.1 hB.1, slots_ofSlots, slots_ofSlots,
      cmpM_finite p _ _ htopA htopB] at hcmp
    simp only [Option.some.injEq] at hcmp
    obtain ⟨lo, hi, rfl, hlo, hhi⟩ := sorted_split p xs hsortB
    obtain ⟨nt, rfl, hntl, hnt⟩ := equal_split p lo hi hlo hhi ns (by omega) hsortA hcmp
    cases hi with
    | nil =>
      have : nt = [] := List.length_eq_zero.mp (by simpa using hntl)
      rw [this]; exact hS
    | cons h0 hi =>
      cases nt with
      | nil => simp at hntl
      | cons n0 nt =>
        have e1 := prog_tmp_case2 l p h lo hi h0 hx.symm htopB hhi (getLast?_le_of_forall p lo hlo)
        have e2 := prog_tmp_case2 l p h lo nt n0 hns.symm htopA hnt
          (getLast?_le_of_forall p lo hlo)
        have hl2 : nt.length = hi.length := by simpa using hntl
        rw [e1] at hS
        rw [e2, hl2]
        exact hS
  refine ⟨S, S, key, hS, fun i t ht _ => ⟨ht, rfl⟩, rfl, compare_self l p S hl hSz⟩

theorem prog_tmp_equal_inputs_witness :
    ∃ SA SB : Measure, prog_tmp 2 0 1 exA = some SA ∧ prog_tmp 2 0 1 exB = some SB ∧
      (∀ (i : Nat) (t : Int), rd SA.d i = some t → t ≤ 0 →
        rd SB.d i = some t ∧ rd SB.b i = rd SA.b i) ∧
      SA = SB ∧ compare 2 0 SA SB = some 0 :=
  prog_tmp_equal_inputs 2 0 1 exA exB (by decide) (by decide) (by decide) (by decide)

/-! ## The deepest level (C17, C18) -/

/-- C17 fails on the code: level tags do not stay inside `[0, h)`.  With one
slot, `h = 1` and `pindex = 0 = h - 1`, the successor of the minimum measure (bit
0 at level 0, the only level of `[0, h)`) is finite and its slot carries the
level tag `1 = h`: the 0 found at level `h - 1` is handled by case 3b, which
raises the tag by one. -/
theorem op_tags_in_range_counterexample :
    prog_tmp 1 0 1 exMin1 = some ⟨[false], [1]⟩ ∧
      exMin1.Finite 1 ∧ (∀ t ∈ exMin1.d, 0 ≤ t ∧ t < 1) ∧
      ¬ (∀ t ∈ (⟨[false], [1]⟩ : Measure).d, 0 ≤ t ∧ t < 1) := by
  decide

/-- C18 fails on the code: a 0 found at the deepest level is not flipped to 1.
With two slots, `h = 1` and `pindex = 0`, the measure with bits `0 1`, both at
level `0 = h - 1`, has its lowest-order 0 bit at slot 0 of the deepest level;
`prog_tmp` leaves the bit of slot 0 at 0 and moves both slots to level `1 = h`
(case 3b), where the ordinary binary increment would give bits `1 0` at level
0. -/
theorem prog_tmp_zero_bit_counterexample :
    prog_tmp 2 0 1 (ofSlots [(false, 0), (true, 0)]) = some ⟨[false, false], [1, 1]⟩ ∧
      (ofSlots [(false, 0), (true, 0)]).Finite 2 ∧
      prog_tmp 2 0 1 (ofSlots [(false, 0), (true, 0)]) ≠ some ⟨[true, false], [0, 0]⟩ := by
  decide

/-! ## The driver on sample games (C11, C13) -/

/-- C13: the one-vertex game has no defined run.  For the game of a single
vertex 0 of priority 0 owned by player 0 with the self-loop `0 → 0`, `run()`
computes the bit budget `ceil_log2(1) = 0` and `h0 = 1`; whatever the scratch
arrays, the strategy array and the sink hold, the pool of the even pass has no
entry, the first statement of `lift(0, -1)` in the sweep reads `pm_d[0]` outside
the pool, so the sweep, `run(0, 1, 0)` and `run()` have no result for any number
of drain iterations: vertex 0 is never reported. -/
theorem run_one_vertex_undefined (pre : Solver) (junk : List Int × List Int)
    (strat : List Int) (unsolved : List (Nat × Int × Int) → Nat) (fuel : Nat) :
    ceil_log2 oneGame.n_nodes = 0 ∧
      (initRun oneGame 0 1 pre).pm_d = [] ∧
      lift oneGame (initRun oneGame 0 1 pre) 0 (-1) 0 0 = none ∧
      sweep oneGame 0 oneGame.n_nodes (initRun oneGame 0 1 pre, []) = none ∧
      run oneGame 0 1 0 pre strat fuel = none ∧
      runAll oneGame pre junk strat unsolved fuel = none := by
  have h0 : ceil_log2 oneGame.n_nodes = 0 := by decide
  have h1 : (initRun oneGame 0 1 pre).pm_d = [] := by simp [initRun]
  have h2 : lift oneGame (initRun oneGame 0 1 pre) 0 (-1) 0 0 = none := by
    simp [lift, initRun, rd]
  have h3 : sweep oneGame 0 oneGame.n_nodes (initRun oneGame 0 1 pre, []) = none := by
    show sweep oneGame 0 (0 + 1) (initRun oneGame 0 1 pre, []) = none
    have hd : rd oneGame.disabled 0 = some false := by decide
    unfold sweep
    simp only [hd, h2, Option.bind_eq_bind, Option.some_bind, Option.none_bind,
      Bool.false_eq_true, if_false]
  have h4 : run oneGame 0 1 0 pre strat fuel = none := by
    simp [run, runFix, h3]
  refine ⟨h0, h1, h2, h3, h4, ?_⟩
  have hp : rd oneGame.priority (oneGame.n_nodes - 1) = some 0 := by decide
  have hn : oneGame.n_nodes ≠ 0 := by decide
  unfold runAll
  rw [if_neg hn]
  simp only [hp, h0, Option.bind_eq_bind, Option.some_bind]
  have e : (0 : Int).tdiv 2 + 1 = 1 := by decide
  rw [e, h4]
  rfl

set_option maxRecDepth 100000 in
/-- C11: the driver does not always stop at a fixpoint.  On `exGame1` (three
vertices of priority 0, vertex 0 owned by player 1 with its only edge leading to
the disabled vertex 2), `run()` passes `l = ceil_log2(3) = 2` and `h0 = 1`; the
sweep and the drain loop of `run(2, 1, 0)` finish with an empty queue in the
state `exFix`; there the enabled vertex 0 is not Top, yet a further
`lift(0, -1)` returns true and replaces its measure by the one left in `best`,
and the strategy-extraction loop of `run` makes this very call and logs vertex 0
as not progressive. -/
theorem run_fixpoint_missed :
    ceil_log2 exGame1.n_nodes = 2 ∧ rd exGame1.priority 2 = some 0 ∧
      runFix exGame1 2 1 0 exPre 6 = some (exFix, []) ∧
      rd exGame1.disabled 0 = some false ∧ ¬ (exFix.pm 0).IsTop ∧
      exFix.pm 0 = ⟨[false, false], [0, 1]⟩ ∧
      (lift exGame1 exFix 0 (-1) 0 0).map (fun r => (r.1, r.2.2.pm 0))
        = some (true, ⟨[true, true], [0, 0]⟩) ∧
      (run exGame1 2 1 0 exPre [0, 0, 0] 6).map (fun r => r.errors) = some [0] := by
  decide

/-! ## Level tags of the results of `trunc_tmp` and `prog_tmp` -/

theorem mem_d_ofSlots (xs : List Slot) (t : Int) (ht : t ∈ (ofSlots xs).d) :
    ∃ s ∈ xs, s.2 = t := by
  rw [ofSlots_d] at ht
  obtain ⟨s, hs, e⟩ := List.mem_map.mp ht
  exact ⟨s, hs, e⟩

/-- The result of `trunc_tmp` on a finite measure, for `-1 ≤ p`: it is finite,
every bound on the tags that is at least `p + 1` is kept, and so is every strict
bound. -/
theorem trunc_finite (l : Nat) (p : Int) (M : Measure) (hl : 0 < l) (hp : -1 ≤ p)
    (hM : M.Finite l) :
    ∃ T : Measure, trunc_tmp l p M = some T ∧ T.Finite l ∧
      (∀ H : Int, (∀ t ∈ M.d, t ≤ H) → p + 1 ≤ H → ∀ t ∈ T.d, t ≤ H) ∧
      (∀ H : Int, (∀ t ∈ M.d, t < H) → ∀ t ∈ T.d, t < H) := by
  obtain ⟨xs, hx, rfl⟩ := exists_slots M l hM.1
  obtain ⟨-, hnn, hsort⟩ := (finite_ofSlots l xs).mp hM
  have htop := head_ne_top xs hnn
  obtain ⟨lo, hi, rfl, hlo, hhi⟩ := sorted_split p xs hsort
  have hne : lo ++ hi ≠ [] := by
    intro h; rw [h] at hx; simp at hx; omega
  have hsh := trunc_tmp_shape p lo hi hne htop hhi (getLast?_le_of_forall p lo hlo)
  rw [hx] at hsh
  refine ⟨_, hsh, ?_, ?_, ?_⟩
  · rw [finite_ofSlots]
    refine ⟨by simpa using hx, ?_, ?_⟩
    · intro s hs
      rcases List.mem_append.mp hs with e | e
      · exact hnn s (List.mem_append_left _ e)
      · rw [(List.mem_replicate.mp e).2]
        show 0 ≤ p + 1
        omega
    · apply sorted_tail_const lo _ (p + 1) (List.pairwise_append.mp hsort).1
      · intro s hs
        have := hlo s hs
        omega
      · intro s hs
        rw [(List.mem_replicate.mp hs).2]
  · intro H hH hpH t ht
    obtain ⟨s, hs, rfl⟩ := mem_d_ofSlots _ t ht
    rcases List.mem_append.mp hs with e | e
    · have := hlo s e
      omega
    · rw [(List.mem_replicate.mp e).2]
      exact hpH
  · intro H hH t ht
    obtain ⟨s, hs, rfl⟩ := mem_d_ofSlots _ t ht
    rcases List.mem_append.mp hs with e | e
    · apply hH
      rw [ofSlots_d]
      exact List.mem_map.mpr ⟨s, List.mem_append_left _ e, rfl⟩
    · obtain ⟨hn, e1⟩ := List.mem_replicate.mp e
      rw [e1]
      cases hi with
      | nil => simp at hn
      | cons h0 hi =>
        have h1 := hhi h0 (by simp)
        have h2 : h0.2 < H := by
          apply hH
          rw [ofSlots_d]
          exact List.mem_map.mpr ⟨h0, by simp, rfl⟩
        show p + 1 < H
        omega

/-- The result of `prog_tmp` on a finite measure, for `-1 ≤ p < h`: it is Top,
or finite with every tag at most `p + 1`. -/
theorem prog_finite_le (l : Nat) (p h : Int) (M : Measure) (hl : 0 < l) (hp : -1 ≤ p)
    (hph : p < h) (hM : M.Finite l) :
    ∃ S : Measure, prog_tmp l p h M = some S ∧ S.Sized l ∧
      (S.IsTop ∨ (S.Finite l ∧ ∀ t ∈ S.d, t ≤ p + 1)) := by
  obtain ⟨xs, hx, rfl⟩ := exists_slots M l hM.1
  obtain ⟨-, hnn, hsort⟩ := (finite_ofSlots l xs).mp hM
  have htop := head_ne_top xs hnn
  have hne : xs ≠ [] := by
    intro h; rw [h] at hx; simp at hx; omega
  have sized : ∀ ys : List Slot, ys.length = l → (ofSlots ys).Sized l := by
    intro ys hy
    have := ofSlots_sized ys
    rwa [hy] at this
  have fin : ∀ ys : List Slot, ys.length = l → (∀ s ∈ ys, 0 ≤ s.2 ∧ s.2 ≤ p + 1) →
      ys.Pairwise (fun a b => a.2 ≤ b.2) →
      (ofSlots ys).Finite l ∧ ∀ t ∈ (ofSlots ys).d, t ≤ p + 1 := by
    intro ys hy hb hs
    refine ⟨(finite_ofSlots l ys).mpr ⟨hy, fun s h1 => (hb s h1).1, hs⟩, ?_⟩
    intro t ht
    obtain ⟨s, h1, rfl⟩ := mem_d_ofSlots _ t ht
    exact (hb s h1).2
  obtain ⟨lo, hi, rfl, hlo, hhi⟩ := sorted_split p xs hsort
  cases hi with
  | cons h0 hi =>
    -- case 2
    have h2 := prog_tmp_case2 l p h lo hi h0 hx.symm htop hhi (getLast?_le_of_forall p lo hlo)
    have hlen : (lo ++ (true, p) :: List.replicate hi.length ((false, p) : Slot)).length = l := by
      rw [← hx]; simp
    refine ⟨_, h2, sized _ hlen, ?_⟩
    by_cases hp0 : 0 ≤ p
    · right
      apply fin _ hlen
      · intro s hs
        rcases List.mem_append.mp hs with e | e
        · have := hlo s e
          have := hnn s (List.mem_append_left _ e)
          omega
        · rw [tags_cons_replicate true false p _ s e]; omega
      · exact sorted_tail_const lo _ p (List.pairwise_append.mp hsort).1 hlo
          (tags_cons_replicate true false p _)
    · left
      have hp1 : p = -1 := by omega
      have hlo0 : lo = [] := by
        cases lo with
        | nil => rfl
        | cons a lo =>
          have := hlo a (by simp)
          have := hnn a (by simp)
          omega
      rw [isTop_ofSlots, hlo0, hp1]
      rfl
  | nil =>
    -- case 3
    rw [List.append_nil] at hx hne hnn hsort htop ⊢
    obtain ⟨pre, b0, d, n, rfl, hc⟩ := carry_split lo hne
    have hd : d ≤ p := hlo (b0, d) (by simp)
    have hd0 : 0 ≤ d := hnn (b0, d) (by simp)
    have hpd : ∀ s ∈ pre, s.2 ≤ d := fun s hs =>
      (List.pairwise_append.mp hsort).2.2 s hs (b0, d) (by simp)
    have hpsort := (List.pairwise_append.mp hsort).1
    have hpnn : ∀ s ∈ pre, 0 ≤ s.2 := fun s hs => hnn s (List.mem_append_left _ hs)
    have hlen : l = pre.length + 1 + (List.replicate n ((false, d) : Slot)).length := by
      rw [← hx]; simp; omega
    have h3 := prog_tmp_case3 l p h pre b0 d n hx.symm htop hd
    have hl1 : pre.length + 1 + n = l := by rw [hlen]; simp
    cases b0 with
    | false =>
      -- 3b
      have hb := progCarry_3b l h d pre (List.replicate n (false, d)) hlen (by omega)
      rw [List.map_replicate] at hb
      have hlen2 : (pre ++ (false, d + 1) :: List.replicate n ((false, d + 1) : Slot)).length
          = l := by simp; omega
      refine ⟨_, h3.trans hb, sized _ hlen2, Or.inr (fin _ hlen2 ?_ ?_)⟩
      · intro s hs
        rcases List.mem_append.mp hs with e | e
        · have := hpd s e
          have := hpnn s e
          omega
        · rw [tags_cons_replicate false false (d + 1) _ s e]; omega
      · exact sorted_tail_const pre _ (d + 1) hpsort (fun s hs => by have := hpd s hs; omega)
          (tags_cons_replicate false false (d + 1) _)
    | true =>
      rcases hc with hc | hc | ⟨pre1, y, hc, hy⟩
      · exact absurd hc (by decide)
      · subst hc
        by_cases hz : d = 0
        · -- 3c
          subst hz
          have hb := progCarry_3c l h (List.replicate n (false, 0))
          refine ⟨_, h3.trans hb, sized _ (by simp at hl1 ⊢; omega), Or.inl ?_⟩
          rw [isTop_ofSlots]
          rfl
        · -- 3d
          have hb := progCarry_3d l h d (List.replicate n (false, d)) (by simpa using hlen) hz
          rw [List.map_replicate] at hb
          have hlen2 : ((true, d - 1) :: List.replicate n ((false, d - 1) : Slot)).length
              = l := by simp at hl1 ⊢; omega
          refine ⟨_, h3.trans hb, sized _ hlen2, Or.inr (fin _ hlen2 ?_ ?_)⟩
          · intro s hs
            rw [tags_cons_replicate true false (d - 1) _ s hs]; omega
          · exact sorted_tail_const [] _ (d - 1) List.Pairwise.nil (by simp)
              (tags_cons_replicate true false (d - 1) _)
      · -- 3e
        subst hc
        have hb := progCarry_3e l h d pre1 (List.replicate n (false, d)) y hlen hy
        rw [List.map_replicate] at hb
        have hyd : y.2 ≤ d - 1 := by
          have := hpd y (by simp)
          omega
        have hpd1 : ∀ s ∈ pre1 ++ [y], s.2 ≤ d - 1 := by
          intro s hs
          rcases List.mem_append.mp hs with e | e
          · have := (List.pairwise_append.mp hpsort).2.2 s e y (by simp)
            omega
          · simp at e; rw [e]; exact hyd
        have hlen2 : (pre1 ++ [y] ++ (true, d - 1) :: List.replicate n ((false, d - 1) : Slot)).length
            = l := by
          simp only [List.length_append, List.length_cons, List.length_replicate] at hl1 ⊢
          omega
        refine ⟨_, h3.trans hb, sized _ hlen2, Or.inr (fin _ hlen2 ?_ ?_)⟩
        · intro s hs
          rcases List.mem_append.mp hs with e | e
          · have := hpd1 s e
            have := hpnn s e
            omega
          · rw [tags_cons_replicate true false (d - 1) _ s e]
            have := hpnn y (by simp)
            omega
        · exact sorted_tail_const (pre1 ++ [y]) _ (d - 1) hpsort hpd1
            (tags_cons_replicate true false (d - 1) _)

/-- C17, amended: level tags stay inside `[0, h]`.  For `l ≥ 1`, a finite measure
`M` (non-negative, non-decreasing tags) with every tag at most `h` and a level
index `-1 ≤ p ≤ h - 1`: `trunc_tmp(M, p)` returns a measure with every tag in
`[0, h]`, and with every tag below `h` when every tag of `M` is below `h`; and
for `0 ≤ p`, `prog_tmp(M, p, h)` returns a measure that is Top or has every tag
in `[0, h]`. -/
theorem op_tags_in_range (l : Nat) (p h : Int) (M : Measure) (hl : 1 ≤ l)
    (hM : M.Finite l) (hb : ∀ t ∈ M.d, t ≤ h) (hp : -1 ≤ p) (hph : p ≤ h - 1) :
    (∃ T : Measure, trunc_tmp l p M = some T ∧ (∀ t ∈ T.d, 0 ≤ t ∧ t ≤ h) ∧
        ((∀ t ∈ M.d, t < h) → ∀ t ∈ T.d, t < h)) ∧
    (0 ≤ p → ∃ S : Measure, prog_tmp l p h M = some S ∧
        (S.IsTop ∨ ∀ t ∈ S.d, 0 ≤ t ∧ t ≤ h)) := by
  constructor
  · obtain ⟨T, h1, h2, h3, h4⟩ := trunc_finite l p M hl hp hM
    exact ⟨T, h1, fun t ht => ⟨h2.2.1 t ht, h3 h hb (by omega) t ht⟩, h4 h⟩
  · intro _
    obtain ⟨S, h1, _, h3⟩ := prog_finite_le l p h M hl hp (by omega) hM
    refine ⟨S, h1, ?_⟩
    rcases h3 with h3 | ⟨h3, h4⟩
    · exact Or.inl h3
    · right
      intro t ht
      have := h4 t ht
      exact ⟨h3.2.1 t ht, by omega⟩

theorem op_tags_in_range_witness :
    (∃ T : Measure, trunc_tmp 2 0 exA = some T ∧ (∀ t ∈ T.d, 0 ≤ t ∧ t ≤ 1) ∧
        ((∀ t ∈ exA.d, t < 1) → ∀ t ∈ T.d, t < 1)) ∧
    ((0 : Int) ≤ 0 → ∃ S : Measure, prog_tmp 2 0 1 exA = some S ∧
        (S.IsTop ∨ ∀ t ∈ S.d, 0 ≤ t ∧ t ≤ 1)) :=
  op_tags_in_range 2 0 1 exA (by decide) (by decide) (by decide) (by decide) (by decide)

/-- C18, amended: a 0 bit found at a level `d ≤ pindex < h`, the deepest level
`h - 1` included, is handled by case 3b.  For a finite measure whose slots are
`pre`, then a slot `i` with bit 0 at level `d`, then `n` slots with bit 1 at
level `d` (so no slot is tagged above `pindex` and the scan from the highest
slot downward finds its first 0 at slot `i`), `prog_tmp` leaves `pre` unchanged,
leaves the bit of slot `i` at 0, clears the bits after it and moves the slots
`i .. l-1` to level `d + 1`, which is `h` when `d = h - 1`. -/
theorem prog_tmp_zero_bit (l : Nat) (p h d : Int) (pre : List Slot) (n : Nat)
    (hM : (ofSlots (pre ++ (false, d) :: List.replicate n (true, d))).Finite l)
    (hd : d ≤ p) (hph : p < h) :
    prog_tmp l p h (ofSlots (pre ++ (false, d) :: List.replicate n (true, d)))
      = some (ofSlots (pre ++ List.replicate (n + 1) (false, d + 1))) := by
  obtain ⟨hx, hnn, -⟩ := (finite_ofSlots l _).mp hM
  have htop := head_ne_top _ hnn
  have h3 := prog_tmp_case3 l p h pre false d n hx.symm htop hd
  have hlen : l = pre.length + 1 + (List.replicate n ((false, d) : Slot)).length := by
    rw [← hx]; simp; omega
  have hb := progCarry_3b l h d pre (List.replicate n (false, d)) hlen (by omega)
  rw [List.map_replicate] at hb
  rw [h3, hb, List.replicate_succ]

theorem prog_tmp_zero_bit_witness :
    prog_tmp 2 0 1 (ofSlots ([] ++ (false, 0) :: List.replicate 1 (true, 0)))
      = some (ofSlots ([] ++ List.replicate (1 + 1) (false, 0 + 1))) :=
  prog_tmp_zero_bit 2 0 1 0 [] 1 (by decide) (by decide) (by decide)

/-! ## The scan of `lift`, in full -/

theorem opM_total (l : Nat) (h pr pl p : Int) (M : Measure) (hl : 0 < l) (hM : M.Sized l) :
    ∃ T : Measure, opM l h pr pl p M = some T ∧ T.Sized l := by
  unfold opM
  split_ifs
  · exact prog_tmp_total l p h M hl hM
  · exact trunc_tmp_total l p M hl hM

/-- The first two statements of the body of the scan, with the value of the
operation named. -/
theorem load_op_eq (g : Game) (s : Solver) (w : Nat) (pr pl p : Int) (hok : s.Ok g)
    (hw : w < g.n_nodes) :
    ∃ t : Measure, opM s.l s.h pr pl p (s.pm w) = some t ∧ t.Sized s.l ∧
      (to_tmp s w).bind (fun s1 => applyOp s1 pr pl p) = some { s with tmp := t } := by
  obtain ⟨t, h1, h2⟩ := opM_total s.l s.h pr pl p (s.pm w) hok.1 (pm_sized g s w hok hw)
  refine ⟨t, h1, h2, ?_⟩
  rw [to_tmp_spec g s w hok hw, Option.some_bind]
  unfold applyOp
  unfold opM at h1
  by_cases hpar : pl = pr % 2
  · rw [if_pos hpar] at h1
    simp [hpar, h1]
  · rw [if_neg hpar] at h1
    simp [hpar, h1]

theorem worse_of_noBetter (ow pl p : Int) (l : Nat) (U B T : Measure) (hU : U.Sized l)
    (hB : B.Sized l) (hT : T.Sized l) (h1 : noBetter ow pl p U B) (h2 : worse ow pl p B T) :
    worse ow pl p U T := by
  have lU := slots_length U l hU
  have lB := slots_length B l hB
  have lT := slots_length T l hT
  unfold noBetter at h1
  unfold worse at h2 ⊢
  split_ifs at h1 h2 ⊢
  · exact (cmpM_trans p U.slots B.slots T.slots (by omega) (by omega)).2.2 h1 h2
  · exact (cmpM_trans p T.slots B.slots U.slots (by omega) (by omega)).2.1 h2 h1

theorem worse_trans (ow pl p : Int) (l : Nat) (U B T : Measure) (hU : U.Sized l)
    (hB : B.Sized l) (hT : T.Sized l) (h1 : worse ow pl p U B) (h2 : worse ow pl p B T) :
    worse ow pl p U T := by
  have lU := slots_length U l hU
  have lB := slots_length B l hB
  have lT := slots_length T l hT
  unfold worse at h1 h2 ⊢
  split_ifs at h1 h2 ⊢
  · exact (cmpM_trans p U.slots B.slots T.slots (by omega) (by omega)).2.1 h1 (by omega)
  · exact (cmpM_trans p T.slots B.slots U.slots (by omega) (by omega)).2.1 h2 (by omega)

theorem noBetter_of_worse (ow pl p : Int) (X Y : Measure) (h : worse ow pl p X Y) :
    noBetter ow pl p X Y := by
  unfold worse at h
  unfold noBetter
  split_ifs at h ⊢ <;> omega

/-- The scan of the out-edges of `lift`, in full.  Either nothing was recorded:
`first`, `str` and `best` are as before, and every enabled successor in the list
was seen with `first` false and found no better than `best`; or the scan
recorded the successor `w` at some place of the list: `best` holds the value of
the operation on the measure of `w`, every enabled successor before `w` is worse
than `w`, every enabled successor after `w` is no better, and `w` is better than
the `best` the scan started with when `first` was false. -/
theorem scanOut_char (g : Game) (v : Nat) (pr pl p ow : Int) (hv : v < g.n_nodes)
    (how : rd g.owner v = some ow) :
    ∀ (es : List Nat), (∀ w ∈ es, w < g.n_nodes) →
      ∀ (first : Bool) (str : Int) (s : Solver), s.Ok g →
        ∃ (f1 : Bool) (str1 : Int) (s1 : Solver),
          scanOut g v pr pl p es (first, str, s) = some (f1, str1, s1) ∧ s1.Ok g ∧
            Solver.Same s s1 ∧
          ((f1 = first ∧ str1 = str ∧ s1.best = s.best ∧
              ∀ u ∈ es, rd g.disabled u = some false →
                first = false ∧ ∃ U : Measure, opM s.l s.h pr pl p (s.pm u) = some U ∧
                  noBetter ow pl p U s.best) ∨
           (f1 = false ∧ ∃ (pre : List Nat) (w : Nat) (suf : List Nat) (T : Measure),
              es = pre ++ w :: suf ∧ rd g.disabled w = some false ∧ str1 = (w : Int) ∧
              opM s.l s.h pr pl p (s.pm w) = some T ∧ s1.best = T ∧
              (first = false → worse ow pl p s.best T) ∧
              (∀ u ∈ pre, rd g.disabled u = some false →
                ∃ U : Measure, opM s.l s.h pr pl p (s.pm u) = some U ∧ worse ow pl p U T) ∧
              (∀ u ∈ suf, rd g.disabled u = some false →
                ∃ U : Measure, opM s.l s.h pr pl p (s.pm u) = some U ∧
                  noBetter ow pl p U T)))
  | [], _, first, str, s, hok =>
    ⟨first, str, s, rfl, hok, same_refl s, Or.inl ⟨rfl, rfl, rfl, by simp⟩⟩
  | e :: rest, hes, first, str, s, hok => by
    have hw : e < g.n_nodes := hes e (by simp)
    have hrest : ∀ u ∈ rest, u < g.n_nodes := fun u hu => hes u (by simp [hu])
    have ih := scanOut_char g v pr pl p ow hv how rest hrest
    obtain ⟨dis, hdis⟩ := rd_some g.disabled e (by rw [hok.2.2.2.2.2.2.2.1]; exact hw)
    obtain ⟨t, hop, ht, hload⟩ := load_op_eq g s e pr pl p hok hw
    have hB : s.best.Sized s.l := hok.2.2.2.2.1
    have ok2 := ok_set_tmp g s t hok ht
    have same2 : Solver.Same s { s with tmp := t } := ⟨rfl, rfl, rfl, rfl⟩
    have hbest := tmp_to_best_spec g { s with tmp := t } ok2
    have ok3 := ok_set_best g { s with tmp := t } t ok2 ht
    have same3 : Solver.Same s { s with tmp := t, best := t } := ⟨rfl, rfl, rfl, rfl⟩
    have hc := compare_sized s.l p t s.best hok.1 ht hB
    have hbind : ∀ (f : Solver → Option (Bool × Int × Solver)),
        ((to_tmp s e).bind fun s1 => (applyOp s1 pr pl p).bind f) = f { s with tmp := t } := by
      intro f
      rw [← Option.bind_assoc, hload, Option.some_bind]
    -- the enabled successor `e` is recorded, the rest of the scan starts from it
    have record : ∀ (f0 : Bool), (f0 = false → worse ow pl p s.best t) →
        scanOut g v pr pl p (e :: rest) (f0, str, s)
          = scanOut g v pr pl p rest (false, (e : Int), { s with tmp := t, best := t }) →
        rd g.disabled e = some false →
        ∃ (f1 : Bool) (str1 : Int) (s1 : Solver),
          scanOut g v pr pl p (e :: rest) (f0, str, s) = some (f1, str1, s1) ∧ s1.Ok g ∧
            Solver.Same s s1 ∧
          ((f1 = f0 ∧ str1 = str ∧ s1.best = s.best ∧
              ∀ u ∈ e :: rest, rd g.disabled u = some false →
                f0 = false ∧ ∃ U : Measure, opM s.l s.h pr pl p (s.pm u) = some U ∧
                  noBetter ow pl p U s.best) ∨
           (f1 = false ∧ ∃ (pre : List Nat) (w : Nat) (suf : List Nat) (T : Measure),
              e :: rest = pre ++ w :: suf ∧ rd g.disabled w = some false ∧ str1 = (w : Int) ∧
              opM s.l s.h pr pl p (s.pm w) = some T ∧ s1.best = T ∧
              (f0 = false → worse ow pl p s.best T) ∧
              (∀ u ∈ pre, rd g.disabled u = some false →
                ∃ U : Measure, opM s.l s.h pr pl p (s.pm u) = some U ∧ worse ow pl p U T) ∧
              (∀ u ∈ suf, rd g.disabled u = some false →
                ∃ U : Measure, opM s.l s.h pr pl p (s.pm u) = some U ∧
                  noBetter ow pl p U T))) := by
      intro f0 hf0 hstep hen
      obtain ⟨f1, str1, s1, e1, o1, sm1, hcase⟩ := ih false (e : Int) _ ok3
      refine ⟨f1, str1, s1, hstep.trans e1, o1, same_trans _ _ _ same3 sm1, Or.inr ?_⟩
      rcases hcase with ⟨hf, hs, hb, hall⟩ | ⟨hf, pre, w, suf, T, he, hdw, hs, hT, hb, hwb, hpre,
          hsuf⟩
      · refine ⟨hf, [], e, rest, t, rfl, hen, hs, hop, hb, hf0, by simp, ?_⟩
        intro u hu hdu
        exact (hall u hu hdu).2
      · have hTs : T.Sized s.l := by
          rw [← hb]
          have := o1.2.2.2.2.1
          rwa [sm1.1] at this
        have het : worse ow pl p t T := hwb rfl
        refine ⟨hf, e :: pre, w, suf, T, by rw [he]; rfl, hdw, hs, hT, hb, ?_, ?_, hsuf⟩
        · intro h0
          exact worse_trans ow pl p s.l _ _ _ hB ht hTs (hf0 h0) het
        · intro u hu hdu
          rcases List.mem_cons.mp hu with e2 | e2
          · rw [e2]; exact ⟨t, hop, het⟩
          · exact hpre u e2 hdu
    cases dis with
    | true =>
      have hstep : scanOut g v pr pl p (e :: rest) (first, str, s)
          = scanOut g v pr pl p rest (first, str, s) := by
        rw [scanOut]
        simp only [hdis, Option.bind_eq_bind, Option.some_bind, if_true]
      rw [hstep]
      obtain ⟨f1, str1, s1, e1, o1, sm1, hcase⟩ := ih first str s hok
      refine ⟨f1, str1, s1, e1, o1, sm1, ?_⟩
      rcases hcase with ⟨hf, hs, hb, hall⟩ | ⟨hf, pre, w, suf, T, he, hdw, hs, hT, hb, hwb, hpre,
          hsuf⟩
      · left
        refine ⟨hf, hs, hb, ?_⟩
        intro u hu hdu
        rcases List.mem_cons.mp hu with e2 | e2
        · rw [e2, hdis] at hdu
          simp at hdu
        · exact hall u e2 hdu
      · right
        refine ⟨hf, e :: pre, w, suf, T, by rw [he]; rfl, hdw, hs, hT, hb, hwb, ?_, hsuf⟩
        intro u hu hdu
        rcases List.mem_cons.mp hu with e2 | e2
        · rw [e2, hdis] at hdu
          simp at hdu
        · exact hpre u e2 hdu
    | false =>
      cases first with
      | true =>
        apply record true (fun h => absurd h (by decide)) _ hdis
        rw [scanOut]
        simp only [hdis, Option.bind_eq_bind, Option.some_bind, Bool.false_eq_true, if_false,
          hbind, if_true, hbest]
      | false =>
        have hanti := cmpM_antisymm p t.slots s.best.slots
        have keep : noBetter ow pl p t s.best →
            scanOut g v pr pl p (e :: rest) (false, str, s)
              = scanOut g v pr pl p rest (false, str, { s with tmp := t }) →
            ∃ (f1 : Bool) (str1 : Int) (s1 : Solver),
              scanOut g v pr pl p (e :: rest) (false, str, s) = some (f1, str1, s1) ∧ s1.Ok g ∧
                Solver.Same s s1 ∧
              ((f1 = false ∧ str1 = str ∧ s1.best = s.best ∧
                  ∀ u ∈ e :: rest, rd g.disabled u = some false →
                    false = false ∧ ∃ U : Measure, opM s.l s.h pr pl p (s.pm u) = some U ∧
                      noBetter ow pl p U s.best) ∨
               (f1 = false ∧ ∃ (pre : List Nat) (w : Nat) (suf : List Nat) (T : Measure),
                  e :: rest = pre ++ w :: suf ∧ rd g.disabled w = some false ∧
                  str1 = (w : Int) ∧
                  opM s.l s.h pr pl p (s.pm w) = some T ∧ s1.best = T ∧
                  (false = false → worse ow pl p s.best T) ∧
                  (∀ u ∈ pre, rd g.disabled u = some false →
                    ∃ U : Measure, opM s.l s.h pr pl p (s.pm u) = some U ∧
                      worse ow pl p U T) ∧
                  (∀ u ∈ suf, rd g.disabled u = some false →
                    ∃ U : Measure, opM s.l s.h pr pl p (s.pm u) = some U ∧
                      noBetter ow pl p U T))) := by
          intro hnb hstep
          obtain ⟨f1, str1, s1, e1, o1, sm1, hcase⟩ := ih false str _ ok2
          refine ⟨f1, str1, s1, hstep.trans e1, o1, same_trans _ _ _ same2 sm1, ?_⟩
          rcases hcase with ⟨hf, hs, hb, hall⟩ | ⟨hf, pre, w, suf, T, he, hdw, hs, hT, hb, hwb,
              hpre, hsuf⟩
          · left
            refine ⟨hf, hs, hb, ?_⟩
            intro u hu hdu
            rcases List.mem_cons.mp hu with e2 | e2
            · rw [e2]; exact ⟨rfl, t, hop, hnb⟩
            · exact hall u e2 hdu
          · right
            have hTs : T.Sized s.l := by
              rw [← hb]
              have := o1.2.2.2.2.1
              rwa [sm1.1] at this
            refine ⟨hf, e :: pre, w, suf, T, by rw [he]; rfl, hdw, hs, hT, hb, hwb, ?_, hsuf⟩
            intro u hu hdu
            rcases List.mem_cons.mp hu with e2 | e2
            · rw [e2]
              exact ⟨t, hop, worse_of_noBetter ow pl p s.l _ _ _ ht hB hTs hnb (hwb rfl)⟩
            · exact hpre u e2 hdu
        by_cases hown : ow = pl
        · by_cases hgt : cmpM p t.slots s.best.slots > 0
          · have hworse : worse ow pl p s.best t := by
              unfold worse
              rw [if_pos hown]
              omega
            apply record false (fun _ => hworse) _ hdis
            rw [scanOut]
            simp only [hdis, Option.bind_eq_bind, Option.some_bind, Bool.false_eq_true,
              if_false, hbind, how, hc, hbest, hown, if_true, hgt]
          · have hnb : noBetter ow pl p t s.best := by
              unfold noBetter
              rw [if_pos hown]
              omega
            apply keep hnb
            rw [scanOut]
            simp only [hdis, Option.bind_eq_bind, Option.some_bind, Bool.false_eq_true,
              if_false, hbind, how, hc, hbest, hown, if_true, hgt]
        · by_cases hlt : cmpM p t.slots s.best.slots < 0
          · have hworse : worse ow pl p s.best t := by
              unfold worse
              rw [if_neg hown]
              exact hlt
            apply record false (fun _ => hworse) _ hdis
            rw [scanOut]
            simp only [hdis, Option.bind_eq_bind, Option.some_bind, Bool.false_eq_true,
              if_false, hbind, how, hc, hbest, hown, hlt, if_true]
          · have hnb : noBetter ow pl p t s.best := by
              unfold noBetter
              rw [if_neg hown]
              omega
            apply keep hnb
            rw [scanOut]
            simp only [hdis, Option.bind_eq_bind, Option.some_bind, Bool.false_eq_true,
              if_false, hbind, how, hc, hbest, hown, hlt]

/-! ## The rest of the pool under a store -/

theorem slice_other {α : Type} (A X Y C : List α) (l k u : Nat) (hA : A.length = k * l)
    (hX : X.length = l) (hY : Y.length = l) (hu : u ≠ k) :
    ((A ++ X ++ C).drop (u * l)).take l = ((A ++ Y ++ C).drop (u * l)).take l := by
  apply List.ext_getElem?
  intro i
  by_cases hi : i < l
  · rw [List.getElem?_take_of_lt hi, List.getElem?_take_of_lt hi, List.getElem?_drop,
      List.getElem?_drop]
    rcases Nat.lt_or_gt_of_ne hu with h | h
    · have h1 : u * l + l ≤ k * l := by
        calc u * l + l = (u + 1) * l := by ring
          _ ≤ k * l := Nat.mul_le_mul_right l h
      have h2 : u * l + i < A.length := by omega
      rw [List.append_assoc, List.append_assoc, List.getElem?_append_left h2,
        List.getElem?_append_left h2]
    · have h1 : k * l + l ≤ u * l := by
        calc k * l + l = (k + 1) * l := by ring
          _ ≤ u * l := Nat.mul_le_mul_right l h
      have h2 : (A ++ X).length ≤ u * l + i := by
        rw [List.length_append]; omega
      have h3 : (A ++ Y).length ≤ u * l + i := by
        rw [List.length_append]; omega
      rw [List.getElem?_append_right h2, List.getElem?_append_right h3, List.length_append,
        List.length_append, hX, hY]
  · have e1 : ∀ L : List α, (L.take l)[i]? = none := by
      intro L
      rw [List.getElem?_eq_none]
      rw [List.length_take]
      omega
    rw [e1, e1]

/-- Copy of a scratch array into the slice of vertex `k`: the slices of the other
vertices are as before. -/
theorem copy_to_pool_other {α : Type} (pool src pool1 : List α) (l n k u : Nat)
    (hlen : pool.length = l * n) (hk : k < n) (hs : src.length = l)
    (h : copyLoop src 0 (k * l) l 0 pool = some pool1) (hu : u ≠ k) :
    (pool1.drop (u * l)).take l = (pool.drop (u * l)).take l := by
  obtain ⟨P1, P2, e, h1, h2⟩ := slice_split pool l n k hlen hk
  have := copyLoop_shape 0 (k * l) src ((pool.drop (k * l)).take l) [] [] P1 P2 0
    (by rw [h2, hs]) rfl (by simpa using h1)
  rw [← e, h2] at this
  simp only [List.nil_append, List.append_nil] at this
  rw [h] at this
  simp only [Option.some.injEq] at this
  rw [this]
  conv_rhs => rw [e]
  exact slice_other P1 src _ P2 l k u h1 hs h2 hu

theorem from_tmp_other (g : Game) (s s1 : Solver) (v u : Nat) (hok : s.Ok g)
    (hv : v < g.n_nodes) (h : from_tmp s v = some s1) (hu : u ≠ v) : s1.pm u = s.pm u := by
  obtain ⟨_, hb, hd, ⟨tb, td⟩, _⟩ := hok
  obtain ⟨pb, e1, _, _⟩ := copy_to_pool s.pm_b s.tmp.b s.l g.n_nodes v hb hv tb
  obtain ⟨pd, e2, _, _⟩ := copy_to_pool s.pm_d s.tmp.d s.l g.n_nodes v hd hv td
  have c1 := copy_to_pool_other s.pm_b s.tmp.b pb s.l g.n_nodes v u hb hv tb e1 hu
  have c2 := copy_to_pool_other s.pm_d s.tmp.d pd s.l g.n_nodes v u hd hv td e2 hu
  simp only [from_tmp, e1, e2, Option.bind_eq_bind, Option.some_bind, Option.some.injEq] at h
  rw [← h]
  simp only [Solver.pm, c1, c2]

theorem from_best_other (g : Game) (s s1 : Solver) (v u : Nat) (hok : s.Ok g)
    (hv : v < g.n_nodes) (h : from_best s v = some s1) (hu : u ≠ v) : s1.pm u = s.pm u := by
  obtain ⟨_, hb, hd, _, ⟨bb, bd⟩, _⟩ := hok
  obtain ⟨pb, e1, _, _⟩ := copy_to_pool s.pm_b s.best.b s.l g.n_nodes v hb hv bb
  obtain ⟨pd, e2, _, _⟩ := copy_to_pool s.pm_d s.best.d s.l g.n_nodes v hd hv bd
  have c1 := copy_to_pool_other s.pm_b s.best.b pb s.l g.n_nodes v u hb hv bb e1 hu
  have c2 := copy_to_pool_other s.pm_d s.best.d pd s.l g.n_nodes v u hd hv bd e2 hu
  simp only [from_best, e1, e2, Option.bind_eq_bind, Option.some_bind, Option.some.injEq] at h
  rw [← h]
  simp only [Solver.pm, c1, c2]

theorem from_tmp_scratch (s s1 : Solver) (v : Nat) (h : from_tmp s v = some s1) :
    s1.tmp = s.tmp ∧ s1.best = s.best := by
  unfold from_tmp at h
  simp only [Option.bind_eq_bind, Option.bind_eq_some, Option.some.injEq] at h
  obtain ⟨_, _, _, _, rfl⟩ := h
  exact ⟨rfl, rfl⟩

theorem from_best_scratch (s s1 : Solver) (v : Nat) (h : from_best s v = some s1) :
    s1.tmp = s.tmp ∧ s1.best = s.best := by
  unfold from_best at h
  simp only [Option.bind_eq_bind, Option.bind_eq_some, Option.some.injEq] at h
  obtain ⟨_, _, _, _, rfl⟩ := h
  exact ⟨rfl, rfl⟩

/-! ## `lift`, in full -/

/-- What `lift` stores and leaves in `best`, by the path it takes: the vertex is
Top and nothing happens; or the given target alone is tried; or all out-edges are
scanned and the result of the scan is compared with the measure of the vertex. -/
theorem lift_char (g : Game) (s : Solver) (v : Nat) (target str pl : Int)
    (hok : s.Ok g) (hv : v < g.n_nodes)
    (ht : target = -1 ∨ (0 ≤ target ∧ target < g.n_nodes)) :
    ∃ (r : Bool) (str1 : Int) (s1 : Solver) (pr ow : Int),
      lift g s v target str pl = some (r, str1, s1) ∧ rd g.priority v = some pr ∧
      rd g.owner v = some ow ∧ (∀ u, u ≠ v → s1.pm u = s.pm u) ∧
      (r = false → s1.pm v = s.pm v) ∧
      (((s.pm v).IsTop ∧ r = false ∧ s1 = s) ∨
       (¬ (s.pm v).IsTop ∧ (ow = pl ∧ target ≠ -1) ∧ str1 = str ∧
          ∃ t : Measure, opM s.l s.h pr pl (pindexOf s.h pr pl) (s.pm target.toNat) = some t ∧
            s1.best = s.pm v ∧ (r = true → s1.pm v = t)) ∨
       (¬ (s.pm v).IsTop ∧ ¬ (ow = pl ∧ target ≠ -1) ∧
          ∃ (outv : List Nat) (f1 : Bool) (sS : Solver),
            rd g.out v = some outv ∧
            scanOut g v pr pl (pindexOf s.h pr pl) outv (true, str, s) = some (f1, str1, sS) ∧
            s1.best = sS.best ∧ (r = true → s1.pm v = sS.best) ∧
            (r = true ↔ cmpM (pindexOf s.h pr pl) (s.pm v).slots sS.best.slots < 0))) := by
  have hl := hok.1
  obtain ⟨pr, hpr⟩ := rd_some g.priority v (by rw [hok.2.2.2.2.2.1]; exact hv)
  obtain ⟨ow, how⟩ := rd_some g.owner v (by rw [hok.2.2.2.2.2.2.1]; exact hv)
  obtain ⟨outv, hout⟩ := rd_some g.out v (by rw [hok.2.2.2.2.2.2.2.2.1]; exact hv)
  have houtv : ∀ w ∈ outv, w < g.n_nodes := by
    apply hok.2.2.2.2.2.2.2.2.2 outv
    unfold rd at hout
    exact List.getElem?_mem hout
  have hsz := pm_sized g s v hok hv
  obtain ⟨d0, hd0⟩ := rd_some s.pm_d (s.l * v) (by
    rw [hok.2.2.1]
    exact Nat.mul_lt_mul_of_pos_left hv hl)
  have hhead := pm_head g s v hok hv
  rw [hd0] at hhead
  by_cases htop : d0 = -1
  · -- already Top
    have hT : (s.pm v).IsTop := by
      unfold Measure.IsTop
      rw [← hhead, htop]
    refine ⟨false, str, s, pr, ow, ?_, hpr, how, fun _ _ => rfl, fun _ => rfl,
      Or.inl ⟨hT, rfl, rfl⟩⟩
    simp [lift, hd0, htop]
  · have hnt : ¬ (s.pm v).IsTop := by
      unfold Measure.IsTop
      rw [← hhead]
      simpa using htop
    by_cases hfast : ow = pl ∧ target ≠ -1
    · -- the given target only
      have htv : 0 ≤ target ∧ target < g.n_nodes := by
        rcases ht with h | h
        · exact absurd h hfast.2
        · exact h
      have hw : target.toNat < g.n_nodes := by omega
      obtain ⟨t, hop, htz, hload⟩ :=
        load_op_eq g s target.toNat pr pl (pindexOf s.h pr pl) hok hw
      have ok2 := ok_set_tmp g s t hok htz
      have hbest := to_best_spec g { s with tmp := t } v ok2 hv
      have ok3 := ok_set_best g { s with tmp := t } (s.pm v) ok2 hsz
      obtain ⟨c, hc, hrange⟩ := compare_total s.l (pindexOf s.h pr pl) t (s.pm v) hl htz hsz
      have hbind : ∀ (f : Solver → Option (Bool × Int × Solver)),
          ((to_tmp s target.toNat).bind fun s1 =>
            (applyOp s1 pr pl (pindexOf s.h pr pl)).bind f) = f { s with tmp := t } := by
        intro f
        rw [← Option.bind_assoc, hload, Option.some_bind]
      have hpm : Solver.pm { s with tmp := t } v = s.pm v := rfl
      by_cases hgt : c > 0
      · obtain ⟨s4, h4, ok4, hpm4, hl4, hh4⟩ :=
          from_tmp_spec g { s with tmp := t, best := s.pm v } v ok3 hv
        have hscr := from_tmp_scratch _ s4 v h4
        refine ⟨true, str, s4, pr, ow, ?_, hpr, how, ?_, fun h => absurd h (by decide),
          Or.inr (Or.inl ⟨hnt, hfast, rfl, t, hop, hscr.2, fun _ => hpm4⟩)⟩
        · simp only [lift, hd0, Option.bind_eq_bind, Option.some_bind, htop, if_false, hpr, how,
            hfast, and_self, ne_eq, not_false_eq_true, if_true, not_lt.mpr htv.1, hbind, hbest,
            hpm, hc, hgt, h4]
        · intro u hu
          exact from_tmp_other g { s with tmp := t, best := s.pm v } s4 v u ok3 hv h4 hu
      · refine ⟨false, str, { s with tmp := t, best := s.pm v }, pr, ow, ?_, hpr, how,
          fun _ _ => rfl, fun _ => rfl,
          Or.inr (Or.inl ⟨hnt, hfast, rfl, t, hop, rfl, fun h => absurd h (by decide)⟩)⟩
        simp only [lift, hd0, Option.bind_eq_bind, Option.some_bind, htop, if_false, hpr, how,
          hfast, and_self, ne_eq, not_false_eq_true, if_true, not_lt.mpr htv.1, hbind, hbest,
          hpm, hc, hgt]
    · -- the scan of all out-edges
      obtain ⟨f1, str1, s1, hscan, ok1, same1⟩ :=
        scanOut_spec g v pr pl (pindexOf s.h pr pl) hv outv houtv true str s hok
      have hpm1 := same_pm s s1 v same1
      have htmp := to_tmp_spec g s1 v ok1 hv
      have hsz1 : (s1.pm v).Sized s1.l := pm_sized g s1 v ok1 hv
      have ok2 := ok_set_tmp g s1 (s1.pm v) ok1 hsz1
      have hc := compare_sized s1.l (pindexOf s.h pr pl) (s1.pm v) s1.best ok1.1
        hsz1 ok1.2.2.2.2.1
      by_cases hlt : cmpM (pindexOf s.h pr pl) (s1.pm v).slots s1.best.slots < 0
      · obtain ⟨s3, h3, ok3, hpm3, hl3, hh3⟩ :=
          from_best_spec g { s1 with tmp := s1.pm v } v ok2 hv
        have hscr := from_best_scratch _ s3 v h3
        refine ⟨true, str1, s3, pr, ow, ?_, hpr, how, ?_, fun h => absurd h (by decide),
          Or.inr (Or.inr ⟨hnt, hfast, outv, f1, s1, hout, hscan, hscr.2, fun _ => hpm3, ?_⟩)⟩
        · simp only [lift, hd0, Option.bind_eq_bind, Option.some_bind, htop, if_false, hpr, how,
            hfast, hout, hscan, htmp, hc, hlt, if_true, h3]
        · intro u hu
          rw [from_best_other g { s1 with tmp := s1.pm v } s3 v u ok2 hv h3 hu]
          exact same_pm s s1 u same1
        · rw [← hpm1]
          exact ⟨fun _ => hlt, fun _ => rfl⟩
      · refine ⟨false, str1, { s1 with tmp := s1.pm v }, pr, ow, ?_, hpr, how, ?_, ?_,
          Or.inr (Or.inr ⟨hnt, hfast, outv, f1, s1, hout, hscan, rfl,
            fun h => absurd h (by decide), ?_⟩)⟩
        · simp only [lift, hd0, Option.bind_eq_bind, Option.some_bind, htop, if_false, hpr, how,
            hfast, hout, hscan, htmp, hc, hlt]
        · intro u _
          exact same_pm s s1 u same1
        · intro _
          exact hpm1
        · rw [← hpm1]
          exact ⟨fun h => absurd h (by decide), fun h => absurd h hlt⟩

/-! ## The full scan picks the first extremal enabled successor (C15) -/

/-- The scan skips disabled successors: it gives the same result on the list
without them. -/
theorem scanOut_filter (g : Game) (v : Nat) (pr pl p : Int) :
    ∀ (es : List Nat), (∀ w ∈ es, w < g.disabled.length) →
      ∀ (st : Bool × Int × Solver),
        scanOut g v pr pl p es st
          = scanOut g v pr pl p (es.filter fun u => rd g.disabled u = some false) st
  | [], _, _ => rfl
  | e :: rest, hes, (first, str, s) => by
    have ih := scanOut_filter g v pr pl p rest (fun w hw => hes w (by simp [hw]))
    obtain ⟨dis, hdis⟩ := rd_some g.disabled e (hes e (by simp))
    cases dis with
    | true =>
      have hf : (List.filter (fun u => decide (rd g.disabled u = some false)) (e :: rest))
          = List.filter (fun u => decide (rd g.disabled u = some false)) rest := by
        rw [List.filter_cons_of_neg]
        simp [hdis]
      rw [hf, ← ih]
      rw [scanOut]
      simp only [hdis, Option.bind_eq_bind, Option.some_bind, if_true]
    | false =>
      have hf : (List.filter (fun u => decide (rd g.disabled u = some false)) (e :: rest))
          = e :: List.filter (fun u => decide (rd g.disabled u = some false)) rest := by
        rw [List.filter_cons_of_pos]
        simp [hdis]
      rw [hf, scanOut, scanOut]
      simp only [hdis, Option.bind_eq_bind, Option.some_bind, Bool.false_eq_true, if_false, ih]

theorem compare_of_worse (ow pl p : Int) (l : Nat) (U T : Measure) (hl : 0 < l)
    (hU : U.Sized l) (hT : T.Sized l) (h : worse ow pl p U T) :
    (ow = pl → compare l p U T = some (-1)) ∧ (ow ≠ pl → compare l p U T = some 1) := by
  have hr := cmpM_range p U.slots T.slots
  have ha := cmpM_antisymm p U.slots T.slots
  rw [compare_sized l p U T hl hU hT]
  unfold worse at h
  constructor
  · intro ho
    rw [if_pos ho] at h
    have : cmpM p U.slots T.slots = -1 := by omega
    rw [this]
  · intro ho
    rw [if_neg ho] at h
    have : cmpM p U.slots T.slots = 1 := by omega
    rw [this]

theorem compare_of_noBetter (ow pl p : Int) (l : Nat) (U T : Measure) (hl : 0 < l)
    (hU : U.Sized l) (hT : T.Sized l) (h : noBetter ow pl p U T) :
    ∃ c : Int, compare l p U T = some c ∧ (ow = pl → c ≤ 0) ∧ (ow ≠ pl → 0 ≤ c) := by
  have ha := cmpM_antisymm p U.slots T.slots
  refine ⟨_, compare_sized l p U T hl hU hT, ?_, ?_⟩
  · intro ho
    unfold noBetter at h
    rw [if_pos ho] at h
    exact h
  · intro ho
    unfold noBetter at h
    rw [if_neg ho] at h
    omega

/-- C15: the full scan of `lift` picks the first extremal enabled successor.  In
a solver state set up for the game, for a vertex `v` that is not Top and has an
enabled successor, when `lift` takes the full-scan path (`target = -1` or the
owner of `v` is not `pl`): the out-edges of `v` split as `pre ++ w :: suf` with
`w` enabled; `str` is `w`; with `op` the operation at the level index of `v`
(`prog_tmp` if the priority of `v` has parity `pl`, else `trunc_tmp`) and
`T = op(measure(w))`, every enabled successor `u` before `w` has `op(measure(u))`
strictly less than `T` under `compare` if `owner[v] = pl` and strictly greater
otherwise, every enabled successor after `w` has `op(measure(u))` less or equal,
respectively greater or equal; `best` ends as `T`, the measure committed when
`lift` returns true is `T`, otherwise the measure of `v` is kept; and the scan
gives the same result on the out-edges without the disabled successors. -/
theorem lift_first_extremal (g : Game) (s : Solver) (v : Nat) (target str pl : Int)
    (outv : List Nat) (hok : s.Ok g) (hv : v < g.n_nodes)
    (ht : target = -1 ∨ (0 ≤ target ∧ target < g.n_nodes))
    (hnt : ¬ (s.pm v).IsTop) (hfull : target = -1 ∨ rd g.owner v ≠ some pl)
    (hout : rd g.out v = some outv) (hen : ∃ w ∈ outv, rd g.disabled w = some false) :
    ∃ (r : Bool) (str1 : Int) (s1 : Solver) (pr ow : Int) (pre : List Nat) (w : Nat)
        (suf : List Nat) (T : Measure),
      lift g s v target str pl = some (r, str1, s1) ∧ rd g.priority v = some pr ∧
      rd g.owner v = some ow ∧ outv = pre ++ w :: suf ∧ rd g.disabled w = some false ∧
      str1 = (w : Int) ∧ opM s.l s.h pr pl (pindexOf s.h pr pl) (s.pm w) = some T ∧
      (∀ u ∈ pre, rd g.disabled u = some false →
        ∃ U : Measure, opM s.l s.h pr pl (pindexOf s.h pr pl) (s.pm u) = some U ∧
          (ow = pl → compare s.l (pindexOf s.h pr pl) U T = some (-1)) ∧
          (ow ≠ pl → compare s.l (pindexOf s.h pr pl) U T = some 1)) ∧
      (∀ u ∈ suf, rd g.disabled u = some false →
        ∃ (U : Measure) (c : Int), opM s.l s.h pr pl (pindexOf s.h pr pl) (s.pm u) = some U ∧
          compare s.l (pindexOf s.h pr pl) U T = some c ∧
          (ow = pl → c ≤ 0) ∧ (ow ≠ pl → 0 ≤ c)) ∧
      s1.best = T ∧ (r = true → s1.pm v = T) ∧ (r = false → s1.pm v = s.pm v) ∧
      scanOut g v pr pl (pindexOf s.h pr pl) outv (true, str, s)
        = scanOut g v pr pl (pindexOf s.h pr pl)
            (outv.filter fun u => rd g.disabled u = some false) (true, str, s) := by
  have hl := hok.1
  have houtv : ∀ u ∈ outv, u < g.n_nodes := by
    apply hok.2.2.2.2.2.2.2.2.2 outv
    unfold rd at hout
    exact List.getElem?_mem hout
  obtain ⟨r, str1, s1, pr, ow, hlift, hpr, how, -, hkeep, hcase⟩ :=
    lift_char g s v target str pl hok hv ht
  rcases hcase with ⟨hT, -⟩ | ⟨-, hfast, -⟩ | ⟨-, -, outv1, f1, sS, hout1, hscan, hbest, hcommit,
      -⟩
  · exact absurd hT hnt
  · exfalso
    rcases hfull with h | h
    · exact hfast.2 h
    · exact h (by rw [how, hfast.1])
  · rw [hout] at hout1
    simp only [Option.some.injEq] at hout1
    subst hout1
    obtain ⟨f2, str2, s2, hscan2, ok2, -, hch⟩ :=
      scanOut_char g v pr pl (pindexOf s.h pr pl) ow hv how outv houtv true str s hok
    rw [hscan] at hscan2
    simp only [Option.some.injEq, Prod.mk.injEq] at hscan2
    obtain ⟨rfl, rfl, rfl⟩ := hscan2
    rcases hch with ⟨-, -, -, hall⟩ | ⟨-, pre, w, suf, T, he, hdw, hs, hT, hb, -, hpre, hsuf⟩
    · obtain ⟨w, hw, hdw⟩ := hen
      exact absurd (hall w hw hdw).1 (by decide)
    · have hsplit : ∀ u, u ∈ pre ∨ u ∈ suf → u < g.n_nodes := by
        intro u hu
        apply houtv
        rw [he]
        rcases hu with h | h
        · exact List.mem_append_left _ h
        · exact List.mem_append_right _ (List.mem_cons_of_mem _ h)
      have hTs : T.Sized s.l := by
        have hw : w < g.n_nodes := houtv w (by rw [he]; simp)
        obtain ⟨T1, e1, e2⟩ := opM_total s.l s.h pr pl (pindexOf s.h pr pl) (s.pm w) hl
          (pm_sized g s w hok hw)
        rw [hT] at e1
        simp only [Option.some.injEq] at e1
        rw [e1]; exact e2
      have hUs : ∀ (u : Nat) (U : Measure), u < g.n_nodes →
          opM s.l s.h pr pl (pindexOf s.h pr pl) (s.pm u) = some U → U.Sized s.l := by
        intro u U hu hU
        obtain ⟨U1, e1, e2⟩ := opM_total s.l s.h pr pl (pindexOf s.h pr pl) (s.pm u) hl
          (pm_sized g s u hok hu)
        rw [hU] at e1
        simp only [Option.some.injEq] at e1
        rw [e1]; exact e2
      refine ⟨r, str1, s1, pr, ow, pre, w, suf, T, hlift, hpr, how, he, hdw, hs, hT, ?_, ?_,
        hbest.trans hb, fun h => (hcommit h).trans hb, hkeep, ?_⟩
      · intro u hu hdu
        obtain ⟨U, hU, hw⟩ := hpre u hu hdu
        exact ⟨U, hU, compare_of_worse ow pl _ s.l U T hl (hUs u U (hsplit u (Or.inl hu)) hU)
          hTs hw⟩
      · intro u hu hdu
        obtain ⟨U, hU, hw⟩ := hsuf u hu hdu
        obtain ⟨c, h1, h2, h3⟩ := compare_of_noBetter ow pl _ s.l U T hl
          (hUs u U (hsplit u (Or.inr hu)) hU) hTs hw
        exact ⟨U, c, hU, h1, h2, h3⟩
      · apply scanOut_filter
        intro u hu
        rw [hok.2.2.2.2.2.2.2.1]
        exact houtv u hu

theorem lift_first_extremal_witness :
    ∃ (r : Bool) (str1 : Int) (s1 : Solver) (pr ow : Int) (pre : List Nat) (w : Nat)
        (suf : List Nat) (T : Measure),
      lift exScan exInit 1 (-1) 0 0 = some (r, str1, s1) ∧ rd exScan.priority 1 = some pr ∧
      rd exScan.owner 1 = some ow ∧ [2, 0, 1] = pre ++ w :: suf ∧ rd exScan.disabled w = some false ∧
      str1 = (w : Int) ∧
      opM exInit.l exInit.h pr 0 (pindexOf exInit.h pr 0) (exInit.pm w) = some T ∧
      (∀ u ∈ pre, rd exScan.disabled u = some false →
        ∃ U : Measure, opM exInit.l exInit.h pr 0 (pindexOf exInit.h pr 0) (exInit.pm u) = some U ∧
          (ow = 0 → compare exInit.l (pindexOf exInit.h pr 0) U T = some (-1)) ∧
          (ow ≠ 0 → compare exInit.l (pindexOf exInit.h pr 0) U T = some 1)) ∧
      (∀ u ∈ suf, rd exScan.disabled u = some false →
        ∃ (U : Measure) (c : Int),
          opM exInit.l exInit.h pr 0 (pindexOf exInit.h pr 0) (exInit.pm u) = some U ∧
          compare exInit.l (pindexOf exInit.h pr 0) U T = some c ∧
          (ow = 0 → c ≤ 0) ∧ (ow ≠ 0 → 0 ≤ c)) ∧
      s1.best = T ∧ (r = true → s1.pm 1 = T) ∧ (r = false → s1.pm 1 = exInit.pm 1) ∧
      scanOut exScan 1 pr 0 (pindexOf exInit.h pr 0) [2, 0, 1] (true, 0, exInit)
        = scanOut exScan 1 pr 0 (pindexOf exInit.h pr 0)
            ([2, 0, 1].filter fun u => rd exScan.disabled u = some false) (true, 0, exInit) :=
  lift_first_extremal exScan exInit 1 (-1) 0 0 [2, 0, 1] (by decide) (by decide) (Or.inl rfl)
    (by decide) (Or.inl rfl) (by decide) (by decide)

/-! ## Measures that are Top or finite, under `lift` -/

theorem prog_tmp_top (l : Nat) (p h : Int) (M : Measure) (hM : M.IsTop) :
    prog_tmp l p h M = some M := by
  unfold Measure.IsTop at hM
  simp [prog_tmp, hM]

theorem opM_adm (l : Nat) (h pr pl p : Int) (M : Measure) (hl : 0 < l) (hp : -1 ≤ p)
    (hph : p < h) (hM : M.Adm l h) :
    ∃ T : Measure, opM l h pr pl p M = some T ∧ T.Adm l h := by
  obtain ⟨hs, hM⟩ := hM
  unfold opM
  rcases hM with hT | ⟨hF, hb⟩
  · refine ⟨M, ?_, hs, Or.inl hT⟩
    split_ifs
    · exact prog_tmp_top l p h M hT
    · exact trunc_tmp_top l p M hT
  · split_ifs
    · obtain ⟨S, h1, h2, h3⟩ := prog_finite_le l p h M hl hp hph hF
      refine ⟨S, h1, h2, ?_⟩
      rcases h3 with h3 | ⟨h3, h4⟩
      · exact Or.inl h3
      · exact Or.inr ⟨h3, fun t ht => by have := h4 t ht; omega⟩
    · obtain ⟨T, h1, h2, h3, _⟩ := trunc_finite l p M hl hp hF
      exact ⟨T, h1, h2.1, Or.inr ⟨h2, h3 h hb (by omega)⟩⟩

theorem mem_of_rd {α : Type} (xs : List α) (i : Nat) (x : α) (h : rd xs i = some x) :
    x ∈ xs := by
  unfold rd at h
  exact List.getElem?_mem h

theorem total_out (g : Game) (v : Nat) (outv : List Nat) (hT : g.Total) (hv : v < g.n_nodes)
    (hd : rd g.disabled v = some false) (hout : rd g.out v = some outv) :
    ∃ w ∈ outv, rd g.disabled w = some false := by
  have := hT v hv hd
  unfold rd at hout
  rw [List.getD_eq_getElem?_getD, hout] at this
  exact this

/-- One call of `lift` under the invariant of the driver, for an enabled vertex:
the call returns, the invariant is kept, only the measure of `v` may change, and
it changes exactly when the flag is true, to a measure that `compare` finds
strictly greater at the level index of `v`, which is at most `h - 1`. -/
theorem lift_step (g : Game) (l : Nat) (h : Int) (s : Solver) (v : Nat) (target str pl : Int)
    (hinv : s.Inv g l h) (hlev : g.Levels h pl) (hv : v < g.n_nodes)
    (hd : rd g.disabled v = some false)
    (ht : target = -1 ∨ (0 ≤ target ∧ target < g.n_nodes)) :
    ∃ (r : Bool) (str1 : Int) (s1 : Solver),
      lift g s v target str pl = some (r, str1, s1) ∧ s1.Inv g l h ∧
      (∀ u, u ≠ v → s1.pm u = s.pm u) ∧ (r = false → s1.pm v = s.pm v) ∧
      (r = true → ∃ p : Int, p < h ∧ compare l p (s1.pm v) (s.pm v) = some 1) := by
  obtain ⟨hok, hl, hh, hpool, hbest⟩ := hinv
  obtain ⟨r, str1, s1, pr, h1, h2, h3, -, -, h6, h7, h8⟩ :=
    lift_spec g s v target str pl hok hv ht
  obtain ⟨r', str1', s1', pr', ow, c1, c2, c3, c4, c5, c6⟩ :=
    lift_char g s v target str pl hok hv ht
  rw [h1] at c1
  simp only [Option.some.injEq, Prod.mk.injEq] at c1
  obtain ⟨rfl, rfl, rfl⟩ := c1
  rw [h2] at c2
  simp only [Option.some.injEq] at c2
  subst c2
  have hpl := hlev pr (mem_of_rd _ _ _ h2)
  rw [← hh] at hpl
  have hl0 := hok.1
  have hop : ∀ u, u < g.n_nodes → ∀ T : Measure,
      opM s.l s.h pr pl (pindexOf s.h pr pl) (s.pm u) = some T → T.Adm s.l s.h := by
    intro u hu T hT
    obtain ⟨T1, e1, e2⟩ := opM_adm s.l s.h pr pl _ (s.pm u) hl0 hpl.1 hpl.2 (hpool u hu)
    rw [hT] at e1
    simp only [Option.some.injEq] at e1
    rw [e1]; exact e2
  -- the measure stored for `v` and the measure left in `best`
  have key : (s1.pm v).Adm s.l s.h ∧ (s1.best.Adm s.l s.h ∨ g.Total) := by
    rcases c6 with ⟨-, -, e⟩ | ⟨-, hfast, -, t, ht1, hb, hc⟩ | ⟨-, -, outv, f1, sS, hout, hscan, hb,
        hc, -⟩
    · rw [e]
      refine ⟨hpool v hv, ?_⟩
      rcases hbest with hbest | hbest
      · left; rw [hl, hh]; exact hbest
      · exact Or.inr hbest
    · have htv : 0 ≤ target ∧ target < g.n_nodes := by
        rcases ht with h | h
        · exact absurd h hfast.2
        · exact h
      have hw : target.toNat < g.n_nodes := by omega
      refine ⟨?_, Or.inl (by rw [hb]; exact hpool v hv)⟩
      cases r with
      | true => rw [hc rfl]; exact hop _ hw t ht1
      | false => rw [c5 rfl]; exact hpool v hv
    · have houtv : ∀ u ∈ outv, u < g.n_nodes :=
        hok.2.2.2.2.2.2.2.2.2 outv (mem_of_rd _ _ _ hout)
      obtain ⟨f2, str2, s2, hscan2, -, -, hch⟩ :=
        scanOut_char g v pr pl (pindexOf s.h pr pl) ow hv c3 outv houtv true str s hok
      rw [hscan] at hscan2
      simp only [Option.some.injEq, Prod.mk.injEq] at hscan2
      obtain ⟨rfl, rfl, rfl⟩ := hscan2
      have hsb : sS.best.Adm s.l s.h ∨ g.Total := by
        rcases hch with ⟨-, -, e, hall⟩ | ⟨-, pre, w, suf, T, he, -, -, hT, e, -⟩
        · rcases hbest with hbest | hbest
          · left; rw [e, hl, hh]; exact hbest
          · exact Or.inr hbest
        · left
          rw [e]
          exact hop w (houtv w (by rw [he]; simp)) T hT
      have hsb2 : sS.best.Adm s.l s.h := by
        rcases hch with ⟨-, -, e, hall⟩ | ⟨-, pre, w, suf, T, he, -, -, hT, e, -⟩
        · rcases hbest with hbest | hbest
          · rw [e, hl, hh]; exact hbest
          · obtain ⟨w, hw, hdw⟩ := total_out g v outv hbest hv hd hout
            exact absurd (hall w hw hdw).1 (by decide)
        · rw [e]
          exact hop w (houtv w (by rw [he]; simp)) T hT
      refine ⟨?_, by rw [hb]; exact hsb⟩
      cases r with
      | true => rw [hc rfl]; exact hsb2
      | false => rw [c5 rfl]; exact hpool v hv
  refine ⟨r, str1, s1, h1, ⟨h6, h7.trans hl, h8.trans hh, ?_, ?_⟩, c4, c5, ?_⟩
  · intro u hu
    rw [h7, h8]
    by_cases e : u = v
    · rw [e]; exact key.1
    · rw [c4 u e]; exact hpool u hu
  · rcases key.2 with k | k
    · left; rw [← hl, ← hh]; exact k
    · exact Or.inr k
  · intro hr
    refine ⟨pindexOf s.h pr pl, by rw [← hh]; exact hpl.2, ?_⟩
    rw [← hl]
    exact h3.mp hr

/-! ## The rank of a measure -/

theorem digit_lt (h : Int) (s : Slot) (h0 : 0 ≤ s.2) (h1 : s.2 ≤ h) :
    digit h s < (2 * h + 3).toNat := by
  obtain ⟨b, d⟩ := s
  dsimp only at h0 h1
  unfold digit
  dsimp only [key]
  split_ifs <;> omega

theorem rankS_lt (h : Int) : ∀ xs : List Slot, (∀ s ∈ xs, 0 ≤ s.2 ∧ s.2 ≤ h) →
    rankS h xs < (2 * h + 3).toNat ^ xs.length
  | [], _ => by simp [rankS]
  | a :: xs, hx => by
    have ih := rankS_lt h xs (fun s hs => hx s (by simp [hs]))
    have hd := digit_lt h a (hx a (by simp)).1 (hx a (by simp)).2
    unfold rankS
    rw [List.length_cons, pow_succ]
    calc digit h a * (2 * h + 3).toNat ^ xs.length + rankS h xs
        < digit h a * (2 * h + 3).toNat ^ xs.length + (2 * h + 3).toNat ^ xs.length := by omega
      _ = (digit h a + 1) * (2 * h + 3).toNat ^ xs.length := by ring
      _ ≤ (2 * h + 3).toNat * (2 * h + 3).toNat ^ xs.length := Nat.mul_le_mul_right _ hd
      _ = (2 * h + 3).toNat ^ xs.length * (2 * h + 3).toNat := by ring

theorem digit_lt_of_key (p h : Int) (a b : Slot) (hp : p ≤ h) (ha : 0 ≤ a.2 ∧ a.2 ≤ h)
    (hb : 0 ≤ b.2 ∧ b.2 ≤ h) (hk : key p a < key p b) : digit h a < digit h b := by
  obtain ⟨ab, ad⟩ := a
  obtain ⟨bb, bd⟩ := b
  dsimp only at ha hb
  unfold digit
  dsimp only [key] at hk ⊢
  split_ifs at hk ⊢ <;> omega

/-- A measure that `compare` finds strictly greater at a level bound `p ≤ h`
has the greater rank. -/
theorem rankS_lt_of_cmpS (p h : Int) (hp : p ≤ h) : ∀ xs ys : List Slot,
    xs.length = ys.length → (∀ s ∈ xs, 0 ≤ s.2 ∧ s.2 ≤ h) → (∀ s ∈ ys, 0 ≤ s.2 ∧ s.2 ≤ h) →
    cmpS p xs ys = 1 → rankS h ys < rankS h xs
  | [], _, _, _, _, hc => by simp [cmpS] at hc
  | _ :: _, [], _, _, _, hc => by simp [cmpS] at hc
  | a :: xs, b :: ys, hlen, hx, hy, hc => by
    have hlen1 : xs.length = ys.length := by simpa using hlen
    have ih := rankS_lt_of_cmpS p h hp xs ys hlen1 (fun s hs => hx s (by simp [hs]))
      (fun s hs => hy s (by simp [hs]))
    rw [cmpS_cons_key] at hc
    unfold rankS
    rw [hlen1]
    split_ifs at hc with h1 h2 h3
    · have hd := digit_lt_of_key p h b a hp (hy b (by simp)) (hx a (by simp)) h2
      have hr := rankS_lt h ys (fun s hs => hy s (by simp [hs]))
      calc digit h b * (2 * h + 3).toNat ^ ys.length + rankS h ys
          < digit h b * (2 * h + 3).toNat ^ ys.length + (2 * h + 3).toNat ^ ys.length := by omega
        _ = (digit h b + 1) * (2 * h + 3).toNat ^ ys.length := by ring
        _ ≤ digit h a * (2 * h + 3).toNat ^ ys.length := Nat.mul_le_mul_right _ hd
        _ ≤ digit h a * (2 * h + 3).toNat ^ ys.length + rankS h xs := Nat.le_add_right _ _
    · omega
    · have hk : key p a = key p b := by omega
      have hab : a = b := key_inj p a b hk (by rw [← hk]; exact h3)
      have := ih hc
      rw [hab]
      omega

theorem adm_slots (l : Nat) (h : Int) (xs : List Slot) (hF : (ofSlots xs).Finite l)
    (hb : ∀ t ∈ (ofSlots xs).d, t ≤ h) : ∀ s ∈ xs, 0 ≤ s.2 ∧ s.2 ≤ h := by
  intro s hs
  have hm : s.2 ∈ (ofSlots xs).d := by
    rw [ofSlots_d]
    exact List.mem_map.mpr ⟨s, hs, rfl⟩
  exact ⟨hF.2.1 _ hm, hb _ hm⟩

theorem rank_le (l : Nat) (h : Int) (X : Measure) (hX : X.Adm l h) :
    rank l h X ≤ (2 * h + 3).toNat ^ l := by
  obtain ⟨hs, hX⟩ := hX
  unfold rank
  split_ifs with ht
  · exact le_refl _
  · rcases hX with hX | ⟨hF, hb⟩
    · exact absurd hX ht
    · obtain ⟨xs, hx, rfl⟩ := exists_slots X l hs
      rw [slots_ofSlots]
      have := rankS_lt h xs (adm_slots l h xs hF hb)
      rw [hx] at this
      omega

theorem rank_lt (l : Nat) (p h : Int) (X Y : Measure) (hl : 0 < l) (hp : p ≤ h)
    (hX : X.Adm l h) (hY : Y.Adm l h) (hc : compare l p X Y = some 1) :
    rank l h Y < rank l h X := by
  obtain ⟨hsX, hX⟩ := hX
  obtain ⟨hsY, hY⟩ := hY
  rw [compare_sized l p X Y hl hsX hsY] at hc
  simp only [Option.some.injEq] at hc
  obtain ⟨xs, hx, rfl⟩ := exists_slots X l hsX
  obtain ⟨ys, hy, rfl⟩ := exists_slots Y l hsY
  rw [slots_ofSlots, slots_ofSlots] at hc
  unfold rank
  rw [slots_ofSlots, slots_ofSlots]
  by_cases hty : (ofSlots ys).IsTop
  · exfalso
    have := (isTop_ofSlots ys).mp hty
    unfold cmpM at hc
    rw [if_pos this] at hc
    split_ifs at hc
    omega
  · rcases hY with hY | ⟨hFy, hby⟩
    · exact absurd hY hty
    · rw [if_neg hty]
      have hry := rankS_lt h ys (adm_slots l h ys hFy hby)
      rw [hy] at hry
      by_cases htx : (ofSlots xs).IsTop
      · rw [if_pos htx]; exact hry
      · rcases hX with hX | ⟨hFx, hbx⟩
        · exact absurd hX htx
        · rw [if_neg htx]
          have e1 : (xs.head?.map Prod.snd) ≠ some (-1) := fun e => htx ((isTop_ofSlots xs).mpr e)
          have e2 : (ys.head?.map Prod.snd) ≠ some (-1) := fun e => hty ((isTop_ofSlots ys).mpr e)
          rw [cmpM_finite p xs ys e1 e2] at hc
          exact rankS_lt_of_cmpS p h hp xs ys (by omega) (adm_slots l h xs hFx hbx)
            (adm_slots l h ys hFy hby) hc

/-! ## The potential of the pool -/

theorem potential_congr (s s1 : Solver) (hl : s1.l = s.l) (hh : s1.h = s.h) :
    ∀ n : Nat, (∀ u < n, s1.pm u = s.pm u) → potential s1 n = potential s n
  | 0, _ => rfl
  | n + 1, hpm => by
    unfold potential
    rw [potential_congr s s1 hl hh n (fun u hu => hpm u (by omega)), hpm n (by omega), hl, hh]

theorem potential_lt (s s1 : Solver) (v : Nat) (hl : s1.l = s.l) (hh : s1.h = s.h)
    (hpm : ∀ u, u ≠ v → s1.pm u = s.pm u)
    (hr : rank s.l s.h (s.pm v) < rank s.l s.h (s1.pm v))
    (hb : rank s.l s.h (s1.pm v) ≤ (2 * s.h + 3).toNat ^ s.l) :
    ∀ n : Nat, v < n → potential s1 n < potential s n
  | 0, hv => by omega
  | n + 1, hv => by
    unfold potential
    by_cases e : v = n
    · subst e
      rw [potential_congr s s1 hl hh v (fun u hu => hpm u (by omega)), hl, hh]
      omega
    · have ih := potential_lt s s1 v hl hh hpm hr hb n (by omega)
      rw [hpm n (fun h => e h.symm), hl, hh]
      omega

/-! ## The driver under its invariant -/

theorem todo_push_length (q : List Nat) (v : Nat) : (todo_push q v).length ≤ q.length + 1 := by
  unfold todo_push
  split_ifs
  · omega
  · simp

theorem todo_push_mem (q : List Nat) (v n : Nat) (hq : ∀ x ∈ q, x < n) (hv : v < n) :
    ∀ x ∈ todo_push q v, x < n := by
  unfold todo_push
  split_ifs
  · exact hq
  · intro x hx
    rcases List.mem_append.mp hx with h | h
    · exact hq x h
    · simp at h; rw [h]; exact hv

/-- One successful or failed `lift` in terms of the potential of the pool. -/
theorem lift_potential (g : Game) (l : Nat) (h : Int) (s : Solver) (v : Nat)
    (target str pl : Int) (hinv : s.Inv g l h) (hlev : g.Levels h pl) (hv : v < g.n_nodes)
    (hd : rd g.disabled v = some false)
    (ht : target = -1 ∨ (0 ≤ target ∧ target < g.n_nodes)) :
    ∃ (r : Bool) (str1 : Int) (s1 : Solver),
      lift g s v target str pl = some (r, str1, s1) ∧ s1.Inv g l h ∧
      (r = true → rank l h (s.pm v) < rank l h (s1.pm v) ∧
        rank l h (s1.pm v) ≤ (2 * h + 3).toNat ^ l) ∧
      (r = true → potential s1 g.n_nodes + 1 ≤ potential s g.n_nodes) ∧
      (r = false → potential s1 g.n_nodes = potential s g.n_nodes) := by
  obtain ⟨r, str1, s1, h1, h2, h3, h4, h5⟩ := lift_step g l h s v target str pl hinv hlev hv hd ht
  have hl1 : s1.l = s.l := h2.2.1.trans hinv.2.1.symm
  have hh1 : s1.h = s.h := h2.2.2.1.trans hinv.2.2.1.symm
  have hrank : r = true → rank l h (s.pm v) < rank l h (s1.pm v) ∧
      rank l h (s1.pm v) ≤ (2 * h + 3).toNat ^ l := by
    intro hr
    obtain ⟨p, hp, hc⟩ := h5 hr
    have a1 : (s1.pm v).Adm l h := by
      have := h2.2.2.2.1 v hv
      rwa [h2.2.1, h2.2.2.1] at this
    have a0 : (s.pm v).Adm l h := by
      have := hinv.2.2.2.1 v hv
      rwa [hinv.2.1, hinv.2.2.1] at this
    have hl0 : 0 < l := by rw [← hinv.2.1]; exact hinv.1.1
    exact ⟨rank_lt l p h _ _ hl0 (by omega) a1 a0 hc, rank_le l h _ a1⟩
  refine ⟨r, str1, s1, h1, h2, hrank, ?_, ?_⟩
  · intro hr
    obtain ⟨e1, e2⟩ := hrank hr
    rw [← hinv.2.1, ← hinv.2.2.1] at e1 e2
    have := potential_lt s s1 v hl1 hh1 h3 e1 e2 g.n_nodes hv
    omega
  · intro hr
    apply potential_congr s s1 hl1 hh1
    intro u _
    by_cases e : u = v
    · rw [e]; exact h4 hr
    · exact h3 u e

/-- The loop over the predecessors under the invariant: it returns, keeps the
invariant, and the potential of the pool plus the length of the queue does not
grow. -/
theorem liftPreds_inv (g : Game) (l : Nat) (h pl : Int) (n : Nat) (hlev : g.Levels h pl)
    (hn : n < g.n_nodes) :
    ∀ (preds : List Nat), (∀ w ∈ preds, w < g.n_nodes) →
      ∀ (s : Solver) (q : List Nat), s.Inv g l h → (∀ x ∈ q, x < g.n_nodes) →
        ∃ (s1 : Solver) (q1 : List Nat),
          liftPreds g pl n preds (s, q) = some (s1, q1) ∧ s1.Inv g l h ∧
          (∀ x ∈ q1, x < g.n_nodes) ∧
          potential s1 g.n_nodes + q1.length ≤ potential s g.n_nodes + q.length
  | [], _, s, q, hinv, hq => ⟨s, q, rfl, hinv, hq, le_refl _⟩
  | v :: rest, hp, s, q, hinv, hq => by
    have hv : v < g.n_nodes := hp v (by simp)
    have ih := liftPreds_inv g l h pl n hlev hn rest (fun w hw => hp w (by simp [hw]))
    obtain ⟨dis, hdis⟩ := rd_some g.disabled v (by rw [hinv.1.2.2.2.2.2.2.2.1]; exact hv)
    rw [liftPreds]
    simp only [hdis, Option.bind_eq_bind, Option.some_bind]
    cases dis with
    | true =>
      simp only [if_true]
      exact ih s q hinv hq
    | false =>
      obtain ⟨r, str1, s1, h1, h2, -, h4, h5⟩ :=
        lift_potential g l h s v (n : Int) 0 pl hinv hlev hv hdis (Or.inr ⟨by omega, by omega⟩)
      simp only [Bool.false_eq_true, if_false, h1, Option.some_bind]
      cases r with
      | true =>
        simp only [if_true]
        obtain ⟨s2, q2, e1, e2, e3, e4⟩ := ih s1 (todo_push q v) h2 (todo_push_mem q v _ hq hv)
        have := todo_push_length q v
        have := h4 rfl
        exact ⟨s2, q2, e1, e2, e3, by omega⟩
      | false =>
        simp only [Bool.false_eq_true, if_false]
        obtain ⟨s2, q2, e1, e2, e3, e4⟩ := ih s1 q h2 hq
        have := h5 rfl
        exact ⟨s2, q2, e1, e2, e3, by omega⟩

theorem inn_valid (g : Game) (hin : g.InOk) (n : Nat) (hn : n < g.n_nodes) :
    ∃ preds : List Nat, rd g.inn n = some preds ∧ ∀ w ∈ preds, w < g.n_nodes := by
  obtain ⟨preds, hp⟩ := rd_some g.inn n (by rw [hin.1]; exact hn)
  exact ⟨preds, hp, hin.2 preds (mem_of_rd _ _ _ hp)⟩

/-- The sweep under the invariant: it returns and keeps the invariant. -/
theorem sweep_inv (g : Game) (l : Nat) (h pl : Int) (hlev : g.Levels h pl) (hin : g.InOk) :
    ∀ (k : Nat), k ≤ g.n_nodes →
      ∀ (s : Solver) (q : List Nat), s.Inv g l h → (∀ x ∈ q, x < g.n_nodes) →
        ∃ (s1 : Solver) (q1 : List Nat),
          sweep g pl k (s, q) = some (s1, q1) ∧ s1.Inv g l h ∧ (∀ x ∈ q1, x < g.n_nodes)
  | 0, _, s, q, hinv, hq => ⟨s, q, rfl, hinv, hq⟩
  | n + 1, hk, s, q, hinv, hq => by
    have hn : n < g.n_nodes := by omega
    have ih := sweep_inv g l h pl hlev hin n (by omega)
    obtain ⟨dis, hdis⟩ := rd_some g.disabled n (by rw [hinv.1.2.2.2.2.2.2.2.1]; exact hn)
    rw [sweep]
    simp only [hdis, Option.bind_eq_bind, Option.some_bind]
    cases dis with
    | true =>
      simp only [if_true]
      exact ih s q hinv hq
    | false =>
      obtain ⟨r, str1, s1, h1, h2, -⟩ :=
        lift_potential g l h s n (-1) 0 pl hinv hlev hn hdis (Or.inl rfl)
      simp only [Bool.false_eq_true, if_false, h1, Option.some_bind]
      cases r with
      | true =>
        obtain ⟨preds, hp1, hp2⟩ := inn_valid g hin n hn
        obtain ⟨s2, q2, e1, e2, e3, -⟩ := liftPreds_inv g l h pl n hlev hn preds hp2 s1 q h2 hq
        simp only [if_true, hp1, Option.some_bind, e1]
        exact ih s2 q2 e2 e3
      | false =>
        simp only [Bool.false_eq_true, if_false]
        exact ih s1 q h2 hq

/-- The drain loop under the invariant: for every number of iterations it
returns and keeps the invariant, and the queue is empty once the number of
iterations reaches the potential of the pool plus the length of the queue. -/
theorem drain_inv (g : Game) (l : Nat) (h pl : Int) (hlev : g.Levels h pl) (hin : g.InOk) :
    ∀ (fuel : Nat) (s : Solver) (q : List Nat), s.Inv g l h → (∀ x ∈ q, x < g.n_nodes) →
      ∃ (s1 : Solver) (q1 : List Nat),
        drain g pl fuel (s, q) = some (s1, q1) ∧ s1.Inv g l h ∧
        (potential s g.n_nodes + q.length ≤ fuel → q1 = [])
  | 0, s, q, hinv, _ => by
    refine ⟨s, q, rfl, hinv, ?_⟩
    intro hle
    exact List.length_eq_zero.mp (by omega)
  | fuel + 1, s, q, hinv, hq => by
    have ih := drain_inv g l h pl hlev hin fuel
    rw [drain]
    cases q with
    | nil => exact ⟨s, [], by simp, hinv, fun _ => rfl⟩
    | cons n q0 =>
      have hn : n < g.n_nodes := hq n (by simp)
      obtain ⟨preds, hp1, hp2⟩ := inn_valid g hin n hn
      obtain ⟨s2, q2, e1, e2, e3, e4⟩ := liftPreds_inv g l h pl n hlev hn preds hp2 s q0 hinv
        (fun x hx => hq x (by simp [hx]))
      have hstep : drainStep g pl (s, n :: q0) = some (s2, q2) := by
        simp only [drainStep, todo_pop, hp1, Option.bind_eq_bind, Option.some_bind, e1]
      simp only [hstep, Option.some_bind, if_false, reduceCtorEq]
      obtain ⟨s3, q3, f1, f2, f3⟩ := ih s2 q2 e2 e3
      refine ⟨s3, q3, f1, f2, ?_⟩
      intro hle
      apply f3
      simp only [List.length_cons] at hle
      omega

/-! ## The run from its initial state -/

theorem levels_of_run (g : Game) (h pl max_prio : Int)
    (hpr : ∀ pr ∈ g.priority, 0 ≤ pr ∧ pr ≤ max_prio)
    (hpl : (pl = 0 ∧ h = max_prio.tdiv 2 + 1) ∨ (pl = 1 ∧ h = (max_prio + 1).tdiv 2)) :
    g.Levels h pl := by
  intro pr hmem
  obtain ⟨h0, h1⟩ := hpr pr hmem
  have e1 : max_prio.tdiv 2 = max_prio / 2 := Int.tdiv_eq_ediv (by omega) (by decide)
  have e2 : (pr + 1).tdiv 2 = (pr + 1) / 2 := Int.tdiv_eq_ediv (by omega) (by decide)
  have e3 : (max_prio + 1).tdiv 2 = (max_prio + 1) / 2 := Int.tdiv_eq_ediv (by omega) (by decide)
  have e4 : pr.tdiv 2 = pr / 2 := Int.tdiv_eq_ediv (by omega) (by decide)
  unfold pindexOf
  rcases hpl with ⟨rfl, rfl⟩ | ⟨rfl, rfl⟩
  · simp only [if_true, e1, e2]
    constructor <;> omega
  · simp only [one_ne_zero, if_false, e3, e4]
    constructor <;> omega

theorem resized_length {α : Type} (d : α) (xs : List α) (n : Nat) :
    (resized d xs n).length = n := by
  simp [resized]

theorem initRun_ok (g : Game) (l : Nat) (h : Int) (pre : Solver) (hg : g.Wf) (hl : 1 ≤ l) :
    (initRun g l h pre).Ok g := by
  obtain ⟨g1, g2, g3, g4, g5, -⟩ := hg
  refine ⟨hl, ?_, ?_, ⟨?_, ?_⟩, ⟨?_, ?_⟩, g1, g2, g3, g4, g5⟩
  · exact resized_length _ _ _
  · simp [initRun]
  · exact resized_length _ _ _
  · exact resized_length _ _ _
  · exact resized_length _ _ _
  · exact resized_length _ _ _

/-- The state at the start of the sweep satisfies the invariant of the driver:
the pool holds, for every vertex, a measure with all slots at level 0. -/
theorem initRun_inv (g : Game) (l : Nat) (h pl : Int) (pre : Solver) (hg : g.Wf) (hl : 1 ≤ l)
    (hlev : g.Levels h pl) (hb : g.Total ∨ (initRun g l h pre).best.Adm l h) :
    (initRun g l h pre).Inv g l h := by
  have hok := initRun_ok g l h pre hg hl
  refine ⟨hok, rfl, rfl, ?_, hb.symm⟩
  intro v hv
  have hsz := pm_sized g _ v hok hv
  obtain ⟨pr, hpr⟩ := rd_some g.priority v (by rw [hg.1]; exact hv)
  have hh := hlev pr (mem_of_rd _ _ _ hpr)
  have hzero : ∀ t ∈ ((initRun g l h pre).pm v).d, t = 0 := by
    intro t ht
    have h1 := List.mem_of_mem_take ht
    have h2 := List.mem_of_mem_drop h1
    exact (List.mem_replicate.mp h2).2
  refine ⟨hsz, Or.inr ⟨⟨hsz, ?_, ?_⟩, ?_⟩⟩
  · intro t ht
    rw [hzero t ht]
  · apply List.pairwise_of_forall_mem_list
    intro a ha b hb
    rw [hzero a ha, hzero b hb]
  · intro t ht
    rw [hzero t ht]
    show (0 : Int) ≤ h
    omega

/-- The sweep and the drain loop from the initial state: for every number of
iterations they return and keep the invariant, and from some number of
iterations on the queue is empty. -/
theorem runFix_inv (g : Game) (l : Nat) (h pl : Int) (pre : Solver) (hg : g.Wf) (hl : 1 ≤ l)
    (hlev : g.Levels h pl) (hb : g.Total ∨ (initRun g l h pre).best.Adm l h) :
    ∃ fuel0 : Nat, ∀ fuel : Nat, ∃ (s : Solver) (q : List Nat),
      runFix g l h pl pre fuel = some (s, q) ∧ s.Inv g l h ∧ (fuel0 ≤ fuel → q = []) := by
  have hinv := initRun_inv g l h pl pre hg hl hlev hb
  obtain ⟨s1, q1, e1, e2, e3⟩ := sweep_inv g l h pl hlev hg.2.2.2.2.2 g.n_nodes (le_refl _)
    (initRun g l h pre) [] hinv (by simp)
  refine ⟨potential s1 g.n_nodes + q1.length, ?_⟩
  intro fuel
  obtain ⟨s2, q2, f1, f2, f3⟩ := drain_inv g l h pl hlev hg.2.2.2.2.2 fuel s1 q1 e2 e3
  refine ⟨s2, q2, ?_, f2, f3⟩
  unfold runFix
  rw [e1, Option.some_bind, f1]

/-- The loop that derives the strategies under the invariant: it returns and
keeps the invariant. -/
theorem extractLoop_inv (g : Game) (l : Nat) (h pl : Int) (hlev : g.Levels h pl) :
    ∀ (cnt v : Nat), v + cnt ≤ g.n_nodes →
      ∀ (s : Solver) (strat : List Int) (errs : List Nat), s.Inv g l h →
        strat.length = g.n_nodes →
        ∃ (s1 : Solver) (strat1 : List Int) (errs1 : List Nat),
          extractLoop g pl cnt v (s, strat, errs) = some (s1, strat1, errs1) ∧ s1.Inv g l h ∧
          strat1.length = g.n_nodes
  | 0, _, _, s, strat, errs, hinv, hs => ⟨s, strat, errs, rfl, hinv, hs⟩
  | cnt + 1, v, hle, s, strat, errs, hinv, hs => by
    have hv : v < g.n_nodes := by omega
    have ih := extractLoop_inv g l h pl hlev cnt (v + 1) (by omega)
    obtain ⟨dis, hdis⟩ := rd_some g.disabled v (by rw [hinv.1.2.2.2.2.2.2.2.1]; exact hv)
    obtain ⟨d0, hd0⟩ := rd_some s.pm_d (s.l * v) (by
      rw [hinv.1.2.2.1]
      exact Nat.mul_lt_mul_of_pos_left hv hinv.1.1)
    obtain ⟨ow, how⟩ := rd_some g.owner v (by rw [hinv.1.2.2.2.2.2.2.1]; exact hv)
    obtain ⟨sv, hsv⟩ := rd_some strat v (by rw [hs]; exact hv)
    rw [extractLoop]
    simp only [hdis, Option.bind_eq_bind, Option.some_bind]
    cases dis with
    | true =>
      simp only [if_true]
      exact ih s strat errs hinv hs
    | false =>
      simp only [Bool.false_eq_true, if_false, hd0, Option.some_bind]
      by_cases htop : d0 = -1
      · simp only [htop, ne_eq, not_true_eq_false, if_false]
        exact ih s strat errs hinv hs
      · simp only [ne_eq, htop, not_false_eq_true, if_true, how, Option.some_bind]
        by_cases hown : ow = pl
        · simp only [hown, not_true_eq_false, if_false]
          exact ih s strat errs hinv hs
        · obtain ⟨r, str1, s1, h1, h2, -⟩ :=
            lift_step g l h s v (-1) sv pl hinv hlev hv hdis (Or.inl rfl)
          have hwr : wr strat v str1 = some (strat.set v str1) := by
            unfold wr
            rw [if_pos (by rw [hs]; exact hv)]
          simp only [hown, not_false_eq_true, if_true, hsv, Option.some_bind, h1, hwr]
          exact ih s1 _ _ h2 (by rw [List.length_set]; exact hs)

/-- The loop that marks the solved vertices returns for a pool and a strategy
array of the sizes of the game. -/
theorem markLoop_total (g : Game) (pl : Int) (s : Solver) (strat : List Int) (hok : s.Ok g)
    (hs : strat.length = g.n_nodes) :
    ∀ (cnt v : Nat), v + cnt ≤ g.n_nodes → ∀ acc : List (Nat × Int × Int),
      ∃ res : List (Nat × Int × Int), markLoop g pl s strat cnt v acc = some res
  | 0, _, _, acc => ⟨acc, rfl⟩
  | cnt + 1, v, hle, acc => by
    have hv : v < g.n_nodes := by omega
    have ih := markLoop_total g pl s strat hok hs cnt (v + 1) (by omega)
    obtain ⟨dis, hdis⟩ := rd_some g.disabled v (by rw [hok.2.2.2.2.2.2.2.1]; exact hv)
    obtain ⟨d0, hd0⟩ := rd_some s.pm_d (s.l * v) (by
      rw [hok.2.2.1]
      exact Nat.mul_lt_mul_of_pos_left hv hok.1)
    obtain ⟨sv, hsv⟩ := rd_some strat v (by rw [hs]; exact hv)
    rw [markLoop]
    simp only [hdis, Option.bind_eq_bind, Option.some_bind, hd0, hsv]
    cases dis with
    | true =>
      simp only [if_true]
      exact ih acc
    | false =>
      simp only [Bool.false_eq_true, if_false]
      split_ifs
      · exact ih _
      · exact ih _

/-- The whole of `run(n_bits, depth, player)` returns once the drain loop is
given enough iterations, and the state it leaves satisfies the invariant. -/
theorem run_inv (g : Game) (l : Nat) (h pl : Int) (pre : Solver) (strat : List Int)
    (hg : g.Wf) (hl : 1 ≤ l) (hlev : g.Levels h pl)
    (hb : g.Total ∨ (initRun g l h pre).best.Adm l h) (hs : strat.length = g.n_nodes) :
    ∃ fuel0 : Nat, ∀ fuel : Nat, fuel0 ≤ fuel →
      ∃ res : RunResult, run g l h pl pre strat fuel = some res ∧ res.s.Inv g l h := by
  obtain ⟨fuel0, hfix⟩ := runFix_inv g l h pl pre hg hl hlev hb
  refine ⟨fuel0, ?_⟩
  intro fuel hf
  obtain ⟨s1, q1, e1, e2, e3⟩ := hfix fuel
  have hq := e3 hf
  subst hq
  obtain ⟨s2, strat2, errs, f1, f2, f3⟩ :=
    extractLoop_inv g l h pl hlev g.n_nodes 0 (by omega) s1 strat [] e2 hs
  obtain ⟨res, hres⟩ := markLoop_total g pl s2 strat2 f2.1 f3 g.n_nodes 0 (by omega) []
  refine ⟨⟨s2, strat2, errs, res⟩, ?_, f2⟩
  unfold run
  simp only [e1, Option.bind_eq_bind, Option.some_bind, ne_eq, not_true_eq_false, if_false, f1,
    hres]

/-! ## Termination of the driver and the partition invariant, without junk in `best` -/

theorem pool_top_or_finite (g : Game) (l : Nat) (h : Int) (s : Solver) (hinv : s.Inv g l h) :
    ∀ v < g.n_nodes, (s.pm v).IsTop ∨ (s.pm v).Finite l := by
  intro v hv
  have := hinv.2.2.2.1 v hv
  rw [hinv.2.1] at this
  rcases this.2 with h1 | h1
  · exact Or.inl h1
  · exact Or.inr h1.1

/-- Termination of the driver when `best` is never read as junk.  For a game
whose arrays have one entry per vertex and whose edges lead to vertices,
priorities in `[0, max_prio]`, a bit budget `l ≥ 1`, and the player and level
count of either pass of `run()` (`pl = 0`, `h = max_prio/2 + 1` or `pl = 1`,
`h = (max_prio+1)/2`), provided every enabled vertex has an enabled successor or
the scratch measure `best` starts as a well-formed measure: there is a number of
iterations from which on the drain loop of `run(l, h, pl)` has emptied the work
queue and `run(l, h, pl)` returns; and every `lift` of an enabled vertex in a
state of the run (invariant `Solver.Inv`) returns in such a state and, when it
returns true, has strictly increased the rank of the vertex, a natural number
bounded by the rank `(2h+3)^l` of Top. -/
theorem run_terminates (g : Game) (l : Nat) (h pl max_prio : Int) (pre : Solver)
    (strat : List Int) (hg : g.Wf) (hl : 1 ≤ l)
    (hpr : ∀ pr ∈ g.priority, 0 ≤ pr ∧ pr ≤ max_prio)
    (hpl : (pl = 0 ∧ h = max_prio.tdiv 2 + 1) ∨ (pl = 1 ∧ h = (max_prio + 1).tdiv 2))
    (hb : g.Total ∨ (initRun g l h pre).best.Adm l h) (hs : strat.length = g.n_nodes) :
    (∃ fuel0 : Nat, ∀ fuel : Nat, fuel0 ≤ fuel →
      (∃ s : Solver, runFix g l h pl pre fuel = some (s, [])) ∧
      ∃ res : RunResult, run g l h pl pre strat fuel = some res) ∧
    (∀ (s : Solver) (v : Nat) (target str : Int), s.Inv g l h → v < g.n_nodes →
      rd g.disabled v = some false → (target = -1 ∨ (0 ≤ target ∧ target < g.n_nodes)) →
      ∃ (r : Bool) (str1 : Int) (s1 : Solver),
        lift g s v target str pl = some (r, str1, s1) ∧ s1.Inv g l h ∧
        (r = true → rank l h (s.pm v) < rank l h (s1.pm v) ∧
          rank l h (s1.pm v) ≤ (2 * h + 3).toNat ^ l)) := by
  have hlev := levels_of_run g h pl max_prio hpr hpl
  constructor
  · obtain ⟨f1, h1⟩ := runFix_inv g l h pl pre hg hl hlev hb
    obtain ⟨f2, h2⟩ := run_inv g l h pl pre strat hg hl hlev hb hs
    refine ⟨max f1 f2, ?_⟩
    intro fuel hf
    obtain ⟨s, q, e1, -, e3⟩ := h1 fuel
    obtain ⟨res, e4, -⟩ := h2 fuel (le_trans (le_max_right _ _) hf)
    have hq := e3 (le_trans (le_max_left _ _) hf)
    subst hq
    exact ⟨⟨s, e1⟩, res, e4⟩
  · intro s v target str hinv hv hd ht
    obtain ⟨r, str1, s1, e1, e2, e3, -⟩ :=
      lift_potential g l h s v target str pl hinv hlev hv hd ht
    exact ⟨r, str1, s1, e1, e2, e3⟩

theorem run_terminates_witness :
    (∃ fuel0 : Nat, ∀ fuel : Nat, fuel0 ≤ fuel →
      (∃ s : Solver, runFix exScan 2 1 0 exPre fuel = some (s, [])) ∧
      ∃ res : RunResult, run exScan 2 1 0 exPre [0, 0, 0] fuel = some res) ∧
    (∀ (s : Solver) (v : Nat) (target str : Int), s.Inv exScan 2 1 → v < exScan.n_nodes →
      rd exScan.disabled v = some false →
      (target = -1 ∨ (0 ≤ target ∧ target < exScan.n_nodes)) →
      ∃ (r : Bool) (str1 : Int) (s1 : Solver),
        lift exScan s v target str 0 = some (r, str1, s1) ∧ s1.Inv exScan 2 1 ∧
        (r = true → rank 2 1 (s.pm v) < rank 2 1 (s1.pm v) ∧
          rank 2 1 (s1.pm v) ≤ (2 * 1 + 3 : Int).toNat ^ 2)) :=
  run_terminates exScan 2 1 0 0 exPre [0, 0, 0] (by decide) (by decide) (by decide)
    (Or.inl ⟨rfl, by decide⟩) (Or.inl (by decide)) rfl

/-- The partition invariant when `best` is never read as junk.  For `l ≥ 1` and
a finite measure `M` (non-negative, non-decreasing tags): `trunc_tmp(M, p)` for
`p ≥ -1` has non-decreasing (and non-negative) tags, and `prog_tmp(M, p, h)` for
`0 ≤ p < h` is Top or has non-negative, non-decreasing tags.  For a game whose
arrays have one entry per vertex, priorities in `[0, max_prio]` and the player
and level count of either pass of `run()`, provided every enabled vertex has an
enabled successor or the scratch measure `best` starts as a well-formed measure:
every `lift` of an enabled vertex in a state of the run leaves every measure of
the pool Top or finite; so does the sweep followed by any number of iterations
of the drain loop; and so does the whole of `run(l, h, pl)`. -/
theorem partition_invariant_preserved (g : Game) (l : Nat) (h pl max_prio : Int)
    (pre : Solver) (strat : List Int) (hg : g.Wf) (hl : 1 ≤ l)
    (hpr : ∀ pr ∈ g.priority, 0 ≤ pr ∧ pr ≤ max_prio)
    (hpl : (pl = 0 ∧ h = max_prio.tdiv 2 + 1) ∨ (pl = 1 ∧ h = (max_prio + 1).tdiv 2))
    (hb : g.Total ∨ (initRun g l h pre).best.Adm l h) (hs : strat.length = g.n_nodes) :
    (∀ (M : Measure) (p : Int), M.Finite l → -1 ≤ p →
      ∃ T : Measure, trunc_tmp l p M = some T ∧ T.d.Pairwise (fun x y => x ≤ y) ∧
        T.Finite l) ∧
    (∀ (M : Measure) (p d : Int), M.Finite l → 0 ≤ p → p < d →
      ∃ S : Measure, prog_tmp l p d M = some S ∧ (S.IsTop ∨ S.Finite l)) ∧
    (∀ (s : Solver) (v : Nat) (target str : Int), s.Inv g l h → v < g.n_nodes →
      rd g.disabled v = some false → (target = -1 ∨ (0 ≤ target ∧ target < g.n_nodes)) →
      ∃ (r : Bool) (str1 : Int) (s1 : Solver),
        lift g s v target str pl = some (r, str1, s1) ∧ s1.Inv g l h ∧
        ∀ u < g.n_nodes, (s1.pm u).IsTop ∨ (s1.pm u).Finite l) ∧
    (∀ fuel : Nat, ∃ (s : Solver) (q : List Nat), runFix g l h pl pre fuel = some (s, q) ∧
      ∀ v < g.n_nodes, (s.pm v).IsTop ∨ (s.pm v).Finite l) ∧
    (∃ fuel0 : Nat, ∀ fuel : Nat, fuel0 ≤ fuel →
      ∃ res : RunResult, run g l h pl pre strat fuel = some res ∧
        ∀ v < g.n_nodes, (res.s.pm v).IsTop ∨ (res.s.pm v).Finite l) := by
  have hlev := levels_of_run g h pl max_prio hpr hpl
  refine ⟨?_, ?_, ?_, ?_, ?_⟩
  · intro M p hM hp
    obtain ⟨T, h1, h2, -⟩ := trunc_finite l p M hl hp hM
    exact ⟨T, h1, h2.2.2, h2⟩
  · intro M p d hM hp hpd
    obtain ⟨S, h1, -, h3⟩ := prog_finite_le l p d M hl (by omega) hpd hM
    refine ⟨S, h1, ?_⟩
    rcases h3 with h3 | h3
    · exact Or.inl h3
    · exact Or.inr h3.1
  · intro s v target str hinv hv hd ht
    obtain ⟨r, str1, s1, e1, e2, -⟩ := lift_step g l h s v target str pl hinv hlev hv hd ht
    exact ⟨r, str1, s1, e1, e2, pool_top_or_finite g l h s1 e2⟩
  · intro fuel
    obtain ⟨f1, h1⟩ := runFix_inv g l h pl pre hg hl hlev hb
    obtain ⟨s, q, e1, e2, -⟩ := h1 fuel
    exact ⟨s, q, e1, pool_top_or_finite g l h s e2⟩
  · obtain ⟨f2, h2⟩ := run_inv g l h pl pre strat hg hl hlev hb hs
    refine ⟨f2, ?_⟩
    intro fuel hf
    obtain ⟨res, e1, e2⟩ := h2 fuel hf
    exact ⟨res, e1, pool_top_or_finite g l h res.s e2⟩

theorem partition_invariant_preserved_witness :
    (∀ (M : Measure) (p : Int), M.Finite 2 → -1 ≤ p →
      ∃ T : Measure, trunc_tmp 2 p M = some T ∧ T.d.Pairwise (fun x y => x ≤ y) ∧
        T.Finite 2) ∧
    (∀ (M : Measure) (p d : Int), M.Finite 2 → 0 ≤ p → p < d →
      ∃ S : Measure, prog_tmp 2 p d M = some S ∧ (S.IsTop ∨ S.Finite 2)) ∧
    (∀ (s : Solver) (v : Nat) (target str : Int), s.Inv exGame1 2 1 → v < exGame1.n_nodes →
      rd exGame1.disabled v = some false →
      (target = -1 ∨ (0 ≤ target ∧ target < exGame1.n_nodes)) →
      ∃ (r : Bool) (str1 : Int) (s1 : Solver),
        lift exGame1 s v target str 0 = some (r, str1, s1) ∧ s1.Inv exGame1 2 1 ∧
        ∀ u < exGame1.n_nodes, (s1.pm u).IsTop ∨ (s1.pm u).Finite 2) ∧
    (∀ fuel : Nat, ∃ (s : Solver) (q : List Nat),
      runFix exGame1 2 1 0 exPre fuel = some (s, q) ∧
      ∀ v < exGame1.n_nodes, (s.pm v).IsTop ∨ (s.pm v).Finite 2) ∧
    (∃ fuel0 : Nat, ∀ fuel : Nat, fuel0 ≤ fuel →
      ∃ res : RunResult, run exGame1 2 1 0 exPre [0, 0, 0] fuel = some res ∧
        ∀ v < exGame1.n_nodes, (res.s.pm v).IsTop ∨ (res.s.pm v).Finite 2) :=
  partition_invariant_preserved exGame1 2 1 0 0 exPre [0, 0, 0] (by decide) (by decide)
    (by decide) (Or.inl ⟨rfl, by decide⟩) (Or.inr (by decide)) rfl

/-! ## A vertex without enabled successor and a `best` that was never written -/

set_option maxRecDepth 100000 in
/-- C16 fails on the code: `lift` stores a measure that breaks the partition
invariant.  On `gJunk`, `run(2, 1, 0)` from `preJunk` (empty bitsets, the fresh
array `best_d` holds `5, 3`) starts the sweep with `lift(1, -1)`; vertex 1 has no
enabled successor, the scan never writes `best`, `compare` finds the minimum
measure of vertex 1 below what `best` holds, so `lift` returns true and stores
the tags `5, 3`: the stored measure is not Top and its tags decrease.  The run
ends with that measure in the pool and reports vertex 1 solved. -/
theorem lift_stores_unsorted :
    rd gJunk.disabled 1 = some false ∧
      (∀ es ∈ rd gJunk.out 1, ∀ w ∈ es, rd gJunk.disabled w = some true) ∧
      (initRun gJunk 2 1 preJunk).best = ⟨[false, false], [5, 3]⟩ ∧
      (∀ v < gJunk.n_nodes, ((initRun gJunk 2 1 preJunk).pm v).Finite 2) ∧
      (lift gJunk (initRun gJunk 2 1 preJunk) 1 (-1) 0 0).map (fun r => (r.1, r.2.2.pm 1))
        = some (true, ⟨[false, false], [5, 3]⟩) ∧
      ¬ (⟨[false, false], [5, 3]⟩ : Measure).IsTop ∧
      ¬ (⟨[false, false], [5, 3]⟩ : Measure).d.Pairwise (fun x y => x ≤ y) ∧
      (run gJunk 2 1 0 preJunk [0, 0, 0] 2).map (fun r => (r.s.pm 1, r.solved))
        = some (⟨[false, false], [5, 3]⟩, [(1, 1, 0)]) := by
  decide

end SSPM
